import Mathlib

/-!
# ARM instruction disassembler (`ncc-support/disass.c`)

A shallow embedding of the single-instruction ARM disassembler.

* Machine words (`unsigned32`) are natural numbers below `2 ^ 32`; every
  operation that can wrap in C is reduced modulo `2 ^ 32` explicitly.
* The output buffer is modelled by the text that lies before the write
  cursor.  Every writer of the source (`append_str`, `sprintf`, the
  mnemonic emitter) stores a terminating NUL at the cursor, so the buffer
  read back as a C string is exactly that text.
* The symbolication callback is a function from the event it receives to
  the text it writes at the cursor; the returned cursor is the given cursor
  advanced by the length of that text, so "cursor unchanged" is "empty
  text".  Every decoder returns the final text together with the list of
  callback invocations it made, in order.
* The process-wide hex prefix `g_hexprefix` is an explicit parameter.
-/

namespace Disass

/-! ## Bit fields -/

/-- The macro `BITS(v,hi,lo)`: `((v >> lo) & ((1u << (hi-lo+1)) - 1u))`. -/
def BITS (v hi lo : Nat) : Nat :=
  (v >>> lo) &&& ((1 <<< (hi - lo + 1)) - 1)

/-! ## Tables -/

/-- The table `cond_codes[16]`. -/
def cond_codes : List String :=
  ["EQ", "NE", "CS", "CC",
   "MI", "PL", "VS", "VC",
   "HI", "LS", "GE", "LT",
   "GT", "LE", "AL", "NV"]

/-- The table `dp_opnames[16]`. -/
def dp_opnames : List String :=
  ["AND", "EOR", "SUB", "RSB",
   "ADD", "ADC", "SBC", "RSC",
   "TST", "TEQ", "CMP", "CMN",
   "ORR", "MOV", "BIC", "MVN"]

/-- The constant `mnemonic_field_width`. -/
def mnemonic_field_width : Nat := 16

/-! ## Number formatting (`sprintf` conversions) -/

/-- One digit of a `%u` / `%X` conversion: `0`..`9`, then `A`..`F`. -/
def digitChar (d : Nat) : Char :=
  if d < 10 then Char.ofNat (48 + d) else Char.ofNat (55 + d)

/-- Digits of `n` in base `b`, most significant first, with `fuel` bounding
the number of digits produced. -/
def digitsFuel (b : Nat) : Nat → Nat → List Char
  | 0, _ => []
  | fuel + 1, n =>
    if n < b then [digitChar n]
    else digitsFuel b fuel (n / b) ++ [digitChar (n % b)]

/-- The conversion `%u` (also `%d` of a non-negative value). -/
def fmtDec (n : Nat) : String := String.mk (digitsFuel 10 (n + 1) n)

/-- The conversion `%X`: uppercase hexadecimal, no padding. -/
def fmtHex (n : Nat) : String := String.mk (digitsFuel 16 (n + 1) n)

/-- The conversions `%0wX` and `%.wX`: uppercase hexadecimal, padded on the
left with zeros to at least `w` digits. -/
def fmtHexPad (w n : Nat) : String :=
  String.mk (List.replicate (w - (fmtHex n).length) '0') ++ fmtHex n

/-! ## Mnemonic emitter -/

/-- The function `emit_mnemonic_with_suffix`: base, condition code unless
AL, optional suffix, one space, then spaces up to the field width. -/
def emit_mnemonic_with_suffix (p : String) (base : String) (suffix : Option String)
    (cond : Nat) : String :=
  let body := base ++ (if cond ≠ 0xE then cond_codes.getD cond "" else "")
    ++ suffix.getD "" ++ " "
  p ++ body ++ String.mk (List.replicate (mnemonic_field_width - body.length) ' ')

/-- The function `emit_mnemonic`. -/
def emit_mnemonic (p : String) (mnem : String) (cond : Nat) : String :=
  emit_mnemonic_with_suffix p mnem none cond

/-! ## Operand renderer -/

/-- The function `fallback_regname`; `use_apcs_reg_names` is the constant 0,
so the configured table is never consulted. -/
def fallback_regname (r : Nat) : String :=
  if r ≥ 16 then "r?"
  else ["r0", "r1", "r2", "r3", "r4", "r5", "r6", "r7",
        "r8", "r9", "r10", "r11", "r12", "sp", "lr", "pc"].getD r ""

/-- The function `append_str`. -/
def append_str (p : String) (s : String) : String := p ++ s

/-- The function `append_reg`. -/
def append_reg (p : String) (r : Nat) : String := append_str p (fallback_regname r)

/-- The function `append_immediate`: `sprintf(p, "#%s%X", g_hexprefix, imm)`. -/
def append_immediate (hexpfx : String) (p : String) (imm : Nat) : String :=
  p ++ "#" ++ hexpfx ++ fmtHex imm

/-- The function `rotate_imm` on 32-bit words. -/
def rotate_imm (imm8 rot : Nat) : Nat :=
  let rot := rot &&& 31
  if rot = 0 then imm8
  else (imm8 >>> rot) ||| ((imm8 <<< (32 - rot)) % 2 ^ 32)

/-- The name of a shift type, as selected by the conditional chains of
`decode_shifted_reg`. -/
def shift_name (shift_type : Nat) : String :=
  if shift_type = 0 then "LSL"
  else if shift_type = 1 then "LSR"
  else if shift_type = 2 then "ASR" else "ROR"

/-- The function `decode_shifted_reg`. -/
def decode_shifted_reg (p : String) (instr : Nat) : String :=
  let rm := BITS instr 3 0
  let shift_imm := BITS instr 11 7
  let shift_type := BITS instr 6 5
  let reg_shift := BITS instr 4 4
  let p := append_reg p rm
  if reg_shift ≠ 0 then
    let rs := BITS instr 11 8
    let p := append_str p ", "
    let p := append_str p (shift_name shift_type)
    let p := append_str p " "
    append_reg p rs
  else if shift_imm = 0 then
    if shift_type = 0 then p
    else if shift_type = 3 then append_str p ", RRX"
    else
      let stype := if shift_type = 1 then "LSR" else "ASR"
      let p := append_str p ", "
      let p := append_str p stype
      append_str p " #32"
  else
    let p := append_str p ", "
    let p := append_str p (shift_name shift_type)
    p ++ " #" ++ fmtDec shift_imm

/-! ## Symbolication callback -/

/-- The enumeration `dis_cb_type`. -/
inductive dis_cb_type where
  | D_BORBL
  | D_ADDPCREL
  | D_SUBPCREL
  | D_LOADPCREL
  | D_STOREPCREL
  | D_LOAD
  | D_STORE
  deriving DecidableEq, Repr

/-- The arguments of one callback invocation: event kind, `int32 offset`,
`unsigned32 address` and the instruction word as `int w`.  The opaque
`cb_arg` is passed through untouched and the cursor is implicit. -/
structure CbCall where
  type : dis_cb_type
  offset : Int
  address : Nat
  w : Int
  deriving DecidableEq, Repr

/-- The type `dis_cb_fn`: the text the callback writes at the cursor. -/
abbrev dis_cb_fn := CbCall → String

/-- What a decoder leaves behind: the buffer read as a C string and the
callback invocations made. -/
structure Result where
  text : String
  calls : List CbCall
  deriving DecidableEq, Repr

/-- The text a supplied callback writes for one invocation. -/
def call_cb (cb : Option dis_cb_fn) (c : CbCall) : String :=
  match cb with
  | some f => f c
  | none => ""

/-- The cast `(int32)x` of a 32-bit word (two's complement). -/
def toInt32 (x : Nat) : Int :=
  if x % 2 ^ 32 < 2 ^ 31 then (x % 2 ^ 32 : Nat) else ((x % 2 ^ 32 : Nat) : Int) - 2 ^ 32

/-- The cast `(unsigned32)x` of a signed value. -/
def toUInt32 (x : Int) : Nat := (x % 2 ^ 32).toNat

/-! ## Family decoders -/

/-- The function `disass_data_processing`.  The decoder writes from the
start of the buffer, so the text on entry is overwritten. -/
def disass_data_processing (instr pc : Nat) (cb : Option dis_cb_fn) : Result :=
  let cond := BITS instr 31 28
  let opcode := BITS instr 24 21
  let sbit := BITS instr 20 20
  let rn := BITS instr 19 16
  let rd := BITS instr 15 12
  let imm := BITS instr 25 25
  let p := ""
  let op := dp_opnames.getD opcode ""
  let mnem :=
    if opcode ≥ 8 ∧ opcode ≤ 11 then op
    else if sbit ≠ 0 then op ++ "S"
    else op
  let p := emit_mnemonic p mnem cond
  let p :=
    if opcode ≥ 8 ∧ opcode ≤ 11 then
      let p := append_reg p rn
      append_str p ", "
    else if opcode = 13 ∨ opcode = 15 then
      let p := append_reg p rd
      append_str p ", "
    else
      let p := append_reg p rd
      let p := append_str p ", "
      let p := append_reg p rn
      append_str p ", "
  if imm ≠ 0 then
    let imm8 := BITS instr 7 0
    let rot := (BITS instr 11 8 * 2) % 2 ^ 32
    let val := rotate_imm imm8 rot
    if cb.isSome ∧ rn = 15 ∧ (opcode = 4 ∨ opcode = 2) then
      let type := if opcode = 4 then dis_cb_type.D_ADDPCREL else dis_cb_type.D_SUBPCREL
      let c : CbCall := ⟨type, toInt32 val, (pc + 8) % 2 ^ 32, toInt32 instr⟩
      ⟨p ++ call_cb cb c, [c]⟩
    else
      ⟨p ++ "#" ++ fmtDec val, []⟩
  else
    ⟨decode_shifted_reg p instr, []⟩

/-- The function `append_offset_decimal_naked`. -/
def append_offset_decimal_naked (p : String) (soff : Int) : String :=
  let abs := toUInt32 (if soff < 0 then -soff else soff)
  if soff < 0 then p ++ "-" ++ fmtDec abs else p ++ fmtDec abs

/-- The function `append_hex_comment_for_offset`. -/
def append_hex_comment_for_offset (hexpfx : String) (p : String) (abs : Nat) : String :=
  if abs ≤ 9 then p else p ++ "   @ " ++ hexpfx ++ fmtHex abs

/-- The inline sequence
`if (soff < 0) p += sprintf(p, "-%d", abs); else p += sprintf(p, "%d", abs);`
with `abs = (soff < 0) ? -soff : soff`. -/
def append_signed_decimal (p : String) (soff : Int) : String :=
  let abs := if soff < 0 then -soff else soff
  if soff < 0 then p ++ "-" ++ fmtDec abs.toNat else p ++ fmtDec abs.toNat

/-- The inline sequence
`if (rn == 13 && off > 9) p += sprintf(p, "   @ %s%X", g_hexprefix, off);`. -/
def append_sp_hex_comment (hexpfx : String) (p : String) (rn off : Nat) : String :=
  if rn = 13 ∧ off > 9 then p ++ "   @ " ++ hexpfx ++ fmtHex off else p

/-- The function `disass_single_data_transfer`. -/
def disass_single_data_transfer (hexpfx : String) (instr pc : Nat)
    (cb : Option dis_cb_fn) : Result :=
  let cond := BITS instr 31 28
  let pbit := BITS instr 24 24
  let ubit := BITS instr 23 23
  let bbit := BITS instr 22 22
  let wbit := BITS instr 21 21
  let lbit := BITS instr 20 20
  let rn := BITS instr 19 16
  let rd := BITS instr 15 12
  let imm := BITS instr 25 25
  let off := BITS instr 11 0
  let p := ""
  let base :=
    if lbit ≠ 0 then (if bbit ≠ 0 then "LDRB" else "LDR")
    else (if bbit ≠ 0 then "STRB" else "STR")
  let p := emit_mnemonic p base cond
  let p := append_reg p rd
  let p := append_str p ", "
  if imm ≠ 0 then
    let rm := BITS instr 3 0
    if pbit ≠ 0 then
      let p := append_str p "["
      let p := append_reg p rn
      let p := append_str p ", "
      let p := if ubit = 0 then append_str p "-" else p
      let p := append_reg p rm
      let p := append_str p "]"
      let p := if wbit ≠ 0 then append_str p "!" else p
      ⟨p, []⟩
    else
      let p := append_str p "["
      let p := append_reg p rn
      let p := append_str p "], "
      let p := if ubit = 0 then append_str p "-" else p
      let p := append_reg p rm
      ⟨p, []⟩
  else if rn = 15 ∧ cb.isSome then
    let soff : Int := toInt32 off
    let soff := if ubit = 0 then -soff else soff
    let t : Int := toInt32 pc + 8 + soff
    let type := if lbit ≠ 0 then dis_cb_type.D_LOADPCREL else dis_cb_type.D_STOREPCREL
    let c : CbCall := ⟨type, soff, toUInt32 t, toInt32 instr⟩
    ⟨p ++ call_cb cb c, [c]⟩
  else if cb.isSome then
    let type := if lbit ≠ 0 then dis_cb_type.D_LOAD else dis_cb_type.D_STORE
    let soff : Int := toInt32 off
    let soff := if ubit = 0 then -soff else soff
    if off = 0 ∧ pbit ≠ 0 ∧ wbit = 0 then
      let p := append_str p "["
      let p := append_reg p rn
      let p := append_str p "]"
      ⟨p, []⟩
    else if pbit ≠ 0 then
      let p := append_str p "["
      let p := append_reg p rn
      let p := append_str p ", #"
      let c : CbCall := ⟨type, soff, 0, toInt32 instr⟩
      let written := call_cb cb c
      if written.length = 0 then
        let p := append_offset_decimal_naked p soff
        let p := append_str p "]"
        let p := if wbit ≠ 0 then append_str p "!" else p
        let p := if rn = 13 ∧ off > 9 then append_hex_comment_for_offset hexpfx p off else p
        ⟨p, [c]⟩
      else
        let p := p ++ written
        let p := append_str p "]"
        let p := if wbit ≠ 0 then append_str p "!" else p
        ⟨p, [c]⟩
    else
      let p := append_str p "["
      let p := append_reg p rn
      let p := append_str p "], #"
      let c : CbCall := ⟨type, soff, 0, toInt32 instr⟩
      let written := call_cb cb c
      if written.length = 0 then
        let p := append_signed_decimal p soff
        let p := append_sp_hex_comment hexpfx p rn off
        ⟨p, [c]⟩
      else
        ⟨p ++ written, [c]⟩
  else
    let soff : Int := if ubit = 0 then toInt32 off else -toInt32 off
    if off = 0 ∧ pbit ≠ 0 ∧ wbit = 0 then
      let p := append_str p "["
      let p := append_reg p rn
      let p := append_str p "]"
      ⟨append_sp_hex_comment hexpfx p rn off, []⟩
    else if pbit ≠ 0 then
      let p := append_str p "["
      let p := append_reg p rn
      let p := append_str p ", #"
      let p := append_signed_decimal p soff
      let p := append_str p "]"
      let p := if wbit ≠ 0 then append_str p "!" else p
      ⟨append_sp_hex_comment hexpfx p rn off, []⟩
    else
      let p := append_str p "["
      let p := append_reg p rn
      let p := append_str p "], #"
      let p := append_signed_decimal p soff
      ⟨append_sp_hex_comment hexpfx p rn off, []⟩

/-- The function `disass_branch`. -/
def disass_branch (hexpfx : String) (instr pc : Nat) (cb : Option dis_cb_fn) : Result :=
  let cond := BITS instr 31 28
  let link := BITS instr 24 24
  let imm24 := instr &&& 0x00FFFFFF
  let p := ""
  let imm24 := if imm24 &&& 0x00800000 ≠ 0 then imm24 ||| 0xFF000000 else imm24
  let target := (pc + 8 + (imm24 <<< 2) % 2 ^ 32) % 2 ^ 32
  let base := if link ≠ 0 then "BL" else "B"
  let p := emit_mnemonic p base cond
  if cb.isSome then
    let c : CbCall := ⟨dis_cb_type.D_BORBL, 0, target, toInt32 instr⟩
    ⟨p ++ call_cb cb c, [c]⟩
  else
    ⟨p ++ hexpfx ++ fmtHexPad 8 target, []⟩

/-- The function `disass_swi`. -/
def disass_swi (hexpfx : String) (instr : Nat) : Result :=
  let cond := BITS instr 31 28
  let imm24 := instr &&& 0x00FFFFFF
  let p := ""
  let p := emit_mnemonic p "SWI" cond
  ⟨p ++ hexpfx ++ fmtHexPad 6 imm24, []⟩

/-- The inner loop of `append_reglist`:
`while (end + 1 < 16 && (list & (1u << (end + 1)))) ++end;`. -/
def reglist_run_end (list : Nat) : Nat → Nat → Nat
  | 0, e => e
  | fuel + 1, e =>
    if e + 1 < 16 ∧ list &&& (1 <<< (e + 1)) ≠ 0 then reglist_run_end list fuel (e + 1)
    else e

/-- The outer loop `while (r < 16)` of `append_reglist`, carrying the loop
variables `r`, `first` and the cursor. -/
def reglist_loop (list : Nat) : Nat → Nat → Bool → String → String
  | 0, _, _, p => p
  | fuel + 1, r, first, p =>
    if r < 16 then
      if list &&& (1 <<< r) ≠ 0 then
        let start := r
        let e := reglist_run_end list 16 r
        let p := if first then p else p ++ ", "
        let p := append_reg p start
        let p := if e > start then append_reg (p ++ "-") e else p
        reglist_loop list fuel (e + 1) false p
      else
        reglist_loop list fuel (r + 1) first p
    else p

/-- The function `append_reglist`.  Each pass of the outer loop increases
`r`, so sixteen passes reach `r = 16`. -/
def append_reglist (p : String) (list : Nat) : String :=
  reglist_loop list 17 0 true (p ++ "\x7b") ++ "\x7d"

/-- The function `disass_block_data_transfer`. -/
def disass_block_data_transfer (instr : Nat) : Result :=
  let cond := BITS instr 31 28
  let pbit := BITS instr 24 24
  let ubit := BITS instr 23 23
  let sbit := BITS instr 22 22
  let wbit := BITS instr 21 21
  let lbit := BITS instr 20 20
  let rn := BITS instr 19 16
  let regs := instr &&& 0xFFFF
  let base := if lbit ≠ 0 then "LDM" else "STM"
  let p := ""
  let mode :=
    if ubit ≠ 0 then (if pbit ≠ 0 then "IB" else "IA")
    else (if pbit ≠ 0 then "DB" else "DA")
  let mnem := base ++ mode
  let p := emit_mnemonic p mnem cond
  let p := append_reg p rn
  let p := if wbit ≠ 0 then p ++ "!" else p
  let p := append_str p ", "
  let p := append_reglist p regs
  let p := if sbit ≠ 0 then p ++ "^" else p
  ⟨p, []⟩

/-- The function `disass_multiply`. -/
def disass_multiply (instr : Nat) : Result :=
  let cond := BITS instr 31 28
  let sbit := BITS instr 20 20
  let acc := BITS instr 21 21
  let rn := BITS instr 19 16
  let rd := BITS instr 15 12
  let rs := BITS instr 11 8
  let rm := BITS instr 3 0
  let p := ""
  let mnem :=
    if acc ≠ 0 then "MLA" ++ (if sbit ≠ 0 then "S" else "")
    else "MUL" ++ (if sbit ≠ 0 then "S" else "")
  let p := emit_mnemonic p mnem cond
  let p := append_reg p rd
  let p := append_str p ", "
  let p := append_reg p rm
  let p := append_str p ", "
  let p := append_reg p rs
  let p := if acc ≠ 0 then append_reg (append_str p ", ") rn else p
  ⟨p, []⟩

/-- The function `disass_long_multiply`. -/
def disass_long_multiply (instr : Nat) : Result :=
  let cond := BITS instr 31 28
  let ubit := BITS instr 22 22
  let abit := BITS instr 21 21
  let sbit := BITS instr 20 20
  let rdhi := BITS instr 19 16
  let rdlo := BITS instr 15 12
  let rs := BITS instr 11 8
  let rm := BITS instr 3 0
  let p := ""
  let base :=
    if ubit = 0 ∧ abit = 0 then "UMULL"
    else if ubit = 0 ∧ abit = 1 then "UMLAL"
    else if ubit = 1 ∧ abit = 0 then "SMULL"
    else "SMLAL"
  let mnem := base ++ (if sbit ≠ 0 then "S" else "")
  let p := emit_mnemonic p mnem cond
  let p := append_reg p rdlo
  let p := append_str p ", "
  let p := append_reg p rdhi
  let p := append_str p ", "
  let p := append_reg p rm
  let p := append_str p ", "
  let p := append_reg p rs
  ⟨p, []⟩

/-- The function `disass_halfword_signed_transfer`; `out` is the buffer
content on entry, left untouched by the early return. -/
def disass_halfword_signed_transfer (hexpfx : String) (instr : Nat) (out : String) :
    Result :=
  let cond := BITS instr 31 28
  let pbit := BITS instr 24 24
  let ubit := BITS instr 23 23
  let ibit := BITS instr 22 22
  let wbit := BITS instr 21 21
  let lbit := BITS instr 20 20
  let rn := BITS instr 19 16
  let rd := BITS instr 15 12
  let high := BITS instr 11 8
  let sh := BITS instr 6 5
  let low := BITS instr 3 0
  let p := ""
  let base : Option String :=
    if lbit = 0 ∧ sh = 1 then some "STRH"
    else if lbit ≠ 0 ∧ sh = 1 then some "LDRH"
    else if lbit ≠ 0 ∧ sh = 2 then some "LDRSB"
    else if lbit ≠ 0 ∧ sh = 3 then some "LDRSH"
    else none
  match base with
  | none => ⟨out, []⟩
  | some base =>
    let p := emit_mnemonic p base cond
    let p := append_reg p rd
    let p := append_str p ", "
    if ibit ≠ 0 then
      let off := (high <<< 4) ||| low
      if off = 0 ∧ pbit ≠ 0 ∧ wbit = 0 then
        let p := append_str p "["
        let p := append_reg p rn
        let p := append_str p "]"
        ⟨p, []⟩
      else if pbit ≠ 0 then
        let p := append_str p "["
        let p := append_reg p rn
        let p := append_str p ", "
        let p := if ubit = 0 then append_str p "-" else p
        let p := append_immediate hexpfx p off
        let p := append_str p "]"
        let p := if wbit ≠ 0 then append_str p "!" else p
        ⟨p, []⟩
      else
        let p := append_str p "["
        let p := append_reg p rn
        let p := append_str p "], "
        let p := if ubit = 0 then append_str p "-" else p
        let p := append_immediate hexpfx p off
        ⟨p, []⟩
    else
      let rm := low
      if pbit ≠ 0 then
        let p := append_str p "["
        let p := append_reg p rn
        let p := append_str p ", "
        let p := if ubit = 0 then append_str p "-" else p
        let p := append_reg p rm
        let p := append_str p "]"
        let p := if wbit ≠ 0 then append_str p "!" else p
        ⟨p, []⟩
      else
        let p := append_str p "["
        let p := append_reg p rn
        let p := append_str p "], "
        let p := if ubit = 0 then append_str p "-" else p
        let p := append_reg p rm
        ⟨p, []⟩

/-- The function `disass_swp`. -/
def disass_swp (instr : Nat) : Result :=
  let cond := BITS instr 31 28
  let rn := BITS instr 19 16
  let rd := BITS instr 15 12
  let rm := BITS instr 3 0
  let byte := instr &&& (1 <<< 22) ≠ 0
  let base := if byte then "SWPB" else "SWP"
  let p := ""
  let p := emit_mnemonic p base cond
  let p := append_reg p rd
  let p := append_str p ", "
  let p := append_reg p rm
  let p := append_str p ", ["
  let p := append_reg p rn
  let p := append_str p "]"
  ⟨p, []⟩

/-- The function `disass_bx_blx_reg`. -/
def disass_bx_blx_reg (instr : Nat) : Result :=
  let cond := BITS instr 31 28
  let rm := BITS instr 3 0
  let link := instr &&& 0x20 ≠ 0
  let base := if link then "BLX" else "BX"
  let p := ""
  let p := emit_mnemonic p base cond
  let p := append_reg p rm
  ⟨p, []⟩

/-- The function `disass_clz`. -/
def disass_clz (instr : Nat) : Result :=
  let cond := BITS instr 31 28
  let rd := BITS instr 15 12
  let rm := BITS instr 3 0
  let p := ""
  let p := emit_mnemonic p "CLZ" cond
  let p := append_reg p rd
  let p := append_str p ", "
  let p := append_reg p rm
  ⟨p, []⟩

/-- The function `disass_mrs`. -/
def disass_mrs (instr : Nat) : Result :=
  let cond := BITS instr 31 28
  let rd := BITS instr 15 12
  let psr := BITS instr 22 22
  let psr_name := if psr ≠ 0 then "SPSR" else "CPSR"
  let p := ""
  let p := emit_mnemonic p "MRS" cond
  let p := append_reg p rd
  let p := append_str p ", "
  let p := append_str p psr_name
  ⟨p, []⟩

/-- The function `disass_msr`. -/
def disass_msr (hexpfx : String) (instr : Nat) : Result :=
  let cond := BITS instr 31 28
  let psr := BITS instr 22 22
  let psr_name := if psr ≠ 0 then "SPSR" else "CPSR"
  let imm := BITS instr 25 25
  let p := ""
  let p := emit_mnemonic p "MSR" cond
  let p := append_str p psr_name
  let p := append_str p ", "
  if imm ≠ 0 then
    let imm8 := BITS instr 7 0
    let rot := (BITS instr 11 8 * 2) % 2 ^ 32
    let val := rotate_imm imm8 rot
    ⟨append_immediate hexpfx p val, []⟩
  else
    let rm := BITS instr 3 0
    ⟨append_reg p rm, []⟩

/-! ## Dispatcher -/

/-- The default rendering `sprintf(out, "DCD      %s%.8lX", g_hexprefix, instr)`. -/
def default_dump (hexpfx : String) (instr : Nat) : String :=
  "DCD      " ++ hexpfx ++ fmtHexPad 8 instr

/-- The type of the sibling decoder `disass_vfp(instr, pc, cb_arg, cb, out)`,
whose source is not part of this development: `none` when it does not
recognise the word, otherwise what it leaves in the buffer. -/
abbrev vfp_decoder := Nat → Nat → Option dis_cb_fn → Option Result

/-- The function `disass`.  `vfp` is the sibling decoder when the build has
`TARGET_HAS_VFP`, and `none` otherwise. -/
def disass (hexpfx : String) (vfp : Option vfp_decoder) (w oldq : Nat)
    (cb : Option dis_cb_fn) : Result :=
  let instr := w % 2 ^ 32
  let pc := oldq % 2 ^ 32
  let out := default_dump hexpfx instr
  if instr &&& 0xfe000000 = 0xfa000000 then ⟨out, []⟩
  else if instr &&& 0x0ffffff0 = 0x012fff10 ∨ instr &&& 0x0ffffff0 = 0x012fff30 then
    disass_bx_blx_reg instr
  else if instr &&& 0x0fb00ff0 = 0x01000090 then disass_swp instr
  else if instr &&& 0x0fff0ff0 = 0x016f0f10 then disass_clz instr
  else if instr &&& 0x0fbf0fff = 0x010f0000 then disass_mrs instr
  else if instr &&& 0x0db0f000 = 0x0120f000 then disass_msr hexpfx instr
  else if instr &&& 0x0FC000F0 = 0x00000090 ∨ instr &&& 0x0FC000F0 = 0x00200090 then
    disass_multiply instr
  else if instr &&& 0x0F8000F0 = 0x00800090 then disass_long_multiply instr
  else if instr &&& 0x0E0000F0 = 0x000000B0 then
    disass_halfword_signed_transfer hexpfx instr out
  else if instr &&& 0x0E000000 = 0x0A000000 then disass_branch hexpfx instr pc cb
  else if instr &&& 0x0F000000 = 0x0F000000 then disass_swi hexpfx instr
  else if instr &&& 0x0C000000 = 0x04000000 then
    disass_single_data_transfer hexpfx instr pc cb
  else if instr &&& 0x0E000000 = 0x08000000 then disass_block_data_transfer instr
  else if instr &&& 0x0C000000 = 0x00000000 then disass_data_processing instr pc cb
  else
    match vfp with
    | some f =>
      match f instr pc cb with
      | some r => r
      | none => ⟨out, []⟩
    | none => ⟨out, []⟩

/-! ## Specification-side definitions -/

/-- The dispatcher path to the data-processing decoder: every earlier test
of `disass` fails and the data-processing test (bits 27:26 = 00) holds. -/
def routed_to_data_processing (instr : Nat) : Prop :=
  ¬ (instr &&& 0xfe000000 = 0xfa000000) ∧
  ¬ (instr &&& 0x0ffffff0 = 0x012fff10 ∨ instr &&& 0x0ffffff0 = 0x012fff30) ∧
  ¬ (instr &&& 0x0fb00ff0 = 0x01000090) ∧
  ¬ (instr &&& 0x0fff0ff0 = 0x016f0f10) ∧
  ¬ (instr &&& 0x0fbf0fff = 0x010f0000) ∧
  ¬ (instr &&& 0x0db0f000 = 0x0120f000) ∧
  ¬ (instr &&& 0x0FC000F0 = 0x00000090 ∨ instr &&& 0x0FC000F0 = 0x00200090) ∧
  ¬ (instr &&& 0x0F8000F0 = 0x00800090) ∧
  ¬ (instr &&& 0x0E0000F0 = 0x000000B0) ∧
  ¬ (instr &&& 0x0E000000 = 0x0A000000) ∧
  ¬ (instr &&& 0x0F000000 = 0x0F000000) ∧
  ¬ (instr &&& 0x0C000000 = 0x04000000) ∧
  ¬ (instr &&& 0x0E000000 = 0x08000000) ∧
  instr &&& 0x0C000000 = 0x00000000

instance (instr : Nat) : Decidable (routed_to_data_processing instr) :=
  inferInstanceAs (Decidable (_ ∧ _ ∧ _ ∧ _ ∧ _ ∧ _ ∧ _ ∧ _ ∧ _ ∧ _ ∧ _ ∧ _ ∧ _ ∧ _))

/-- The base mnemonic of a data-processing word as the specification gives
it: the opcode's name from the 16-entry table, with `S` appended exactly when
bit 20 is set and the opcode is not TST/TEQ/CMP/CMN. -/
def dp_mnemonic_spec (w : Nat) : String :=
  ["AND", "EOR", "SUB", "RSB", "ADD", "ADC", "SBC", "RSC",
   "TST", "TEQ", "CMP", "CMN", "ORR", "MOV", "BIC", "MVN"].getD (BITS w 24 21) ""
  ++ (if BITS w 20 20 = 1 ∧ ¬ (8 ≤ BITS w 24 21 ∧ BITS w 24 21 ≤ 11) then "S" else "")

/-- The register operands that precede operand 2, as the specification gives
them: `Rn, ` for TST/TEQ/CMP/CMN, `Rd, ` for MOV/MVN and `Rd, Rn, ` for every
other opcode, with Rd = bits 15:12 and Rn = bits 19:16. -/
def dp_register_operands_spec (w : Nat) : String :=
  if 8 ≤ BITS w 24 21 ∧ BITS w 24 21 ≤ 11 then
    fallback_regname (BITS w 19 16) ++ ", "
  else if BITS w 24 21 = 13 ∨ BITS w 24 21 = 15 then
    fallback_regname (BITS w 15 12) ++ ", "
  else
    fallback_regname (BITS w 15 12) ++ ", " ++ fallback_regname (BITS w 19 16) ++ ", "

/-- The guard `cb != NULL && rn == 15 && (opcode == 4 || opcode == 2)` of the
PC-relative callback path of `disass_data_processing`. -/
def dp_pcrel_callback_path (w : Nat) (cb : Option dis_cb_fn) : Prop :=
  cb.isSome ∧ BITS w 19 16 = 15 ∧ (BITS w 24 21 = 4 ∨ BITS w 24 21 = 2)

instance (w : Nat) (cb : Option dis_cb_fn) : Decidable (dp_pcrel_callback_path w cb) :=
  inferInstanceAs (Decidable (_ ∧ _ ∧ _))

/-- The text `disass_data_processing` writes for operand 2. -/
def dp_operand2 (w pc : Nat) (cb : Option dis_cb_fn) : String :=
  if BITS w 25 25 ≠ 0 then
    if cb.isSome ∧ BITS w 19 16 = 15 ∧ (BITS w 24 21 = 4 ∨ BITS w 24 21 = 2) then
      call_cb cb ⟨if BITS w 24 21 = 4 then dis_cb_type.D_ADDPCREL else dis_cb_type.D_SUBPCREL,
        toInt32 (rotate_imm (BITS w 7 0) ((BITS w 11 8 * 2) % 2 ^ 32)),
        (pc + 8) % 2 ^ 32, toInt32 w⟩
    else "#" ++ fmtDec (rotate_imm (BITS w 7 0) ((BITS w 11 8 * 2) % 2 ^ 32))
  else decode_shifted_reg "" w

/-- The text a single-data-transfer line starts with: the mnemonic field
(LDR, LDRB, STR or STRB with the condition) and `Rd, `. -/
def sdt_head (w : Nat) : String :=
  emit_mnemonic ""
    (if BITS w 20 20 = 1 then (if BITS w 22 22 = 1 then "LDRB" else "LDR")
     else (if BITS w 22 22 = 1 then "STRB" else "STR"))
    (BITS w 31 28)
  ++ fallback_regname (BITS w 15 12) ++ ", "

/-- The three shapes of an immediate-offset address operand, as the
specification gives them, for the numeral `N`: `[Rn]` when the offset is 0,
P = 1 and W = 0; `[Rn, #N]` with `!` exactly when W = 1, when P = 1 otherwise;
`[Rn], #N` when P = 0. -/
def sdt_immediate_shape (w : Nat) (N : String) : String :=
  if BITS w 11 0 = 0 ∧ BITS w 24 24 = 1 ∧ BITS w 21 21 = 0 then
    "[" ++ fallback_regname (BITS w 19 16) ++ "]"
  else if BITS w 24 24 = 1 then
    "[" ++ fallback_regname (BITS w 19 16) ++ ", #" ++ N ++ "]"
      ++ (if BITS w 21 21 = 1 then "!" else "")
  else
    "[" ++ fallback_regname (BITS w 19 16) ++ "], #" ++ N

/-- The shapes of a register-offset address operand, as the specification
gives them: the bracket shapes with the name of Rm, preceded by `-` when
U = 0, in place of `#N`. -/
def sdt_register_shape (w : Nat) : String :=
  if BITS w 24 24 = 1 then
    "[" ++ fallback_regname (BITS w 19 16) ++ ", "
      ++ (if BITS w 23 23 = 0 then "-" else "") ++ fallback_regname (BITS w 3 0) ++ "]"
      ++ (if BITS w 21 21 = 1 then "!" else "")
  else
    "[" ++ fallback_regname (BITS w 19 16) ++ "], "
      ++ (if BITS w 23 23 = 0 then "-" else "") ++ fallback_regname (BITS w 3 0)

/-- The stack-relative comment that may follow the address operand: three
spaces, `@`, a space, the hex prefix and the offset in hexadecimal, present when
the base register is 13 and the offset exceeds 9. -/
def sdt_sp_comment (hexpfx : String) (w : Nat) : String :=
  if BITS w 19 16 = 13 ∧ BITS w 11 0 > 9 then "   @ " ++ hexpfx ++ fmtHex (BITS w 11 0)
  else ""

/-- The numeral the decoder writes for an immediate offset when no callback
is supplied. -/
def sdt_numeral_no_callback (w : Nat) : String :=
  if BITS w 23 23 = 1 ∧ BITS w 11 0 ≠ 0 then "-" ++ fmtDec (BITS w 11 0)
  else fmtDec (BITS w 11 0)

/-- The 12-bit offset of a single-data-transfer word signed by the U bit:
`+off12` when U = 1 and `-off12` when U = 0. -/
def sdt_signed_offset (w : Nat) : Int :=
  if BITS w 23 23 = 1 then ((BITS w 11 0 : Nat) : Int) else -((BITS w 11 0 : Nat) : Int)

/-- The decimal numeral of the 12-bit offset with the sign the U bit gives:
a leading `-` exactly when U = 0 and the offset is not zero. -/
def sdt_numeral_signed (w : Nat) : String :=
  if BITS w 23 23 = 0 ∧ BITS w 11 0 ≠ 0 then "-" ++ fmtDec (BITS w 11 0)
  else fmtDec (BITS w 11 0)

/-- The address `(a + 8 + offset) mod 2^32` of a PC-relative access decoded at
address `a`. -/
def pcrel_address_spec (a : Nat) (offset : Int) : Nat :=
  (((a : Int) + 8 + offset) % 2 ^ 32).toNat

/-- The callback invocation the specification describes for a PC-relative
load or store: kind by the L bit, the signed offset, the target address and
the instruction word. -/
def sdt_pcrel_call (w a : Nat) : CbCall :=
  ⟨if BITS w 20 20 = 1 then dis_cb_type.D_LOADPCREL else dis_cb_type.D_STOREPCREL,
   sdt_signed_offset w, pcrel_address_spec a (sdt_signed_offset w), toInt32 w⟩

/-- The callback invocation the specification describes for a generic load
or store: kind by the L bit, the signed offset, address 0 and the instruction
word. -/
def sdt_generic_call (w : Nat) : CbCall :=
  ⟨if BITS w 20 20 = 1 then dis_cb_type.D_LOAD else dis_cb_type.D_STORE,
   sdt_signed_offset w, 0, toInt32 w⟩

/-- The characters of a line before its first space. -/
def first_token (s : String) : String :=
  String.mk (s.data.takeWhile (fun c => c != ' '))

/-- Rotation to the right by `k` positions within a 32-bit word, as the
specification words it: `((v >> k) | (v << (32 - k))) mod 2^32`, and `v`
itself for `k = 0`. -/
def ror32_spec (v k : Nat) : Nat :=
  if k = 0 then v else ((v >>> k) ||| (v <<< (32 - k))) % 2 ^ 32

/-- Sign extension of a 24-bit field to an integer. -/
def sign_extend_24 (x : Nat) : Int :=
  if x < 2 ^ 23 then (x : Int) else (x : Int) - 2 ^ 24

/-- The branch target of the specification:
`(a + 8 + 4 * sign_extend_24(w & 0xFFFFFF)) mod 2^32`. -/
def branch_target_spec (w a : Nat) : Nat :=
  (((a : Int) + 8 + 4 * sign_extend_24 (w &&& 0xFFFFFF)) % 2 ^ 32).toNat

/-- The value of one digit character `0`..`9`, `A`..`F`. -/
def digitValue (c : Char) : Nat :=
  if c.toNat ≥ 65 then c.toNat - 55 else c.toNat - 48

/-- The number a numeral denotes in base `b`, most significant digit first. -/
def numeral_value (b : Nat) (l : List Char) : Nat :=
  l.foldl (fun acc c => acc * b + digitValue c) 0

/-- The `(start, end)` pairs for which the outer loop of `append_reglist`
writes an entry, in the order it writes them. -/
def reglist_runs (list : Nat) : Nat → Nat → List (Nat × Nat)
  | 0, _ => []
  | fuel + 1, r =>
    if r < 16 then
      if list &&& (1 <<< r) ≠ 0 then
        (r, reglist_run_end list 16 r) :: reglist_runs list fuel (reglist_run_end list 16 r + 1)
      else reglist_runs list fuel (r + 1)
    else []

/-- The text `append_reglist` writes for one `(start, end)` pair: the name of
`start`, then `-` and the name of `end` when `end > start`. -/
def reglist_entry_written (se : Nat × Nat) : String :=
  if se.2 > se.1 then fallback_regname se.1 ++ "-" ++ fallback_regname se.2
  else fallback_regname se.1

/-- Every entry preceded by `, `. -/
def comma_tail : List String → String
  | [] => ""
  | a :: l => ", " ++ a ++ comma_tail l

/-- A maximal run of consecutive set bits of `L` among registers 0..15: bits
`s..e` are set, bit `s - 1` is clear (or `s = 0`) and bit `e + 1` is clear (or
`e = 15`). -/
def is_maximal_run (L s e : Nat) : Prop :=
  s ≤ e ∧ e < 16 ∧ (∀ i, i < 16 → s ≤ i → i ≤ e → L.testBit i = true) ∧
    (s = 0 ∨ L.testBit (s - 1) = false) ∧ (e = 15 ∨ L.testBit (e + 1) = false)

instance (L s e : Nat) : Decidable (is_maximal_run L s e) :=
  inferInstanceAs (Decidable (_ ∧ _ ∧ _ ∧ _ ∧ _))

/-- The text of one register-list entry as the specification gives it: a run
of one register is its name, a longer run is `<first>-<last>`. -/
def reglist_entry (se : Nat × Nat) : String :=
  if se.1 = se.2 then fallback_regname se.1
  else fallback_regname se.1 ++ "-" ++ fallback_regname se.2

/-- The text a halfword-transfer line starts with: the mnemonic field (LDRH
when L = 1, STRH otherwise, with the condition) and `Rd, `. -/
def halfword_head (w : Nat) : String :=
  emit_mnemonic "" (if BITS w 20 20 = 1 then "LDRH" else "STRH") (BITS w 31 28)
    ++ fallback_regname (BITS w 15 12) ++ ", "

/-- The offset operand of a halfword transfer as the code writes it: `-` when
U = 0, then `#`, the hex prefix and the 8-bit offset in hexadecimal. -/
def halfword_offset_text (hexpfx : String) (w : Nat) : String :=
  (if BITS w 23 23 = 0 then "-" else "") ++ "#" ++ hexpfx
    ++ fmtHex (16 * BITS w 11 8 + BITS w 3 0)

/-! ## Configuration and specification-side definitions for the later results -/

/-- The function `disass_sethexprefix`, as a transition of the configured
prefix: `g_hexprefix = (prefix && *prefix) ? prefix : "0x"`; `none` is the
null pointer. -/
def disass_sethexprefix (_configured : String) (pfx : Option String) : String :=
  match pfx with
  | some s => if s ≠ "" then s else "0x"
  | none => "0x"

/-- A result that depends on the configured hex prefix at most through one
occurrence of it: the text is either a fixed text, or a fixed text, the
prefix and another fixed text; the callback invocations are fixed. -/
def depends_on_hexpfx_by_insertion (F : String → Result) : Prop :=
  ∃ (pre post : String) (uses : Bool) (calls : List CbCall),
    ∀ h : String, F h = ⟨if uses then pre ++ h ++ post else pre, calls⟩

/-- A text that depends on the configured hex prefix at most through one
occurrence of it. -/
def text_by_insertion (T : String → String) : Prop :=
  ∃ (pre post : String) (uses : Bool), ∀ h : String, T h = if uses then pre ++ h ++ post else pre

/-- A non-empty word of uppercase letters. -/
def upper_word (s : String) : Prop := s ≠ "" ∧ ∀ c ∈ s.data, c.isUpper = true

instance (s : String) : Decidable (upper_word s) :=
  inferInstanceAs (Decidable (_ ∧ _))

/-- A decoded instruction line: an uppercase mnemonic, then only spaces up to
a field of at least 16 characters, then a non-empty operand text. -/
def is_instruction_line (t : String) : Prop :=
  ∃ (mnem ops : String) (k : Nat), upper_word mnem ∧ 1 ≤ k ∧ 16 ≤ mnem.length + k ∧
    ops ≠ "" ∧ t = mnem ++ String.mk (List.replicate k ' ') ++ ops

/-- The outcome the dispatcher allows for a word: the default dump `dump`,
or an instruction line. -/
def dump_or_line (dump : String) (r : Result) : Prop :=
  r.text = dump ∨ is_instruction_line r.text

/-- A text without the terminator character, as every C string is. -/
def nul_free (s : String) : Prop := Char.ofNat 0 ∉ s.data

instance (s : String) : Decidable (nul_free s) :=
  inferInstanceAs (Decidable (¬ _))

/-- The buffer after a C string `s` and its terminator are written at its
start, as `sprintf(out, ...)` and the decoders (which write from `out` and
terminate after every piece) do; the buffer is long enough. -/
def buffer_write (buf : List Char) (s : String) : List Char :=
  s.data ++ Char.ofNat 0 :: buf.drop (s.length + 1)

/-- The C string at the start of a buffer: the characters before the first
terminator. -/
def c_string (buf : List Char) : String :=
  String.mk (buf.takeWhile (fun c => c != Char.ofNat 0))

end Disass

/-!
# Name unmangler (`ncc-support/unmangle.c`)

A shallow embedding of `unmangle2` and the functions it calls.

* A `const char *` into the mangled name is an offset into the list of its
  characters; reading at the end (or past it) gives the terminator.
* The output cursor `(char **p, size_t *rem)` is the list of characters
  written since `out_init` together with the space left; `out_ch` keeps a
  terminator after them.
* `name` and `buf` are non-null.  The loop of `decode_arglist` can fail to
  advance, so it is bounded by an explicit number of passes.
-/

namespace Unmangle

/-- The constant `MAXDBUF`. -/
def MAXDBUF : Nat := 256

/-- The character `s[i]` of a C string: the terminator at its end.  Reads
past the terminator are read as the terminator too. -/
def deref (s : List Char) (i : Nat) : Char := s.getD i (Char.ofNat 0)

/-- The C string held by a character array: what precedes the first
terminator. -/
def c_str (buf : List Char) : List Char := buf.takeWhile (fun c => c != Char.ofNat 0)

/-- The function `base_type`; `none` is the null pointer. -/
def base_type (c : Char) : Option String :=
  if c = 'b' then some "bool"
  else if c = 'c' then some "char"
  else if c = 'x' then some "long long"
  else if c = 'l' then some "long"
  else if c = 'i' then some "int"
  else if c = 's' then some "short"
  else if c = 'f' then some "float"
  else if c = 'd' then some "double"
  else if c = 'r' then some "long double"
  else if c = 'v' then some "void"
  else if c = 'e' then some "..."
  else none

/-- The structure `Quals`. -/
structure Quals where
  is_const : Bool
  is_volatile : Bool
  is_unsigned : Bool
  is_signed : Bool
  deriving DecidableEq, Repr

/-- The output cursor `(char **p, size_t *rem)`: the characters written
since `out_init` (the terminator follows them) and the space left. -/
structure Out where
  text : List Char
  rem : Nat
  deriving DecidableEq, Repr

/-- The function `out_init`. -/
def out_init (bufsz : Nat) : Out :=
  if bufsz = 0 then ⟨[], 0⟩ else ⟨[], bufsz⟩

/-- The function `out_ch`. -/
def out_ch (o : Out) (c : Char) : Out :=
  if o.rem ≤ 1 then o else ⟨o.text ++ [c], o.rem - 1⟩

/-- The function `out_s`, on the characters of the C string `s`. -/
def out_s (o : Out) : List Char → Out
  | [] => o
  | c :: cs =>
    if c = Char.ofNat 0 then o
    else
      let o := out_ch o c
      if o.rem = 0 then o else out_s o cs

/-- The function `out_sn`: `n` characters of `s` from offset `i`. -/
def out_sn (o : Out) (s : List Char) (i : Nat) : Nat → Out
  | 0 => o
  | n + 1 =>
    let o := out_ch o (deref s i)
    if o.rem = 0 then o else out_sn o s (i + 1) n

/-- The digit loop of `read_len`:
`while (isdigit(*start)) { val = val*10 + (*start - '0'); start++; }`.
A C string of length `n` has at most `n` digits, which bounds the passes. -/
def read_digits (s : List Char) : Nat → Nat → Int → Int × Nat
  | 0, start, val => (val, start)
  | fuel + 1, start, val =>
    if (deref s start).isDigit then
      read_digits s fuel (start + 1) (val * 10 + ((deref s start).toNat - 48 : Nat))
    else (val, start)

/-- The function `read_len`: the value returned and the new `*pp`.  The
`int` accumulator is not wrapped. -/
def read_len (s : List Char) (p : Nat) : Int × Nat :=
  let neg := deref s p = 'n'
  let start := if neg then p + 1 else p
  if ¬ (deref s start).isDigit then (-1, p)
  else
    let r := read_digits s s.length start 0
    (if neg then -r.1 else r.1, r.2)

/-- The loop `for (i = 0; i < n; ++i)` of `decode_qualifiers`, with the
passes left, the cursor `p`, the counter `wrote` and the output. -/
def qualifier_loop (s : List Char) : Nat → Nat → Int → Out → Int × Nat × Out
  | 0, p, wrote, o => (wrote, p, o)
  | k + 1, p, wrote, o =>
    let r := read_len s p
    let l := r.1
    let p := r.2
    if l ≤ 0 then (wrote, p, o)
    else
      let o := if wrote ≠ 0 then out_s o "::".data else o
      let wrote := wrote + 1
      let o := out_sn o s p l.toNat
      qualifier_loop s k (p + l.toNat) wrote o

/-- The function `decode_qualifiers`: the value returned, the new `*pp` and
the output. -/
def decode_qualifiers (s : List Char) (p0 : Nat) (o : Out) : Int × Nat × Out :=
  if deref s p0 = 'Q' then
    let p := p0 + 1
    let r := read_len s p
    let n := r.1
    let p := r.2
    if n ≤ 0 then (0, p, o)
    else qualifier_loop s n.toNat p 0 o
  else if (deref s p0).isDigit then
    let r := read_len s p0
    let l := r.1
    let p := r.2
    if l > 0 then
      let o := out_sn o s p l.toNat
      (1, p + l.toNat, o)
    else (0, p0, o)
  else (0, p0, o)

/-- The loop `while (*p == 'C' || *p == 'V' || *p == 'U' || *p == 'S')` of
`decode_arglist`, setting the flags of `q`. -/
def qualifier_flags (s : List Char) : Nat → Nat → Quals → Quals × Nat
  | 0, p, q => (q, p)
  | fuel + 1, p, q =>
    let c := deref s p
    if c = 'C' ∨ c = 'V' ∨ c = 'U' ∨ c = 'S' then
      let q : Quals :=
        if c = 'C' then ⟨true, q.is_volatile, q.is_unsigned, q.is_signed⟩
        else if c = 'V' then ⟨q.is_const, true, q.is_unsigned, q.is_signed⟩
        else if c = 'U' then ⟨q.is_const, q.is_volatile, true, q.is_signed⟩
        else if c = 'S' then ⟨q.is_const, q.is_volatile, q.is_unsigned, true⟩
        else q
      qualifier_flags s fuel (p + 1) q
    else (q, p)

/-- The loops `while (*p == 'P') { ++ptrs; ++p; }` and
`while (*p == 'R') { ++refs; ++p; }`: the count and the new cursor. -/
def count_marks (s : List Char) (mark : Char) : Nat → Nat → Nat → Nat × Nat
  | 0, p, n => (n, p)
  | fuel + 1, p, n =>
    if deref s p = mark then count_marks s mark fuel (p + 1) (n + 1) else (n, p)

/-- The loop `while (*p && *p != 'Y') ++p;`. -/
def skip_value_signature (s : List Char) : Nat → Nat → Nat
  | 0, p => p
  | fuel + 1, p =>
    if deref s p ≠ Char.ofNat 0 ∧ deref s p ≠ 'Y' then skip_value_signature s fuel (p + 1)
    else p

/-- The loops `while (refs--) out_ch(out, rem, '&');` and
`while (ptrs--) out_ch(out, rem, '*');`. -/
def out_repeat (o : Out) (c : Char) : Nat → Out
  | 0 => o
  | n + 1 => out_repeat (out_ch o c) c n

/-- The loop `while (*p && *p != '_' && *p != '\0')` of `decode_arglist`,
carrying `p`, `first`, `is_memberptr` and the output; `none` when the loop
has not finished within `fuel` passes. -/
def arglist_loop (s : List Char) : Nat → Nat → Bool → Bool → Out → Option (Nat × Out)
  | 0, _, _, _, _ => none
  | fuel + 1, p, first, is_memberptr, o =>
    let c := deref s p
    if c ≠ Char.ofNat 0 ∧ c ≠ '_' ∧ c ≠ Char.ofNat 0 then
      if c = 'T' ∨ c = 'N' then
        let p := p + 1
        let p := (read_len s p).2
        let p := if deref s (p - 1) = 'N' then (read_len s p).2 else p
        arglist_loop s fuel p first is_memberptr o
      else if c = 'X' then
        let p := p + 1
        let p := skip_value_signature s s.length p
        let p := if deref s p = 'Y' then p + 1 else p
        arglist_loop s fuel p first is_memberptr o
      else
        let o := if ¬ first then out_s o ", ".data else o
        let first := false
        let qp := qualifier_flags s s.length p ⟨false, false, false, false⟩
        let q := qp.1
        let p := qp.2
        let ap : Int × Nat :=
          if deref s p = 'A' then
            let r := read_len s (p + 1)
            (r.1, if deref s r.2 = '_' then r.2 + 1 else r.2)
          else (-1, p)
        let array_len := ap.1
        let p := ap.2
        let mp : List Char × Bool × Nat :=
          if deref s p = 'M' then
            let r := decode_qualifiers s (p + 1) (out_init MAXDBUF)
            (r.2.2.text, true, r.2.1)
          else ([], is_memberptr, p)
        let member_class := mp.1
        let is_memberptr := mp.2.1
        let p := mp.2.2
        let pp := count_marks s 'P' s.length p 0
        let ptrs := pp.1
        let p := pp.2
        let rp := count_marks s 'R' s.length p 0
        let refs := rp.1
        let p := rp.2
        let bo : Nat × Out :=
          match base_type (deref s p) with
          | some bt =>
            let o :=
              if q.is_unsigned then out_s o "unsigned ".data
              else if q.is_signed ∧ deref s p = 'c' then out_s o "signed ".data
              else o
            (p + 1, out_s o bt.data)
          | none =>
            if (deref s p).isDigit ∨ deref s p = 'Q' then
              let o :=
                if q.is_unsigned then out_s o "unsigned ".data
                else if q.is_signed then out_s o "signed ".data
                else o
              let r := decode_qualifiers s p o
              (r.2.1, r.2.2)
            else
              (if deref s p ≠ Char.ofNat 0 then p + 1 else p, out_s o "?".data)
        let p := bo.1
        let o := bo.2
        let o := if q.is_const then out_s o " const".data else o
        let o := if q.is_volatile then out_s o " volatile".data else o
        let o := out_repeat o '&' refs
        let o :=
          if is_memberptr then out_s (out_s (out_ch o ' ') member_class) "::*".data
          else out_repeat o '*' ptrs
        let o :=
          if array_len ≥ 0 then
            out_ch (out_s (out_ch o '[') (Nat.toDigits 10 array_len.toNat)) ']'
          else o
        if deref s p = 'e' then some (p + 1, out_s o ", ...".data)
        else arglist_loop s fuel p first is_memberptr o
    else some (p, o)

/-- The function `decode_arglist`: the new `*pp` and the output, or `none`
when its loop has not finished within `fuel` passes. -/
def decode_arglist (fuel : Nat) (s : List Char) (p : Nat) (o : Out) : Option (Nat × Out) :=
  let o := out_ch o '('
  if deref s p = 'v' then
    some (p + 1, out_ch (out_s o "void".data) ')')
  else
    match arglist_loop s fuel p true false o with
    | some r => some (r.1, out_ch r.2 ')')
    | none => none

/-- The call `strstr(name, "__")`: the offset of the first `__`, or `none`. -/
def find_sep : List Char → Option Nat
  | [] => none
  | [_] => none
  | a :: b :: rest =>
    if a = '_' ∧ b = '_' then some 0
    else (find_sep (b :: rest)).map (fun i => i + 1)

/-- The loop `while (*p == 'C' || *p == 'V')` of `unmangle2`: the flags
`fn_is_const`, `fn_is_volatile` and the new cursor. -/
def function_qualifiers (s : List Char) : Nat → Nat → Bool → Bool → Bool × Bool × Nat
  | 0, p, c, v => (c, v, p)
  | fuel + 1, p, c, v =>
    if deref s p = 'C' ∨ deref s p = 'V' then
      if deref s p = 'C' then function_qualifiers s fuel (p + 1) true v
      else function_qualifiers s fuel (p + 1) c true
    else (c, v, p)

/-- The function `unmangle2` for non-null `name` and `buf`: the string the
returned pointer points to, or `none` when the argument-list loop has not
finished within `fuel` passes. -/
def unmangle2 (fuel : Nat) (name : String) (size : Nat) : Option String :=
  let s := name.data
  if size = 0 then some name
  else
    match find_sep s with
    | none => some name
    | some sep =>
      let o := out_init size
      let o := out_sn o s 0 sep
      let p := sep + 2
      let r := decode_qualifiers s p o
      let had_class := r.1
      let p := r.2.1
      let o := r.2.2
      let po : Nat × Out :=
        if had_class ≠ 0 then
          let o := out_init size
          let r := decode_qualifiers s (sep + 2) o
          let o := out_s r.2.2 "::".data
          (r.2.1, out_sn o s 0 sep)
        else (p, o)
      let p := po.1
      let o := po.2
      let fq := function_qualifiers s s.length p false false
      let fn_is_const := fq.1
      let fn_is_volatile := fq.2.1
      let p := fq.2.2
      if deref s p = 'F' then
        match decode_arglist fuel s (p + 1) o with
        | none => none
        | some r =>
          let o := r.2
          let o := if fn_is_const then out_s o " const".data else o
          let o := if fn_is_volatile then out_s o " volatile".data else o
          some (String.mk (c_str o.text))
      else some (String.mk (c_str o.text))

end Unmangle

namespace Ieeeflt

/-- The structure `DbleBin`: the two 32-bit words of a double. -/
structure DbleBin where
  msd : Nat
  lsd : Nat
  deriving DecidableEq, Repr

/-- The function `my_isnan`: exponent all ones and mantissa non-zero; `true`
is a non-zero result. -/
def my_isnan (d : DbleBin) : Bool :=
  let exp := (d.msd >>> 20) &&& 0x7FF
  let manthi := d.msd &&& 0xFFFFF
  decide (exp = 0x7FF) && decide ((manthi ||| d.lsd) ≠ 0)

/-- The value order of a host double that is not a NaN, read from its bit
pattern (IEEE 754 binary64, which the type pun `DblePun` relies on): the
magnitude bits as an integer, negated when the sign bit is set.  Both zeros
have key 0; the infinities are the largest and the smallest key. -/
def double_key (d : DbleBin) : Int :=
  let magnitude : Nat := (d.msd % 2 ^ 31) * 2 ^ 32 + d.lsd % 2 ^ 32
  if (d.msd >>> 31) &&& 1 = 1 then -(magnitude : Int) else (magnitude : Int)

/-- The C comparison `x < y` of the doubles `dblebin_get_double(a1)` and
`dblebin_get_double(a2)`: false when either is a NaN. -/
def double_lt (a1 a2 : DbleBin) : Bool :=
  !my_isnan a1 && !my_isnan a2 && decide (double_key a1 < double_key a2)

/-- The function `flt_compare`. -/
def flt_compare (a1 a2 : DbleBin) : Int :=
  if my_isnan a1 || my_isnan a2 then 42
  else if double_lt a1 a2 then -1
  else if double_lt a2 a1 then 1
  else 0

end Ieeeflt

namespace Fname

/-- The constant `FNAME_ROOTED`. -/
def FNAME_ROOTED : Nat := 1

/-- The structure `UnparsedName`.  A `const char *` field is the C string it
points to (the characters from there to the terminator of the parsed name), or
`none` for a null pointer. -/
structure UnparsedName where
  root : Option (List Char)
  rlen : Nat
  extn : Option (List Char)
  elen : Nat
  path : Option (List Char)
  plen : Nat
  un_pathlen : Nat
  vol : Option (List Char)
  vlen : Nat
  type : Nat
  deriving DecidableEq, Repr

/-- The enumeration `unparsedFNameType`. -/
inductive unparsedFNameType where
  | FNAME_AS_NAME
  | FNAME_AS_PATH
  deriving DecidableEq, Repr

/-- The function `is_sep`. -/
def is_sep (c : Char) : Bool := c = '/' || c = Char.ofNat 92

/-- The call `strncasecmp(a, b, n) == 0`: the first `n` characters agree up to
case, or both strings end together before that. -/
def strncasecmp_eq : List Char → List Char → Nat → Bool
  | _, _, 0 => true
  | a, b, n + 1 =>
    let ca := a.headD (Char.ofNat 0)
    let cb := b.headD (Char.ofNat 0)
    if ca.toLower ≠ cb.toLower then false
    else if ca = Char.ofNat 0 then true
    else strncasecmp_eq a.tail b.tail n

/-- The loop `for (p = list; *p;)` of `match_suffix` over the space-separated
tokens of `list`; every pass that starts before the end of the list moves `p`
forward, which bounds the passes by the length of the list. -/
def match_suffix_loop (ext : List Char) (elen : Nat) : Nat → List Char → Bool
  | 0, _ => false
  | fuel + 1, p =>
    if p = [] then false
    else
      let p := p.dropWhile (fun c => c = ' ')
      let n := (p.takeWhile (fun c => c ≠ ' ')).length
      let q := p.dropWhile (fun c => c ≠ ' ')
      if n = elen ∧ strncasecmp_eq ext p elen then true
      else match_suffix_loop ext elen fuel q

/-- The function `match_suffix`. -/
def match_suffix (ext : Option (List Char)) (elen : Nat) (list : List Char) : Bool :=
  match ext with
  | none => false
  | some e => if elen = 0 then false else match_suffix_loop e elen (list.length + 1) list

/-- The loops `for (p = s; *p; ++p) if (...) last = p;` of `unix_fname_parse`:
the offset of the last character that passes the test, from offset `i` on. -/
def last_index (test : Char → Bool) : List Char → Nat → Option Nat → Option Nat
  | [], _, acc => acc
  | c :: cs, i, acc => last_index test cs (i + 1) (if test c then some i else acc)

/-- The structure after `memset(un, 0, sizeof *un)`. -/
def zeroed : UnparsedName := ⟨none, 0, none, 0, none, 0, 0, none, 0, 0⟩

/-- The offset of `leaf = last_sep ? last_sep+1 : s` in `s`, where `last_sep`
is what the loop over the separators leaves. -/
def leaf_offset (s : List Char) : Nat :=
  match last_index is_sep s 0 none with
  | some i => i + 1
  | none => 0

/-- The block "Split root/ext at last '.'" of `unix_fname_parse`: the fields
`root`, `rlen`, `extn` and `elen` for the leaf. -/
def split_root_ext (leaf : List Char) : Option (List Char) × Nat × Option (List Char) × Nat :=
  match last_index (fun c => c = '.') leaf 0 none with
  | some d =>
    if d ≠ 0 ∧ leaf.getD (d + 1) (Char.ofNat 0) ≠ Char.ofNat 0 then
      (some leaf, d, some (leaf.drop (d + 1)), (leaf.drop (d + 1)).length)
    else (some leaf, leaf.length, none, 0)
  | none => (some leaf, leaf.length, none, 0)

/-- The block "only recognised include suffixes count as extn" of
`unix_fname_parse`, on the fields `root`, `rlen`, `extn` and `elen`. -/
def recognised_suffix_only (suffixlist : Option (List Char)) (leaf : List Char)
    (f : Option (List Char) × Nat × Option (List Char) × Nat) :
    Option (List Char) × Nat × Option (List Char) × Nat :=
  match suffixlist with
  | some l =>
    if f.2.2.1.isSome ∧ ¬ match_suffix f.2.2.1 f.2.2.2 l then (some leaf, leaf.length, none, 0)
    else f
  | none => f

/-- The function `unix_fname_parse`, which `fname_parse` is outside RISC OS;
`file` and `suffixlist` are C strings or null. -/
def unix_fname_parse (file : Option (List Char)) (suffixlist : Option (List Char)) :
    UnparsedName :=
  match file with
  | none => zeroed
  | some s =>
    let len := s.length
    let type := if len ≠ 0 ∧ is_sep (s.headD (Char.ofNat 0)) then FNAME_ROOTED else 0
    let leaf := s.drop (leaf_offset s)
    let plen := leaf_offset s
    let f := recognised_suffix_only suffixlist leaf (split_root_ext leaf)
    ⟨f.1, f.2.1, f.2.2.1, f.2.2.2, some s, plen, 0, none, 0, type⟩

/-- The function `fname_parse` (not compiling on RISC OS). -/
def fname_parse (fname : Option (List Char)) (suffixlist : Option (List Char)) :
    UnparsedName :=
  unix_fname_parse fname suffixlist

/-- The call `memcpy(dst, src, m)`: the `m` bytes at `src`.  Bytes past the
terminator of the string (or at a null pointer) are read as the terminator. -/
def memcpy_from (src : Option (List Char)) (m : Nat) : List Char :=
  (List.range m).map (fun i => (src.getD []).getD i (Char.ofNat 0))

/-- What `fname_unparse` leaves: the value returned, the characters written
before the final terminator, and the structure. -/
structure Unparsed where
  n : Nat
  out : List Char
  un : UnparsedName
  deriving DecidableEq, Repr

/-- The function `fname_unparse` (not compiling on RISC OS) for a non-null
`out`.  The `size_t` differences `maxName-1-n` are taken where `n` is at most
`maxName-1`, so they do not wrap; the cast `(int)n` is not applied. -/
def fname_unparse (un : UnparsedName) (how : unparsedFNameType) (maxName : Nat) : Unparsed :=
  if maxName = 0 then ⟨0, [], un⟩
  else
    let out : List Char :=
      if un.plen ≠ 0 then
        let m := if un.plen > maxName - 1 then maxName - 1 else un.plen
        memcpy_from un.path m
      else []
    if how = unparsedFNameType.FNAME_AS_PATH then
      let out :=
        if un.elen = 0 ∧ un.rlen > 0 then
          let out :=
            if out.length ≠ 0 ∧ out.getD (out.length - 1) (Char.ofNat 0) ≠ '/'
                ∧ out.getD (out.length - 1) (Char.ofNat 0) ≠ Char.ofNat 92
                ∧ out.length < maxName - 1 then
              out ++ ['/']
            else out
          let m := if un.rlen > maxName - 1 - out.length then maxName - 1 - out.length
                   else un.rlen
          let out := out ++ memcpy_from un.root m
          out ++ ['/']
        else out
      ⟨out.length, out, un⟩
    else
      let out :=
        if un.rlen ≠ 0 ∧ out.length < maxName - 1 then
          let m := if un.rlen > maxName - 1 - out.length then maxName - 1 - out.length
                   else un.rlen
          out ++ memcpy_from un.root m
        else out
      let out :=
        if un.elen ≠ 0 ∧ out.length + 1 < maxName - 1 then
          let out := out ++ ['.']
          let m := if un.elen > maxName - 1 - out.length then maxName - 1 - out.length
                   else un.elen
          out ++ memcpy_from un.extn m
        else out
      ⟨out.length, out,
        ⟨un.root, un.rlen, un.extn, un.elen, un.path, un.plen,
          (if un.plen > out.length then out.length else un.plen), un.vol, un.vlen, un.type⟩⟩

end Fname

namespace Toolenv

/-- The structure `TE_Entry`; the strings are C strings. -/
structure TE_Entry where
  name : List Char
  val : List Char
  readonly : Bool
  deriving DecidableEq, Repr

/-- The structure `ToolEnv`: `v` holds the `n` entries in use. -/
structure ToolEnv where
  v : List TE_Entry
  cap : Nat
  mark_n : Nat
  deriving DecidableEq, Repr

/-- The macro `TARGET_NAME` of `toolenv_insert`. -/
def TARGET_NAME : List Char := "-D__TARGET_FPU_".data

/-- The loop `while (newcap < t->n + need) newcap *= 2;` of `te_grow`. -/
def grow_loop (target : Nat) : Nat → Nat → Nat
  | 0, newcap => newcap
  | fuel + 1, newcap => if newcap < target then grow_loop target fuel (newcap * 2) else newcap

/-- The function `te_grow` when `realloc` succeeds: it returns 1 and leaves
this capacity. -/
def te_grow (t : ToolEnv) (need : Nat) : ToolEnv :=
  if t.v.length + need ≤ t.cap then t
  else ⟨t.v, grow_loop (t.v.length + need) (t.v.length + need)
    (if t.cap ≠ 0 then t.cap * 2 else 8), t.mark_n⟩

/-- The loop of `te_find` from index `i`: the index of the first entry named
`name`, or -1. -/
def te_find_from : List TE_Entry → List Char → Nat → Int
  | [], _, _ => -1
  | e :: es, name, i => if e.name = name then (i : Int) else te_find_from es name (i + 1)

/-- The function `te_find`. -/
def te_find (t : ToolEnv) (name : List Char) : Int := te_find_from t.v name 0

/-- The loop of `toolenv_lookup`. -/
def lookup_from : List TE_Entry → List Char → Option (List Char)
  | [], _ => none
  | e :: es, name => if e.name = name then some e.val else lookup_from es name

/-- The function `toolenv_lookup`; `none` is the null pointer. -/
def toolenv_lookup (t : Option ToolEnv) (name : Option (List Char)) : Option (List Char) :=
  match t, name with
  | some t, some name => lookup_from t.v name
  | _, _ => none

/-- The copy loop of `toolenv_insert` into `target_name`, with the room left:
each character through `toupper`, the terminator included. -/
def capitalise_loop : Nat → List Char → List Char
  | 0, _ => []
  | _ + 1, [] => [Char.ofNat 0]
  | room + 1, c :: cs => c.toUpper :: capitalise_loop room cs

/-- The name `toolenv_insert` looks up and stores: `name` itself, or, when it
starts with `TARGET_NAME`, the C string left in the 80-byte `target_name`
after the copy loop and `*(t_end - 1) = '\0'`. -/
def insert_name (name : List Char) : List Char :=
  if name.take TARGET_NAME.length = TARGET_NAME then
    (((capitalise_loop 80 name).set 79 (Char.ofNat 0)).takeWhile
      (fun c => c != Char.ofNat 0))
  else name

/-- The function `toolenv_insert` when every allocation succeeds: the value
returned and the environment. -/
def toolenv_insert (t : Option ToolEnv) (name value : Option (List Char)) :
    Int × Option ToolEnv :=
  match t, name, value with
  | some t, some name, some value =>
    let name := insert_name name
    let i := te_find t name
    if i ≥ 0 then
      (0, some ⟨t.v.modify (fun e => ⟨e.name, value, e.readonly⟩) i.toNat, t.cap, t.mark_n⟩)
    else
      let t := te_grow t 1
      (0, some ⟨t.v ++ [⟨name, value, false⟩], t.cap, t.mark_n⟩)
  | t, _, _ => (-1, t)

/-- No two entries have equal names. -/
def distinct_names (t : ToolEnv) : Prop := (t.v.map (fun e => e.name)).Nodup

instance (t : ToolEnv) : Decidable (distinct_names t) :=
  inferInstanceAs (Decidable (List.Nodup _))

end Toolenv

namespace Int64Runtime

/-- The member `w.lo` of the union `u64u` holding the 64-bit value `v` (the
low word, as on the little-endian hosts the union is written for). -/
def lo_of (v : Nat) : Nat := v % 2 ^ 32

/-- The member `w.hi` of the union `u64u` holding the 64-bit value `v`. -/
def hi_of (v : Nat) : Nat := v / 2 ^ 32 % 2 ^ 32

/-- The member `v` of the union `u64u` with the halves `hi` and `lo`. -/
def join (hi lo : Nat) : Nat := hi * 2 ^ 32 + lo

/-- The function `u64_ucmp`. -/
def u64_ucmp (ahi alo bhi blo : Nat) : Int :=
  if ahi ≠ bhi then (if ahi > bhi then 1 else -1)
  else if alo ≠ blo then (if alo > blo then 1 else -1)
  else 0

/-- The function `mul32x32_64`: the pair `(*hi, *lo)`.  Every `u32` operation
that can wrap is reduced modulo `2 ^ 32`. -/
def mul32x32_64 (x y : Nat) : Nat × Nat :=
  let x0 := x &&& 0xFFFF
  let x1 := x >>> 16
  let y0 := y &&& 0xFFFF
  let y1 := y >>> 16
  let p00 := (x0 * y0) % 2 ^ 32
  let p01 := (x0 * y1) % 2 ^ 32
  let p10 := (x1 * y0) % 2 ^ 32
  let p11 := (x1 * y1) % 2 ^ 32
  let mid := ((p00 >>> 16) + (p01 &&& 0xFFFF) + (p10 &&& 0xFFFF)) % 2 ^ 32
  let lo := (p00 &&& 0xFFFF) ||| ((mid <<< 16) % 2 ^ 32)
  let hi32 := (p11 + (p01 >>> 16) + (p10 >>> 16) + (mid >>> 16)) % 2 ^ 32
  (hi32, lo)

/-- The function `_ll_mul` on 64-bit values. -/
def _ll_mul (x y : Nat) : Nat :=
  let ac := mul32x32_64 (lo_of x) (lo_of y)
  let ad_lo := (mul32x32_64 (lo_of x) (hi_of y)).2
  let bc_lo := (mul32x32_64 (hi_of x) (lo_of y)).2
  let hi := ac.1
  let s := (hi + ad_lo) % 2 ^ 32
  let hi := (s + bc_lo) % 2 ^ 32
  join hi ac.2

/-- The view `sw.hi` (`s32`) of a 32-bit word. -/
def to_s32 (w : Nat) : Int := if w < 2 ^ 31 then (w : Int) else (w : Int) - 2 ^ 32

/-- The conversion `(u32)` of a signed value. -/
def to_u32 (i : Int) : Nat := (i % 2 ^ 32).toNat

/-- The member `sv` (`long long`) of the union `u64u` holding the value `v`. -/
def to_s64 (v : Nat) : Int := if v < 2 ^ 63 then (v : Int) else (v : Int) - 2 ^ 64

/-- The conversion `(unsigned long long)` of a `long long`. -/
def to_u64 (x : Int) : Nat := (x % 2 ^ 64).toNat

/-- The function `_ll_sshift_r` for a `long long` `x` (from `-2 ^ 63` up to
`2 ^ 63 - 1`).  The shift `a.sw.hi >> sh` of the signed half is arithmetic, as
its comment says. -/
def _ll_sshift_r (x : Int) (sh : Int) : Int :=
  let a := to_u64 x
  if sh ≤ 0 then x
  else if sh ≥ 64 then
    let neg := to_s32 (hi_of a) < 0
    let rhi : Int := if neg then -1 else 0
    let rlo := to_u32 rhi
    to_s64 (join (to_u32 rhi) rlo)
  else if sh ≥ 32 then
    let nlo := hi_of a >>> (sh - 32).toNat
    let nhi : Int := if to_s32 (hi_of a) < 0 then -1 else 0
    to_s64 (join (to_u32 nhi) nlo)
  else
    let nlo := (lo_of a >>> sh.toNat) ||| ((hi_of a <<< (32 - sh).toNat) % 2 ^ 32)
    let nhi : Int := to_s32 (hi_of a) / 2 ^ sh.toNat
    to_s64 (join (to_u32 nhi) nlo)

/-- The variables `N`, `Q` and `R` of `_ll_udiv`, as 32-bit halves. -/
structure UdivState where
  Nhi : Nat
  Nlo : Nat
  Qhi : Nat
  Qlo : Nat
  Rhi : Nat
  Rlo : Nat
  deriving DecidableEq, Repr

/-- One pass of the loop `for (i = 0; i < 64; ++i)` of `_ll_udiv`, for the
divisor halves `Dhi`, `Dlo`.  Every `u32` operation that can wrap is reduced
modulo `2 ^ 32`. -/
def udiv_step (Dhi Dlo : Nat) (s : UdivState) : UdivState :=
  let newRhi := ((s.Rhi <<< 1) % 2 ^ 32) ||| (s.Rlo >>> 31)
  let newRlo := ((s.Rlo <<< 1) % 2 ^ 32) ||| (if s.Nhi &&& 0x80000000 ≠ 0 then 1 else 0)
  let Rhi := newRhi
  let Rlo := newRlo
  let Nhi := ((s.Nhi <<< 1) % 2 ^ 32) ||| (s.Nlo >>> 31)
  let Nlo := (s.Nlo <<< 1) % 2 ^ 32
  let ge := Rhi > Dhi ∨ (Rhi = Dhi ∧ Rlo ≥ Dlo)
  let qcarry := s.Qlo >>> 31
  let Qlo := ((s.Qlo <<< 1) % 2 ^ 32) ||| (if ge then 1 else 0)
  let Qhi := ((s.Qhi <<< 1) % 2 ^ 32) ||| qcarry
  if ge then
    let old_lo := Rlo
    let Rlo := (Rlo + 2 ^ 32 - Dlo) % 2 ^ 32
    let Rhi := ((Rhi + 2 ^ 32 - Dhi) % 2 ^ 32 + 2 ^ 32 - (if Rlo > old_lo then 1 else 0))
      % 2 ^ 32
    ⟨Nhi, Nlo, Qhi, Qlo, Rhi, Rlo⟩
  else ⟨Nhi, Nlo, Qhi, Qlo, Rhi, Rlo⟩

/-- The given number of passes of the loop of `_ll_udiv`. -/
def udiv_loop (Dhi Dlo : Nat) : Nat → UdivState → UdivState
  | 0, s => s
  | k + 1, s => udiv_loop Dhi Dlo k (udiv_step Dhi Dlo s)

/-- The function `_ll_udiv` on 64-bit values; `~0u` is the `unsigned int`
`0xFFFFFFFF`. -/
def _ll_udiv (n d : Nat) : Nat :=
  if hi_of d = 0 ∧ lo_of d = 0 then 0xFFFFFFFF
  else if u64_ucmp (hi_of n) (lo_of n) (hi_of d) (lo_of d) < 0 then 0
  else if hi_of d = 0 ∧ lo_of d = 1 then n
  else
    let s := udiv_loop (hi_of d) (lo_of d) 64 ⟨hi_of n, lo_of n, 0, 0, 0, 0⟩
    join s.Qhi s.Qlo

/-- The loop invariant of `_ll_udiv` after `i` passes, on the 64-bit values
of the halves: the bits of `n` brought down so far are `Q * d + R` with
`R < d`, and `N` holds the remaining bits of `n` at the top. -/
def udiv_invariant (n d i : Nat) (s : UdivState) : Prop :=
  (s.Nhi < 2 ^ 32 ∧ s.Nlo < 2 ^ 32 ∧ s.Qhi < 2 ^ 32 ∧ s.Qlo < 2 ^ 32 ∧
    s.Rhi < 2 ^ 32 ∧ s.Rlo < 2 ^ 32) ∧
  join s.Rhi s.Rlo < d ∧
  join s.Qhi s.Qlo * d + join s.Rhi s.Rlo < 2 ^ i ∧
  n * 2 ^ i = (join s.Qhi s.Qlo * d + join s.Rhi s.Rlo) * 2 ^ 64 + join s.Nhi s.Nlo

end Int64Runtime

namespace Disass

/-- A text that starts with a character other than `d`. -/
def first_char_ne (d : Char) (t : String) : Prop :=
  t.data.head? ≠ none ∧ t.data.head? ≠ some d

instance (d : Char) (t : String) : Decidable (first_char_ne d t) :=
  inferInstanceAs (Decidable (_ ∧ _))

/-! ## Specification-side definitions: reading a rendered register list back -/

/-- The register a name denotes: the index of the name among the sixteen
names of `fallback_regname`. -/
def regname_index (tok : List Char) : Option Nat :=
  (List.range 16).find? (fun r => decide ((fallback_regname r).data = tok))

/-- The pieces of a text between the occurrences of the character `d`. -/
def split_on (d : Char) : List Char → List (List Char)
  | [] => [[]]
  | c :: cs =>
    if c = d then [] :: split_on d cs
    else
      match split_on d cs with
      | t :: ts => (c :: t) :: ts
      | [] => [[c]]

/-- The `(first, last)` registers one entry of a rendered register list
denotes: a name, or two names joined by `-`; leading spaces are skipped. -/
def parse_entry (tok : List Char) : Option (Nat × Nat) :=
  match split_on '-' (tok.dropWhile (fun c => c = ' ')) with
  | [a] => (regname_index a).map (fun r => (r, r))
  | [a, b] =>
    match regname_index a, regname_index b with
    | some s, some e => some (s, e)
    | _, _ => none
  | _ => none

/-- The registers of each entry, when every entry denotes some. -/
def parse_entries : List (List Char) → Option (List (Nat × Nat))
  | [] => some []
  | t :: ts =>
    match parse_entry t, parse_entries ts with
    | some a, some l => some (a :: l)
    | _, _ => none

/-- The entries of a rendered register list: the text between the braces,
split at the commas. -/
def parse_reglist (text : List Char) : Option (List (Nat × Nat)) :=
  if text.head? = some (Char.ofNat 123) ∧ text.tail.getLast? = some (Char.ofNat 125) then
    if text.tail.dropLast = [] then some []
    else parse_entries (split_on ',' text.tail.dropLast)
  else none

/-- The register list with exactly the bits of the given ranges set. -/
def bits_of_runs (runs : List (Nat × Nat)) : Nat :=
  runs.foldl (fun acc se => acc ||| (((1 <<< (se.2 + 1 - se.1)) - 1) <<< se.1)) 0

/-- Expanding every `a-b` range and every name of a rendered register list
into the bits of a register list. -/
def expand_reglist (text : String) : Option Nat :=
  (parse_reglist text.data).map bits_of_runs

/-! # Theorems -/

/-! ## Bit fields and masks -/

theorem BITS_eq_div_mod (v hi lo : Nat) : BITS v hi lo = v / 2 ^ lo % 2 ^ (hi - lo + 1) := by
  unfold BITS
  rw [Nat.one_shiftLeft, Nat.and_pow_two_sub_one_eq_mod, Nat.shiftRight_eq_div_pow]

theorem BITS_lt (v hi lo : Nat) : BITS v hi lo < 2 ^ (hi - lo + 1) := by
  rw [BITS_eq_div_mod]
  exact Nat.mod_lt _ (Nat.two_pow_pos _)

/-- A test of a shifted field is a mask test on the word itself. -/
theorem shift_and_eq_iff (x k m v : Nat) :
    (x >>> k) &&& m = v ↔ x &&& (m <<< k) = v <<< k := by
  constructor
  · intro h
    rw [← h]
    apply Nat.eq_of_testBit_eq
    intro i
    simp only [Nat.testBit_and, Nat.testBit_shiftLeft, Nat.testBit_shiftRight]
    by_cases hi : k ≤ i
    · simp [hi, Nat.add_sub_cancel' hi]
    · simp [hi]
  · intro h
    apply Nat.eq_of_testBit_eq
    intro j
    have := congrArg (fun t => Nat.testBit t (k + j)) h
    simpa [Nat.testBit_and, Nat.testBit_shiftLeft, Nat.testBit_shiftRight] using this

/-- Two mask tests that hold of the same word agree on the common bits. -/
theorem mask_conflict {x m p m' p' : Nat} (h : x &&& m = p) (h' : x &&& m' = p') :
    p &&& m' = p' &&& m := by
  rw [← h, ← h', Nat.and_assoc, Nat.and_assoc, Nat.and_comm m m']

/-- A mask test restricted to some of its bits. -/
theorem and_submask {x m p : Nat} (h : x &&& m = p) (b : Nat) :
    x &&& (m &&& b) = p &&& b := by
  rw [← Nat.and_assoc, h]

/-! ## Text helpers -/

theorem takeWhile_ne_space (l₁ l₂ : List Char) (h : ∀ c ∈ l₁, c ≠ ' ') :
    (l₁ ++ ' ' :: l₂).takeWhile (fun c => c != ' ') = l₁ := by
  induction l₁ with
  | nil => simp
  | cons c l ih =>
    have hc : (c != ' ') = true := by simpa using h c (List.mem_cons_self c l)
    have hl : ∀ d ∈ l, d ≠ ' ' := fun d hd => h d (List.mem_cons_of_mem c hd)
    rw [List.cons_append, List.takeWhile_cons, hc, ih hl]
    rfl

/-- The first token of a mnemonic field followed by anything is the
mnemonic with its condition code. -/
theorem first_token_emit_mnemonic (base rest : String) (cond : Nat)
    (hb : ∀ c ∈ base.data, c ≠ ' ')
    (hc : ∀ c ∈ (cond_codes.getD cond "").data, c ≠ ' ') :
    first_token (emit_mnemonic "" base cond ++ rest)
      = base ++ (if cond = 14 then "" else cond_codes.getD cond "") := by
  have hall : ∀ c ∈ (base ++ (if cond = 14 then "" else cond_codes.getD cond "")).data,
      c ≠ ' ' := by
    intro c hcm
    rw [String.data_append, List.mem_append] at hcm
    rcases hcm with hcm | hcm
    · exact hb c hcm
    · split_ifs at hcm with h14
      · simp at hcm
      · exact hc c hcm
  apply String.ext
  simp only [first_token, emit_mnemonic, emit_mnemonic_with_suffix, Option.getD_none,
    String.data_append, String.append_empty, ne_eq, ite_not, List.append_assoc]
  rw [String.data_append] at hall
  have e : ([' '] : List Char) ++ (List.replicate
      (mnemonic_field_width - ((base ++ if cond = 14 then "" else cond_codes.getD cond "")
        ++ " ").length) ' ' ++ rest.data)
      = ' ' :: (List.replicate
      (mnemonic_field_width - ((base ++ if cond = 14 then "" else cond_codes.getD cond "")
        ++ " ").length) ' ' ++ rest.data) := rfl
  rw [e, List.nil_append, ← List.append_assoc]
  exact takeWhile_ne_space _ _ hall

theorem decode_shifted_reg_append (p : String) (w : Nat) :
    decode_shifted_reg p w = p ++ decode_shifted_reg "" w := by
  simp only [decode_shifted_reg, append_str, append_reg]
  split_ifs <;> simp [String.append_assoc]

/-! ## Data processing -/

/-- The text written by the data-processing decoder, factored into the
mnemonic field, the register operands and operand 2. -/
theorem dp_text (w pc : Nat) (cb : Option dis_cb_fn) :
    (disass_data_processing w pc cb).text =
      emit_mnemonic "" (dp_mnemonic_spec w) (BITS w 31 28)
        ++ dp_register_operands_spec w ++ dp_operand2 w pc cb := by
  have hop : BITS w 24 21 < 16 := BITS_lt w 24 21
  have hs : BITS w 20 20 < 2 := BITS_lt w 20 20
  simp only [disass_data_processing, dp_mnemonic_spec, dp_register_operands_spec,
    dp_operand2]
  generalize BITS w 24 21 = opcode at *
  generalize BITS w 20 20 = sbit at *
  rw [decode_shifted_reg_append]
  have hs' : sbit = 0 ∨ sbit = 1 := by omega
  by_cases hr : 8 ≤ opcode ∧ opcode ≤ 11
  · have h13 : ¬ (opcode = 13 ∨ opcode = 15) := by omega
    simp only [hr, h13, ge_iff_le, and_self, if_true, not_true_eq_false, and_false, if_false,
      append_str, append_reg, dp_opnames, String.append_empty]
    split_ifs <;> simp only [String.append_assoc]
  · rcases hs' with hs0 | hs1
    · by_cases h13 : opcode = 13 ∨ opcode = 15
      · simp only [hr, h13, hs0, ge_iff_le, if_true, if_false, ne_eq, not_true_eq_false,
          zero_ne_one, false_and, append_str, append_reg, dp_opnames, String.append_empty]
        split_ifs <;> simp only [String.append_assoc]
      · simp only [hr, h13, hs0, ge_iff_le, if_true, if_false, ne_eq, not_true_eq_false,
          zero_ne_one, false_and, append_str, append_reg, dp_opnames, String.append_empty]
        split_ifs <;> simp only [String.append_assoc]
    · by_cases h13 : opcode = 13 ∨ opcode = 15
      · simp only [hr, h13, hs1, ge_iff_le, if_true, if_false, ne_eq, one_ne_zero,
          not_false_eq_true, and_self, append_str, append_reg, dp_opnames]
        split_ifs <;> simp only [String.append_assoc]
      · simp only [hr, h13, hs1, ge_iff_le, if_true, if_false, ne_eq, one_ne_zero,
          not_false_eq_true, and_self, append_str, append_reg, dp_opnames]
        split_ifs <;> simp only [String.append_assoc]

/-- A word on the data-processing path of the dispatcher is decoded by the
data-processing decoder. -/
theorem disass_of_routed_to_data_processing (hexpfx : String) (vfp : Option vfp_decoder)
    (w a : Nat) (cb : Option dis_cb_fn) (hw : w < 2 ^ 32)
    (h : routed_to_data_processing w) :
    disass hexpfx vfp w a cb = disass_data_processing w (a % 2 ^ 32) cb := by
  obtain ⟨h1, h2, h3, h4, h5, h6, h7, h8, h9, h10, h11, h12, h13, h14⟩ := h
  simp only [disass, Nat.mod_eq_of_lt hw]
  rw [if_neg h1, if_neg h2, if_neg h3, if_neg h4, if_neg h5, if_neg h6, if_neg h7, if_neg h8,
    if_neg h9, if_neg h10, if_neg h11, if_neg h12, if_neg h13, if_pos h14]

theorem dp_mnemonic_spec_no_space (w : Nat) : ∀ c ∈ (dp_mnemonic_spec w).data, c ≠ ' ' := by
  have hop : BITS w 24 21 < 16 := BITS_lt w 24 21
  unfold dp_mnemonic_spec
  generalize BITS w 24 21 = opcode at *
  intro c hc
  rw [String.data_append, List.mem_append] at hc
  rcases hc with hc | hc
  · revert c
    interval_cases opcode <;> decide
  · split_ifs at hc
    · revert c; decide
    · simp at hc

theorem cond_codes_no_space (cond : Nat) : ∀ c ∈ (cond_codes.getD cond "").data, c ≠ ' ' := by
  by_cases h : cond < 16
  · interval_cases cond <;> decide
  · have : cond_codes.getD cond "" = "" := by
      rw [List.getD_eq_default]
      simpa [cond_codes] using h
    rw [this]
    intro c hc
    simp at hc

/-- C1: a word on the data-processing path of the dispatcher is rendered as
the mnemonic field of the opcode's table name (with `S` exactly when bit 20 is
set and the opcode is not TST/TEQ/CMP/CMN), followed by `Rn, operand2` for
TST/TEQ/CMP/CMN, `Rd, operand2` for MOV/MVN and `Rd, Rn, operand2` otherwise;
for a register operand 2 the text is the shifted-register rendering. -/
theorem data_processing_mnemonic_and_operands (hexpfx : String) (vfp : Option vfp_decoder)
    (w a : Nat) (cb : Option dis_cb_fn) (hw : w < 2 ^ 32)
    (h : routed_to_data_processing w) :
    ∃ operand2 : String,
      (BITS w 25 25 = 0 → operand2 = decode_shifted_reg "" w) ∧
      (disass hexpfx vfp w a cb).text =
        emit_mnemonic "" (dp_mnemonic_spec w) (BITS w 31 28)
          ++ dp_register_operands_spec w ++ operand2 := by
  refine ⟨dp_operand2 w (a % 2 ^ 32) cb, ?_, ?_⟩
  · intro h0
    simp [dp_operand2, h0]
  · rw [disass_of_routed_to_data_processing hexpfx vfp w a cb hw h, dp_text]

theorem data_processing_mnemonic_and_operands_witness :
    ∃ operand2 : String,
      (BITS 0xE0812003 25 25 = 0 → operand2 = decode_shifted_reg "" 0xE0812003) ∧
      (disass "0x" none 0xE0812003 0 none).text =
        emit_mnemonic "" (dp_mnemonic_spec 0xE0812003) (BITS 0xE0812003 31 28)
          ++ dp_register_operands_spec 0xE0812003 ++ operand2 :=
  data_processing_mnemonic_and_operands "0x" none 0xE0812003 0 none (by decide) (by decide)

/-- C2: for a word on the data-processing path, the characters before the
first space are the base mnemonic (with its optional `S`) followed by nothing
when the condition field is 14 and by the two-letter code of the condition
table otherwise; condition 15 gives `NV`. -/
theorem data_processing_condition_suffix (hexpfx : String) (vfp : Option vfp_decoder)
    (w a : Nat) (cb : Option dis_cb_fn) (hw : w < 2 ^ 32)
    (h : routed_to_data_processing w) :
    first_token (disass hexpfx vfp w a cb).text =
        dp_mnemonic_spec w ++
          (if BITS w 31 28 = 14 then ""
           else ["EQ", "NE", "CS", "CC", "MI", "PL", "VS", "VC",
                 "HI", "LS", "GE", "LT", "GT", "LE", "AL", "NV"].getD (BITS w 31 28) "") ∧
      (BITS w 31 28 = 15 →
        first_token (disass hexpfx vfp w a cb).text = dp_mnemonic_spec w ++ "NV") := by
  have key : first_token (disass hexpfx vfp w a cb).text =
      dp_mnemonic_spec w ++
        (if BITS w 31 28 = 14 then "" else cond_codes.getD (BITS w 31 28) "") := by
    rw [disass_of_routed_to_data_processing hexpfx vfp w a cb hw h, dp_text,
      String.append_assoc]
    exact first_token_emit_mnemonic _ _ _ (dp_mnemonic_spec_no_space w)
      (cond_codes_no_space _)
  refine ⟨key, ?_⟩
  intro h15
  rw [key, h15]
  rfl

theorem data_processing_condition_suffix_witness :
    first_token (disass "0x" none 0xF0812003 0 none).text =
        dp_mnemonic_spec 0xF0812003 ++
          (if BITS 0xF0812003 31 28 = 14 then ""
           else ["EQ", "NE", "CS", "CC", "MI", "PL", "VS", "VC",
                 "HI", "LS", "GE", "LT", "GT", "LE", "AL", "NV"].getD
                  (BITS 0xF0812003 31 28) "") ∧
      (BITS 0xF0812003 31 28 = 15 →
        first_token (disass "0x" none 0xF0812003 0 none).text
          = dp_mnemonic_spec 0xF0812003 ++ "NV") :=
  data_processing_condition_suffix "0x" none 0xF0812003 0 none (by decide) (by decide)

/-- C3: the word 0xE3A01005 decoded at any address with no callback and the
default hex prefix gives `MOV`, thirteen spaces, then `r1, #5`. -/
theorem mov_r1_5_text (vfp : Option vfp_decoder) (a : Nat) :
    disass "0x" vfp 0xE3A01005 a none = ⟨"MOV             r1, #5", []⟩ ∧
      "MOV             r1, #5" = "MOV" ++ String.mk (List.replicate 13 ' ') ++ "r1, #5" :=
  ⟨rfl, by decide⟩

/-- C4, as the code has it: for a data-processing word with the immediate
bit set that is not on the PC-relative callback path, the last operand is `#`
followed by the rotated immediate in unsigned decimal; the hex prefix is not
used. -/
theorem data_processing_immediate_decimal (hexpfx : String) (vfp : Option vfp_decoder)
    (w a : Nat) (cb : Option dis_cb_fn) (hw : w < 2 ^ 32)
    (h : routed_to_data_processing w) (h25 : BITS w 25 25 = 1)
    (hcb : ¬ dp_pcrel_callback_path w cb) :
    (disass hexpfx vfp w a cb).text =
      emit_mnemonic "" (dp_mnemonic_spec w) (BITS w 31 28) ++ dp_register_operands_spec w
        ++ ("#" ++ fmtDec (rotate_imm (BITS w 7 0) (2 * BITS w 11 8))) := by
  have h8 : BITS w 11 8 < 16 := BITS_lt w 11 8
  have hrot : (BITS w 11 8 * 2) % 2 ^ 32 = 2 * BITS w 11 8 := by omega
  have hcb' : ¬ (cb.isSome = true ∧ BITS w 19 16 = 15 ∧ (BITS w 24 21 = 4 ∨ BITS w 24 21 = 2)) :=
    hcb
  rw [disass_of_routed_to_data_processing hexpfx vfp w a cb hw h, dp_text]
  simp only [dp_operand2, h25, hrot, ne_eq, one_ne_zero, not_false_eq_true, if_true,
    if_neg hcb']

theorem data_processing_immediate_decimal_witness :
    (disass "0x" none 0xE3A01005 0 none).text =
      emit_mnemonic "" (dp_mnemonic_spec 0xE3A01005) (BITS 0xE3A01005 31 28)
        ++ dp_register_operands_spec 0xE3A01005
        ++ ("#" ++ fmtDec (rotate_imm (BITS 0xE3A01005 7 0) (2 * BITS 0xE3A01005 11 8))) :=
  data_processing_immediate_decimal "0x" none 0xE3A01005 0 none (by decide) (by decide)
    (by decide) (by decide)

/-- C4 fails as stated: 0xE3A01005 is a data-processing word with the
immediate bit set and no callback, its text is `MOV r1, #5` (padded), and the
hexadecimal form `#0x5` of the claim is not how that text ends. -/
theorem data_processing_immediate_hex_counterexample :
    routed_to_data_processing 0xE3A01005 ∧ BITS 0xE3A01005 25 25 = 1 ∧
      (disass "0x" none 0xE3A01005 0 none).text = "MOV             r1, #5" ∧
      "#" ++ "0x" ++ fmtHex (rotate_imm (BITS 0xE3A01005 7 0) (2 * BITS 0xE3A01005 11 8))
        = "#0x5" ∧
      ¬ (("#" ++ "0x"
            ++ fmtHex (rotate_imm (BITS 0xE3A01005 7 0) (2 * BITS 0xE3A01005 11 8))).data
          <:+ (disass "0x" none 0xE3A01005 0 none).text.data) := by
  decide

/-! ## Rotated immediates -/

theorem or_mod_two_pow_left (a b n : Nat) (ha : a < 2 ^ n) :
    a ||| (b % 2 ^ n) = (a ||| b) % 2 ^ n := by
  apply Nat.eq_of_testBit_eq
  intro i
  simp only [Nat.testBit_or, Nat.testBit_mod_two_pow]
  by_cases hi : i < n
  · simp [hi]
  · have : a.testBit i = false :=
      Nat.testBit_lt_two_pow (Nat.lt_of_lt_of_le ha (Nat.pow_le_pow_right (by decide) (by omega)))
    simp [hi, this]

theorem rotate_imm_field (v r : Nat) (hr : r < 16) :
    rotate_imm v ((r * 2) % 2 ^ 32) =
      if r = 0 then v else (v >>> (2 * r)) ||| ((v <<< (32 - 2 * r)) % 2 ^ 32) := by
  have h1 : (r * 2) % 2 ^ 32 = 2 * r := by omega
  have h2 : (2 * r) &&& 31 = 2 * r := by
    have := Nat.and_pow_two_sub_one_eq_mod (2 * r) 5
    have e : (2 : Nat) ^ 5 - 1 = 31 := by decide
    rw [e] at this
    rw [this]
    omega
  simp only [rotate_imm, h1, h2]
  by_cases h0 : r = 0
  · simp [h0]
  · have : 2 * r ≠ 0 := by omega
    simp [h0, this]

theorem rotate_imm_eq_ror32_spec (v r : Nat) (hv : v < 256) (hr : r < 16) :
    rotate_imm v ((r * 2) % 2 ^ 32) = ror32_spec v (2 * r) := by
  rw [rotate_imm_field v r hr]
  unfold ror32_spec
  by_cases h0 : r = 0
  · simp [h0]
  · have h2 : 2 * r ≠ 0 := by omega
    rw [if_neg h0, if_neg h2]
    apply or_mod_two_pow_left
    calc v >>> (2 * r) ≤ v := by
          rw [Nat.shiftRight_eq_div_pow]
          exact Nat.div_le_self _ _
      _ < 2 ^ 32 := by omega

theorem rotate_imm_testBit (v r i : Nat) (hv : v < 256) (hr : r < 16) (hi : i < 32) :
    (rotate_imm v ((r * 2) % 2 ^ 32)).testBit i = v.testBit ((i + 2 * r) % 32) := by
  rw [rotate_imm_field v r hr]
  by_cases h0 : r = 0
  · subst h0
    simp [Nat.mod_eq_of_lt hi]
  · rw [if_neg h0]
    simp only [Nat.testBit_or, Nat.testBit_shiftRight, Nat.testBit_mod_two_pow,
      Nat.testBit_shiftLeft]
    by_cases hlt : i + 2 * r < 32
    · have e1 : (i + 2 * r) % 32 = 2 * r + i := by omega
      have e2 : ¬ (i ≥ 32 - 2 * r) := by omega
      simp [e1, e2]
    · have e1 : (i + 2 * r) % 32 = i - (32 - 2 * r) := by omega
      have e2 : i ≥ 32 - 2 * r := by omega
      have e3 : v.testBit (2 * r + i) = false :=
        Nat.testBit_lt_two_pow (Nat.lt_of_lt_of_le hv
          (by
            have : (256 : Nat) = 2 ^ 8 := by decide
            rw [this]
            exact Nat.pow_le_pow_right (by decide) (by omega)))
      simp [e1, e2, e3, hi]

theorem msr_immediate_text (hexpfx : String) (w : Nat) (h25 : BITS w 25 25 = 1) :
    (disass_msr hexpfx w).text =
      emit_mnemonic "" "MSR" (BITS w 31 28) ++ (if BITS w 22 22 = 1 then "SPSR" else "CPSR")
        ++ ", " ++ ("#" ++ hexpfx
        ++ fmtHex (rotate_imm (BITS w 7 0) ((BITS w 11 8 * 2) % 2 ^ 32))) := by
  have h22 : BITS w 22 22 < 2 := BITS_lt w 22 22
  have e : (BITS w 22 22 ≠ 0) = (BITS w 22 22 = 1) := by
    apply propext
    omega
  simp only [disass_msr, h25, e, ne_eq, one_ne_zero, not_false_eq_true, if_true, append_str,
    append_immediate, String.append_assoc]

/-- C5: for an 8-bit value `v` and a 4-bit rotate field `r`, the immediate the
decoders compute is `v` rotated right by `2r` within 32 bits: it equals
`((v >> 2r) | (v << (32 - 2r))) mod 2^32` (and `v` for `r = 0`), bit `i` of it
is bit `(i + 2r) mod 32` of `v`, and this is the value the data-processing and
MSR decoders print for an immediate operand. -/
theorem rotated_immediate_value (v r : Nat) (hv : v < 256) (hr : r < 16) :
    rotate_imm v ((r * 2) % 2 ^ 32) = ror32_spec v (2 * r) ∧
      ror32_spec v (2 * r) < 2 ^ 32 ∧
      (∀ i, i < 32 → (ror32_spec v (2 * r)).testBit i = v.testBit ((i + 2 * r) % 32)) ∧
      (∀ w pc : Nat, BITS w 7 0 = v → BITS w 11 8 = r → BITS w 25 25 = 1 →
        (disass_data_processing w pc none).text =
          emit_mnemonic "" (dp_mnemonic_spec w) (BITS w 31 28) ++ dp_register_operands_spec w
            ++ ("#" ++ fmtDec (ror32_spec v (2 * r)))) ∧
      (∀ (hexpfx : String) (w : Nat), BITS w 7 0 = v → BITS w 11 8 = r → BITS w 25 25 = 1 →
        (disass_msr hexpfx w).text =
          emit_mnemonic "" "MSR" (BITS w 31 28)
            ++ (if BITS w 22 22 = 1 then "SPSR" else "CPSR") ++ ", "
            ++ ("#" ++ hexpfx ++ fmtHex (ror32_spec v (2 * r)))) := by
  have hspec := rotate_imm_eq_ror32_spec v r hv hr
  refine ⟨hspec, ?_, ?_, ?_, ?_⟩
  · unfold ror32_spec
    split_ifs
    · omega
    · exact Nat.mod_lt _ (by decide)
  · intro i hi
    rw [← hspec]
    exact rotate_imm_testBit v r i hv hr hi
  · intro w pc h7 h11 h25
    rw [dp_text, ← hspec]
    simp [dp_operand2, h7, h11, h25]
  · intro hexpfx w h7 h11 h25
    rw [msr_immediate_text hexpfx w h25, h7, h11, hspec]

theorem rotated_immediate_value_witness :
    rotate_imm 0xFF ((4 * 2) % 2 ^ 32) = ror32_spec 0xFF (2 * 4) ∧
      ror32_spec 0xFF (2 * 4) < 2 ^ 32 ∧
      (∀ i, i < 32 →
        (ror32_spec 0xFF (2 * 4)).testBit i = (0xFF : Nat).testBit ((i + 2 * 4) % 32)) ∧
      (∀ w pc : Nat, BITS w 7 0 = 0xFF → BITS w 11 8 = 4 → BITS w 25 25 = 1 →
        (disass_data_processing w pc none).text =
          emit_mnemonic "" (dp_mnemonic_spec w) (BITS w 31 28) ++ dp_register_operands_spec w
            ++ ("#" ++ fmtDec (ror32_spec 0xFF (2 * 4)))) ∧
      (∀ (hexpfx : String) (w : Nat), BITS w 7 0 = 0xFF → BITS w 11 8 = 4 →
        BITS w 25 25 = 1 →
        (disass_msr hexpfx w).text =
          emit_mnemonic "" "MSR" (BITS w 31 28)
            ++ (if BITS w 22 22 = 1 then "SPSR" else "CPSR") ++ ", "
            ++ ("#" ++ hexpfx ++ fmtHex (ror32_spec 0xFF (2 * 4)))) :=
  rotated_immediate_value 0xFF 4 (by decide) (by decide)

/-! ## Numerals -/

theorem digitValue_digitChar (d : Nat) (h : d < 16) : digitValue (digitChar d) = d := by
  interval_cases d <;> rfl

theorem numeral_value_append_singleton (b : Nat) (l : List Char) (c : Char) :
    numeral_value b (l ++ [c]) = numeral_value b l * b + digitValue c := by
  simp [numeral_value, List.foldl_append]

/-- The digits written for `n` in base `b` denote `n`. -/
theorem numeral_value_digitsFuel (b : Nat) (hb2 : 2 ≤ b) (hb16 : b ≤ 16) :
    ∀ fuel n : Nat, n < fuel → numeral_value b (digitsFuel b fuel n) = n := by
  intro fuel
  induction fuel with
  | zero => intro n hn; omega
  | succ fuel ih =>
    intro n hn
    unfold digitsFuel
    by_cases hlt : n < b
    · rw [if_pos hlt]
      simp [numeral_value, digitValue_digitChar n (by omega)]
    · rw [if_neg hlt, numeral_value_append_singleton]
      have hdiv : n / b < fuel := by
        have : n / b < n := Nat.div_lt_self (by omega) (by omega)
        omega
      have hmod : n % b < 16 := by
        have : n % b < b := Nat.mod_lt _ (by omega)
        omega
      rw [ih (n / b) hdiv, digitValue_digitChar _ hmod]
      exact Nat.div_add_mod' n b

theorem numeral_value_fmtDec (n : Nat) : numeral_value 10 (fmtDec n).data = n :=
  numeral_value_digitsFuel 10 (by decide) (by decide) (n + 1) n (Nat.lt_succ_self n)

theorem numeral_value_fmtHex (n : Nat) : numeral_value 16 (fmtHex n).data = n :=
  numeral_value_digitsFuel 16 (by decide) (by decide) (n + 1) n (Nat.lt_succ_self n)

theorem numeral_value_zeros (b k : Nat) (l : List Char) :
    numeral_value b (List.replicate k '0' ++ l) = numeral_value b l := by
  have hz : ∀ k : Nat, List.foldl (fun acc c => acc * b + digitValue c) 0
      (List.replicate k '0') = 0 := by
    intro k
    induction k with
    | zero => rfl
    | succ k ih =>
      rw [List.replicate_succ, List.foldl_cons]
      have : 0 * b + digitValue '0' = 0 := by
        rw [Nat.zero_mul, Nat.zero_add]
        rfl
      rw [this, ih]
  unfold numeral_value
  rw [List.foldl_append, hz]

theorem numeral_value_fmtHexPad (k n : Nat) : numeral_value 16 (fmtHexPad k n).data = n := by
  unfold fmtHexPad
  rw [String.data_append]
  exact (numeral_value_zeros 16 _ _).trans (numeral_value_fmtHex n)

/-! ## Shifted-register operand -/

/-- C6: the shifted-register operand is the name of Rm followed by nothing
(LSL #0), `, RRX` (ROR #0), `, LSR #32` or `, ASR #32` (LSR/ASR #0),
`, <shift> #<amount>` with the amount 1..31 in decimal, or `, <shift> <Rs>`
when bit 4 is set. -/
theorem shifted_register_operand (p : String) (w : Nat) :
    decode_shifted_reg p w = p ++ fallback_regname (BITS w 3 0) ++
      (if BITS w 4 4 = 0 then
        (if BITS w 11 7 = 0 then
          (if BITS w 6 5 = 0 then ""
           else if BITS w 6 5 = 3 then ", RRX"
           else if BITS w 6 5 = 1 then ", LSR #32"
           else ", ASR #32")
         else ", " ++ ["LSL", "LSR", "ASR", "ROR"].getD (BITS w 6 5) "" ++ " #"
            ++ fmtDec (BITS w 11 7))
       else ", " ++ ["LSL", "LSR", "ASR", "ROR"].getD (BITS w 6 5) "" ++ " "
          ++ fallback_regname (BITS w 11 8)) ∧
      BITS w 6 5 < 4 ∧ BITS w 11 7 < 32 ∧
      numeral_value 10 (fmtDec (BITS w 11 7)).data = BITS w 11 7 := by
  have h65 : BITS w 6 5 < 4 := BITS_lt w 6 5
  have h117 : BITS w 11 7 < 32 := BITS_lt w 11 7
  refine ⟨?_, h65, h117, numeral_value_fmtDec _⟩
  simp only [decode_shifted_reg, append_str, append_reg, shift_name]
  generalize BITS w 6 5 = ty at *
  interval_cases ty <;> (split_ifs <;> simp_all [String.append_assoc])

/-! ## Branches -/

theorem and_bit23 (x : Nat) : x &&& 0x00800000 = (x / 2 ^ 23 % 2) * 2 ^ 23 := by
  have h := (shift_and_eq_iff x 23 1 ((x >>> 23) &&& 1)).mp rfl
  have e1 : (1 : Nat) <<< 23 = 0x00800000 := by decide
  rw [e1, Nat.shiftLeft_eq, Nat.shiftRight_eq_div_pow, Nat.and_one_is_mod] at h
  exact h

theorem or_top_byte (x : Nat) (hx : x < 2 ^ 24) : x ||| 0xFF000000 = x + 0xFF000000 := by
  have h := Nat.mul_add_lt_is_or hx 255
  rw [Nat.or_comm, ← h]
  omega

/-- The target computed by `disass_branch` is the target of the specification. -/
theorem branch_target_eq (w a : Nat) :
    (let imm24 := w &&& 0x00FFFFFF
     let imm24 := if imm24 &&& 0x00800000 ≠ 0 then imm24 ||| 0xFF000000 else imm24
     (a % 2 ^ 32 + 8 + (imm24 <<< 2) % 2 ^ 32) % 2 ^ 32) = branch_target_spec w a := by
  have hx : w &&& 0x00FFFFFF = w % 2 ^ 24 := Nat.and_pow_two_sub_one_eq_mod w 24
  have hlt : w % 2 ^ 24 < 2 ^ 24 := Nat.mod_lt _ (by decide)
  simp only [branch_target_spec, sign_extend_24, hx, and_bit23, Nat.shiftLeft_eq]
  generalize w % 2 ^ 24 = x at *
  by_cases h23 : x < 2 ^ 23
  · have e : x / 2 ^ 23 % 2 * 2 ^ 23 = 0 := by omega
    rw [if_pos h23, e]
    simp only [ne_eq, not_true_eq_false, if_false]
    omega
  · have e : x / 2 ^ 23 % 2 * 2 ^ 23 ≠ 0 := by omega
    rw [if_neg h23, if_pos e, or_top_byte x hlt]
    omega

theorem branch_mask_of_bits (w : Nat) (h27 : BITS w 27 25 = 5) :
    w &&& 0x0E000000 = 0x0A000000 :=
  (shift_and_eq_iff w 25 7 5).mp h27

/-- A branch word whose condition is not 15 reaches the branch decoder. -/
theorem disass_of_branch (hexpfx : String) (vfp : Option vfp_decoder)
    (w a : Nat) (cb : Option dis_cb_fn) (hw : w < 2 ^ 32)
    (h27 : BITS w 27 25 = 5) (hc : BITS w 31 28 ≠ 15) :
    disass hexpfx vfp w a cb = disass_branch hexpfx w (a % 2 ^ 32) cb := by
  have hb := branch_mask_of_bits w h27
  have h1 : ¬ (w &&& 0xfe000000 = 0xfa000000) := by
    intro h
    have h' : w &&& 0xf0000000 = 0xf0000000 := and_submask h 0xf0000000
    exact hc ((shift_and_eq_iff w 28 15 15).mpr h')
  have h2 : ¬ (w &&& 0x0ffffff0 = 0x012fff10 ∨ w &&& 0x0ffffff0 = 0x012fff30) := by
    rintro (h | h) <;> exact absurd (mask_conflict hb h) (by decide)
  have h3 : ¬ (w &&& 0x0fb00ff0 = 0x01000090) :=
    fun h => absurd (mask_conflict hb h) (by decide)
  have h4 : ¬ (w &&& 0x0fff0ff0 = 0x016f0f10) :=
    fun h => absurd (mask_conflict hb h) (by decide)
  have h5 : ¬ (w &&& 0x0fbf0fff = 0x010f0000) :=
    fun h => absurd (mask_conflict hb h) (by decide)
  have h6 : ¬ (w &&& 0x0db0f000 = 0x0120f000) :=
    fun h => absurd (mask_conflict hb h) (by decide)
  have h7 : ¬ (w &&& 0x0FC000F0 = 0x00000090 ∨ w &&& 0x0FC000F0 = 0x00200090) := by
    rintro (h | h) <;> exact absurd (mask_conflict hb h) (by decide)
  have h8 : ¬ (w &&& 0x0F8000F0 = 0x00800090) :=
    fun h => absurd (mask_conflict hb h) (by decide)
  have h9 : ¬ (w &&& 0x0E0000F0 = 0x000000B0) :=
    fun h => absurd (mask_conflict hb h) (by decide)
  simp only [disass, Nat.mod_eq_of_lt hw]
  rw [if_neg h1, if_neg h2, if_neg h3, if_neg h4, if_neg h5, if_neg h6, if_neg h7, if_neg h8,
    if_neg h9, if_pos hb]

theorem branch_result (hexpfx : String) (w pc : Nat) (cb : Option dis_cb_fn) :
    disass_branch hexpfx w (pc % 2 ^ 32) cb =
      (let c : CbCall := ⟨dis_cb_type.D_BORBL, 0, branch_target_spec w pc, toInt32 w⟩
       let field := emit_mnemonic "" (if BITS w 24 24 = 1 then "BL" else "B") (BITS w 31 28)
       if cb.isSome then ⟨field ++ call_cb cb c, [c]⟩
       else ⟨field ++ hexpfx ++ fmtHexPad 8 (branch_target_spec w pc), []⟩) := by
  have h24 : BITS w 24 24 < 2 := BITS_lt w 24 24
  have e : (BITS w 24 24 ≠ 0) = (BITS w 24 24 = 1) := by
    apply propext
    omega
  have ht := branch_target_eq w pc
  simp only at ht
  simp only [disass_branch, ht, e]

/-- C7: for a branch word (bits 27:25 = 101, condition not 15) decoded at
address `a`, the target is `(a + 8 + 4 * sign_extend_24(w & 0xFFFFFF)) mod 2^32`:
a supplied callback is invoked exactly once, with the branch-target kind and
that target as its address, and with no callback the text after the B/BL
mnemonic field is the hex prefix and a numeral denoting that target.  For
0xEA000000 at 0x8000 the target is 0x8008. -/
theorem branch_target (hexpfx : String) (vfp : Option vfp_decoder) (w a : Nat)
    (hw : w < 2 ^ 32) (h27 : BITS w 27 25 = 5) (hc : BITS w 31 28 ≠ 15) :
    (∀ f : dis_cb_fn,
      (disass hexpfx vfp w a (some f)).calls
          = [⟨dis_cb_type.D_BORBL, 0, branch_target_spec w a, toInt32 w⟩] ∧
        (disass hexpfx vfp w a (some f)).text
          = emit_mnemonic "" (if BITS w 24 24 = 1 then "BL" else "B") (BITS w 31 28)
              ++ f ⟨dis_cb_type.D_BORBL, 0, branch_target_spec w a, toInt32 w⟩) ∧
      (disass hexpfx vfp w a none).calls = [] ∧
      (disass hexpfx vfp w a none).text
        = emit_mnemonic "" (if BITS w 24 24 = 1 then "BL" else "B") (BITS w 31 28)
            ++ hexpfx ++ fmtHexPad 8 (branch_target_spec w a) ∧
      numeral_value 16 (fmtHexPad 8 (branch_target_spec w a)).data = branch_target_spec w a ∧
      branch_target_spec w a < 2 ^ 32 ∧
      branch_target_spec 0xEA000000 0x8000 = 0x8008 := by
  refine ⟨?_, ?_, ?_, numeral_value_fmtHexPad _ _, ?_, by decide⟩
  · intro f
    rw [disass_of_branch hexpfx vfp w a (some f) hw h27 hc, branch_result]
    exact ⟨rfl, rfl⟩
  · rw [disass_of_branch hexpfx vfp w a none hw h27 hc, branch_result]
    rfl
  · rw [disass_of_branch hexpfx vfp w a none hw h27 hc, branch_result]
    rfl
  · unfold branch_target_spec
    omega

theorem branch_target_witness :
    (∀ f : dis_cb_fn,
      (disass "0x" none 0xEA000000 0x8000 (some f)).calls
          = [⟨dis_cb_type.D_BORBL, 0, branch_target_spec 0xEA000000 0x8000,
              toInt32 0xEA000000⟩] ∧
        (disass "0x" none 0xEA000000 0x8000 (some f)).text
          = emit_mnemonic "" (if BITS 0xEA000000 24 24 = 1 then "BL" else "B")
              (BITS 0xEA000000 31 28)
              ++ f ⟨dis_cb_type.D_BORBL, 0, branch_target_spec 0xEA000000 0x8000,
                  toInt32 0xEA000000⟩) ∧
      (disass "0x" none 0xEA000000 0x8000 none).calls = [] ∧
      (disass "0x" none 0xEA000000 0x8000 none).text
        = emit_mnemonic "" (if BITS 0xEA000000 24 24 = 1 then "BL" else "B")
            (BITS 0xEA000000 31 28)
            ++ "0x" ++ fmtHexPad 8 (branch_target_spec 0xEA000000 0x8000) ∧
      numeral_value 16 (fmtHexPad 8 (branch_target_spec 0xEA000000 0x8000)).data
        = branch_target_spec 0xEA000000 0x8000 ∧
      branch_target_spec 0xEA000000 0x8000 < 2 ^ 32 ∧
      branch_target_spec 0xEA000000 0x8000 = 0x8008 :=
  branch_target "0x" none 0xEA000000 0x8000 (by decide) (by decide) (by decide)

/-- C8, as the code has it: the word 0xEA000000 at address 0x8000 with no
callback and the default hex prefix gives the mnemonic `B` padded to the
mnemonic field, followed by `0x00008008`: the target is written with eight
hexadecimal digits. -/
theorem branch_literal_text (vfp : Option vfp_decoder) :
    disass "0x" vfp 0xEA000000 0x8000 none = ⟨"B               0x00008008", []⟩ ∧
      "B               0x00008008" = emit_mnemonic "" "B" 14 ++ "0x" ++ "00008008" :=
  ⟨rfl, by decide⟩

/-- C8 fails as stated: the operand text of 0xEA000000 at 0x8000 is
`0x00008008`, and the line is not the mnemonic field followed by `0x8008`. -/
theorem branch_literal_text_counterexample :
    (disass "0x" none 0xEA000000 0x8000 none).text = emit_mnemonic "" "B" 14 ++ "0x00008008" ∧
      ¬ ((disass "0x" none 0xEA000000 0x8000 none).text
          = emit_mnemonic "" "B" 14 ++ "0x8008") := by
  decide

/-! ## Single data transfer -/

theorem bit_ne_zero_iff (w k : Nat) : BITS w k k ≠ 0 ↔ BITS w k k = 1 := by
  have h : BITS w k k < 2 ^ (k - k + 1) := BITS_lt w k k
  rw [Nat.sub_self] at h
  have h' : BITS w k k < 2 := h
  omega

theorem bit_eq_zero_iff (w k : Nat) : BITS w k k = 0 ↔ ¬ BITS w k k = 1 := by
  have h : BITS w k k < 2 ^ (k - k + 1) := BITS_lt w k k
  rw [Nat.sub_self] at h
  have h' : BITS w k k < 2 := h
  omega

theorem toInt32_small (x : Nat) (h : x < 2 ^ 31) : toInt32 x = (x : Int) := by
  unfold toInt32
  have : x % 2 ^ 32 = x := Nat.mod_eq_of_lt (by omega)
  rw [this, if_pos h]

theorem append_signed_decimal_no_callback (p : String) (w : Nat) :
    append_signed_decimal p
        (if BITS w 23 23 = 0 then toInt32 (BITS w 11 0) else -toInt32 (BITS w 11 0))
      = p ++ sdt_numeral_no_callback w := by
  have hoff : BITS w 11 0 < 2 ^ 12 := BITS_lt w 11 0
  have hu : BITS w 23 23 < 2 := BITS_lt w 23 23
  rw [toInt32_small _ (by omega)]
  unfold append_signed_decimal sdt_numeral_no_callback
  generalize BITS w 11 0 = off at *
  generalize BITS w 23 23 = u at *
  by_cases h0 : u = 0
  · subst h0
    have hn : ¬ ((off : Int) < 0) := by omega
    simp [hn]
  · have h1 : u = 1 := by omega
    subst h1
    by_cases hz : off = 0
    · subst hz
      simp
    · have hneg : (-(off : Int)) < 0 := by omega
      simp [hneg, hz, String.append_assoc]

theorem bit_not_zero (w k : Nat) : (¬ BITS w k k = 0) = (BITS w k k = 1) :=
  propext (bit_ne_zero_iff w k)

theorem sdt_text_immediate_no_callback (hexpfx : String) (w pc : Nat)
    (h25 : BITS w 25 25 = 0) :
    (disass_single_data_transfer hexpfx w pc none).text =
      sdt_head w ++ sdt_immediate_shape w (sdt_numeral_no_callback w)
        ++ sdt_sp_comment hexpfx w := by
  have hw1 : BITS w 21 21 = 0 ∨ BITS w 21 21 = 1 := by
    have := bit_ne_zero_iff w 21
    omega
  simp only [disass_single_data_transfer, h25, ne_eq, not_true_eq_false, if_false,
    Option.isSome_none, Bool.false_eq_true, and_false, append_signed_decimal_no_callback,
    append_sp_hex_comment, sdt_head, sdt_immediate_shape, sdt_sp_comment, append_str,
    append_reg, bit_not_zero]
  rcases hw1 with hw0 | hw1
  · simp only [hw0, zero_ne_one, if_false, and_true]
    split_ifs <;> simp only [String.append_assoc, String.append_empty]
  · simp only [hw1, one_ne_zero, if_true, and_false, if_false]
    split_ifs <;> simp only [String.append_assoc, String.append_empty]

theorem sdt_text_register (hexpfx : String) (w pc : Nat) (cb : Option dis_cb_fn)
    (h25 : BITS w 25 25 = 1) :
    disass_single_data_transfer hexpfx w pc cb = ⟨sdt_head w ++ sdt_register_shape w, []⟩ := by
  simp only [disass_single_data_transfer, h25, ne_eq, one_ne_zero, not_false_eq_true, if_true,
    sdt_head, sdt_register_shape, append_str, append_reg, bit_not_zero]
  split_ifs <;> simp only [String.append_assoc, String.append_empty]

/-- A word with bits 27:26 = 01 reaches the single-data-transfer decoder. -/
theorem disass_of_single_data_transfer (hexpfx : String) (vfp : Option vfp_decoder)
    (w a : Nat) (cb : Option dis_cb_fn) (hw : w < 2 ^ 32) (h27 : BITS w 27 26 = 1) :
    disass hexpfx vfp w a cb = disass_single_data_transfer hexpfx w (a % 2 ^ 32) cb := by
  have hb : w &&& 0x0C000000 = 0x04000000 := (shift_and_eq_iff w 26 3 1).mp h27
  have h1 : ¬ (w &&& 0xfe000000 = 0xfa000000) :=
    fun h => absurd (mask_conflict hb h) (by decide)
  have h2 : ¬ (w &&& 0x0ffffff0 = 0x012fff10 ∨ w &&& 0x0ffffff0 = 0x012fff30) := by
    rintro (h | h) <;> exact absurd (mask_conflict hb h) (by decide)
  have h3 : ¬ (w &&& 0x0fb00ff0 = 0x01000090) :=
    fun h => absurd (mask_conflict hb h) (by decide)
  have h4 : ¬ (w &&& 0x0fff0ff0 = 0x016f0f10) :=
    fun h => absurd (mask_conflict hb h) (by decide)
  have h5 : ¬ (w &&& 0x0fbf0fff = 0x010f0000) :=
    fun h => absurd (mask_conflict hb h) (by decide)
  have h6 : ¬ (w &&& 0x0db0f000 = 0x0120f000) :=
    fun h => absurd (mask_conflict hb h) (by decide)
  have h7 : ¬ (w &&& 0x0FC000F0 = 0x00000090 ∨ w &&& 0x0FC000F0 = 0x00200090) := by
    rintro (h | h) <;> exact absurd (mask_conflict hb h) (by decide)
  have h8 : ¬ (w &&& 0x0F8000F0 = 0x00800090) :=
    fun h => absurd (mask_conflict hb h) (by decide)
  have h9 : ¬ (w &&& 0x0E0000F0 = 0x000000B0) :=
    fun h => absurd (mask_conflict hb h) (by decide)
  have h10 : ¬ (w &&& 0x0E000000 = 0x0A000000) :=
    fun h => absurd (mask_conflict hb h) (by decide)
  have h11 : ¬ (w &&& 0x0F000000 = 0x0F000000) :=
    fun h => absurd (mask_conflict hb h) (by decide)
  simp only [disass, Nat.mod_eq_of_lt hw]
  rw [if_neg h1, if_neg h2, if_neg h3, if_neg h4, if_neg h5, if_neg h6, if_neg h7, if_neg h8,
    if_neg h9, if_neg h10, if_neg h11, if_pos hb]

/-- C9: for a single-data-transfer word decoded with no callback, the address
operand after `Rd, ` has, for an immediate offset, one of the three shapes
`[Rn]`, `[Rn, #N]` (with `!` exactly when W = 1) and `[Rn], #N`, chosen by P, W
and the offset, where `N` is the 12-bit offset in decimal with or without a
leading `-`; it is followed only by the stack-relative comment when that
applies.  For a register offset the bracket shapes carry the name of Rm,
preceded by `-` when U = 0. -/
theorem single_transfer_address_shapes (hexpfx : String) (vfp : Option vfp_decoder)
    (w a : Nat) (hw : w < 2 ^ 32) (h27 : BITS w 27 26 = 1) :
    (BITS w 25 25 = 0 →
      ∃ N : String,
        (N = fmtDec (BITS w 11 0) ∨ N = "-" ++ fmtDec (BITS w 11 0)) ∧
        numeral_value 10 (fmtDec (BITS w 11 0)).data = BITS w 11 0 ∧
        (disass hexpfx vfp w a none).text =
          sdt_head w ++ sdt_immediate_shape w N ++ sdt_sp_comment hexpfx w) ∧
      (BITS w 25 25 = 1 →
        (disass hexpfx vfp w a none).text = sdt_head w ++ sdt_register_shape w) := by
  rw [disass_of_single_data_transfer hexpfx vfp w a none hw h27]
  constructor
  · intro h25
    refine ⟨sdt_numeral_no_callback w, ?_, numeral_value_fmtDec _, ?_⟩
    · unfold sdt_numeral_no_callback
      split_ifs
      · exact Or.inr rfl
      · exact Or.inl rfl
    · exact sdt_text_immediate_no_callback hexpfx w _ h25
  · intro h25
    rw [sdt_text_register hexpfx w _ none h25]

theorem single_transfer_address_shapes_witness :
    (BITS 0xE5B10004 25 25 = 0 →
      ∃ N : String,
        (N = fmtDec (BITS 0xE5B10004 11 0) ∨ N = "-" ++ fmtDec (BITS 0xE5B10004 11 0)) ∧
        numeral_value 10 (fmtDec (BITS 0xE5B10004 11 0)).data = BITS 0xE5B10004 11 0 ∧
        (disass "0x" none 0xE5B10004 0 none).text =
          sdt_head 0xE5B10004 ++ sdt_immediate_shape 0xE5B10004 N
            ++ sdt_sp_comment "0x" 0xE5B10004) ∧
      (BITS 0xE5B10004 25 25 = 1 →
        (disass "0x" none 0xE5B10004 0 none).text
          = sdt_head 0xE5B10004 ++ sdt_register_shape 0xE5B10004) :=
  single_transfer_address_shapes "0x" none 0xE5B10004 0 (by decide) (by decide)

/-- C10 against the code: with no callback the sign of the rendered offset is
the opposite of the U bit.  0xE5910004 (U = 1, `LDR r0, [r1, #4]`) is rendered
with `[r1, #-4]` and 0xE5110004 (U = 0) with `[r1, #4]`; with a callback that
writes nothing the same words are rendered with the sign the U bit gives. -/
theorem single_transfer_offset_sign_evaluated :
    (disass "0x" none 0xE5910004 0 none).text = "LDR             r0, [r1, #-4]" ∧
      (disass "0x" none 0xE5110004 0 none).text = "LDR             r0, [r1, #4]" ∧
      BITS 0xE5910004 23 23 = 1 ∧ BITS 0xE5110004 23 23 = 0 ∧
      (disass "0x" none 0xE5910004 0 (some (fun _ => ""))).text
        = "LDR             r0, [r1, #4]" ∧
      (disass "0x" none 0xE5110004 0 (some (fun _ => ""))).text
        = "LDR             r0, [r1, #-4]" := by
  decide

/-! ## Single data transfer with a callback -/

theorem sdt_soff_eq (w : Nat) :
    (if BITS w 23 23 = 0 then -toInt32 (BITS w 11 0) else toInt32 (BITS w 11 0))
      = sdt_signed_offset w := by
  have hoff : BITS w 11 0 < 2 ^ 12 := BITS_lt w 11 0
  have hu := bit_ne_zero_iff w 23
  rw [toInt32_small _ (by omega)]
  unfold sdt_signed_offset
  by_cases h0 : BITS w 23 23 = 0
  · have h1 : ¬ BITS w 23 23 = 1 := by omega
    rw [if_pos h0, if_neg h1]
  · have h1 : BITS w 23 23 = 1 := by omega
    rw [if_neg h0, if_pos h1]

theorem pcrel_address_eq (a : Nat) (soff : Int) :
    toUInt32 (toInt32 (a % 2 ^ 32) + 8 + soff) = pcrel_address_spec a soff := by
  unfold toUInt32 toInt32 pcrel_address_spec
  split_ifs <;> omega

theorem append_signed_decimal_signed (p : String) (w : Nat) :
    append_signed_decimal p (sdt_signed_offset w) = p ++ sdt_numeral_signed w := by
  have hoff : BITS w 11 0 < 2 ^ 12 := BITS_lt w 11 0
  have hu := bit_ne_zero_iff w 23
  unfold append_signed_decimal sdt_numeral_signed sdt_signed_offset
  generalize BITS w 11 0 = off at *
  generalize BITS w 23 23 = u at *
  by_cases h1 : u = 1
  · subst h1
    have hn : ¬ ((off : Int) < 0) := by omega
    simp [hn]
  · have h0 : u = 0 := by omega
    subst h0
    by_cases hz : off = 0
    · subst hz
      simp
    · have hneg : (-(off : Int)) < 0 := by omega
      simp [hneg, hz, String.append_assoc]

theorem append_offset_decimal_naked_signed (p : String) (w : Nat) :
    append_offset_decimal_naked p (sdt_signed_offset w) = p ++ sdt_numeral_signed w := by
  have hoff : BITS w 11 0 < 2 ^ 12 := BITS_lt w 11 0
  have hu := bit_ne_zero_iff w 23
  unfold append_offset_decimal_naked sdt_numeral_signed sdt_signed_offset toUInt32
  generalize BITS w 11 0 = off at *
  generalize BITS w 23 23 = u at *
  by_cases h1 : u = 1
  · subst h1
    have hn : ¬ ((off : Int) < 0) := by omega
    have e : (((off : Int)) % 4294967296).toNat = off := by omega
    simp [hn, e]
  · have h0 : u = 0 := by omega
    subst h0
    by_cases hz : off = 0
    · subst hz
      simp
    · have hneg : (-(off : Int)) < 0 := by omega
      have e : (((off : Int)) % 4294967296).toNat = off := by omega
      simp [hneg, hz, e, String.append_assoc]

/-- The PC-relative path with a callback. -/
theorem sdt_result_pcrel_callback (hexpfx : String) (w a : Nat) (f : dis_cb_fn)
    (h25 : BITS w 25 25 = 0) (hrn : BITS w 19 16 = 15) :
    disass_single_data_transfer hexpfx w (a % 2 ^ 32) (some f) =
      ⟨sdt_head w ++ f (sdt_pcrel_call w a), [sdt_pcrel_call w a]⟩ := by
  simp only [disass_single_data_transfer, h25, hrn, ne_eq, not_true_eq_false, if_false,
    Option.isSome_some, and_self, if_true, sdt_soff_eq, pcrel_address_eq, call_cb,
    sdt_head, sdt_pcrel_call, append_str, append_reg, bit_not_zero]

/-- The generic pre-indexed path with a callback that advances the cursor. -/
theorem sdt_result_generic_advanced (hexpfx : String) (w pc : Nat) (f : dis_cb_fn)
    (h25 : BITS w 25 25 = 0) (hrn : BITS w 19 16 ≠ 15) (hP : BITS w 24 24 = 1)
    (hplain : ¬ (BITS w 11 0 = 0 ∧ BITS w 21 21 = 0))
    (hf : (f (sdt_generic_call w)).length ≠ 0) :
    disass_single_data_transfer hexpfx w pc (some f) =
      ⟨sdt_head w ++ "[" ++ fallback_regname (BITS w 19 16) ++ ", #"
          ++ f (sdt_generic_call w) ++ "]" ++ (if BITS w 21 21 = 1 then "!" else ""),
        [sdt_generic_call w]⟩ := by
  have hf' := hf
  simp only [sdt_generic_call, ne_eq] at hf'
  simp only [disass_single_data_transfer, h25, hrn, ne_eq, not_true_eq_false, if_false,
    Option.isSome_some, false_and, if_true, sdt_soff_eq, call_cb, hP, hplain, true_and,
    one_ne_zero, not_false_eq_true, hf', sdt_head, sdt_generic_call, append_str, append_reg,
    bit_not_zero]
  split_ifs <;> simp only [String.append_assoc, String.append_empty]

/-- The generic path with a callback that leaves the cursor where it was. -/
theorem sdt_text_generic_declined (hexpfx : String) (w pc : Nat) (f : dis_cb_fn)
    (h25 : BITS w 25 25 = 0) (hrn : BITS w 19 16 ≠ 15)
    (hf : f (sdt_generic_call w) = "") :
    (disass_single_data_transfer hexpfx w pc (some f)).text =
      sdt_head w ++ sdt_immediate_shape w (sdt_numeral_signed w) ++ sdt_sp_comment hexpfx w := by
  have hw1 : BITS w 21 21 = 0 ∨ BITS w 21 21 = 1 := by
    have := bit_ne_zero_iff w 21
    omega
  have hf' := hf
  simp only [sdt_generic_call] at hf'
  have hlen : ("" : String).length = 0 := rfl
  simp only [disass_single_data_transfer, h25, hrn, ne_eq, not_true_eq_false, if_false,
    Option.isSome_some, false_and, if_true, sdt_soff_eq, call_cb, hf', hlen,
    append_signed_decimal_signed, append_offset_decimal_naked_signed,
    append_sp_hex_comment, append_hex_comment_for_offset, sdt_head, sdt_immediate_shape,
    sdt_sp_comment, append_str, append_reg, bit_not_zero]
  rcases hw1 with hw0 | hw1
  · simp only [hw0, zero_ne_one, if_false, and_true]
    split_ifs <;> first | omega | simp only [String.append_assoc, String.append_empty]
  · simp only [hw1, one_ne_zero, if_true, and_false, if_false]
    split_ifs <;> first | omega | simp only [String.append_assoc, String.append_empty]

theorem string_eq_empty_of_length (s : String) (h : s.length = 0) : s = "" := by
  apply String.ext
  exact List.length_eq_zero.mp h

theorem sdt_numeral_lengths (w : Nat) (h0 : BITS w 11 0 ≠ 0) :
    (sdt_numeral_signed w).length ≠ (sdt_numeral_no_callback w).length := by
  have hu := bit_ne_zero_iff w 23
  have hm : ("-" : String).length = 1 := rfl
  unfold sdt_numeral_signed sdt_numeral_no_callback
  by_cases h1 : BITS w 23 23 = 1
  · have hn : ¬ (BITS w 23 23 = 0 ∧ BITS w 11 0 ≠ 0) := by omega
    rw [if_neg hn, if_pos ⟨h1, h0⟩, String.length_append, hm]
    omega
  · have hz : BITS w 23 23 = 0 := by omega
    have hn : ¬ (BITS w 23 23 = 1 ∧ BITS w 11 0 ≠ 0) := fun h => h1 h.1
    rw [if_pos ⟨hz, h0⟩, if_neg hn, String.length_append, hm]
    omega

theorem sdt_numeral_zero (w : Nat) (h0 : BITS w 11 0 = 0) :
    sdt_numeral_signed w = sdt_numeral_no_callback w := by
  simp [sdt_numeral_signed, sdt_numeral_no_callback, h0]

theorem sdt_immediate_shape_length (w : Nat) (h0 : BITS w 11 0 ≠ 0) :
    ∃ k : Nat, ∀ M : String, (sdt_immediate_shape w M).length = k + M.length := by
  unfold sdt_immediate_shape
  have hne : ¬ (BITS w 11 0 = 0 ∧ BITS w 24 24 = 1 ∧ BITS w 21 21 = 0) := fun h => h0 h.1
  simp only [hne, if_false]
  by_cases hP : BITS w 24 24 = 1
  · simp only [hP, if_true]
    refine ⟨("[" ++ fallback_regname (BITS w 19 16) ++ ", #").length
      + ("]" ++ (if BITS w 21 21 = 1 then "!" else "")).length, ?_⟩
    intro M
    simp only [String.length_append]
    omega
  · simp only [hP, if_false]
    refine ⟨("[" ++ fallback_regname (BITS w 19 16) ++ "], #").length, ?_⟩
    intro M
    simp only [String.length_append]

/-- C11 against the code: for a single-data-transfer word with an immediate
offset and a base register other than PC, a callback that writes nothing
gives the three address shapes with the offset signed by the U bit, while
no callback gives them with the opposite sign; the two texts are identical
only when the 12-bit offset is zero. -/
theorem declining_callback_text_vs_no_callback (hexpfx : String) (vfp : Option vfp_decoder)
    (w a : Nat) (f : dis_cb_fn) (hw : w < 2 ^ 32) (h27 : BITS w 27 26 = 1)
    (h25 : BITS w 25 25 = 0) (hrn : BITS w 19 16 ≠ 15) (hf : ∀ c, f c = "") :
    (disass hexpfx vfp w a (some f)).text =
        sdt_head w ++ sdt_immediate_shape w (sdt_numeral_signed w)
          ++ sdt_sp_comment hexpfx w ∧
      (disass hexpfx vfp w a none).text =
        sdt_head w ++ sdt_immediate_shape w (sdt_numeral_no_callback w)
          ++ sdt_sp_comment hexpfx w ∧
      ((disass hexpfx vfp w a (some f)).text = (disass hexpfx vfp w a none).text
        ↔ BITS w 11 0 = 0) := by
  have h1 : (disass hexpfx vfp w a (some f)).text =
      sdt_head w ++ sdt_immediate_shape w (sdt_numeral_signed w)
        ++ sdt_sp_comment hexpfx w := by
    rw [disass_of_single_data_transfer hexpfx vfp w a (some f) hw h27]
    exact sdt_text_generic_declined hexpfx w _ f h25 hrn (hf _)
  have h2 : (disass hexpfx vfp w a none).text =
      sdt_head w ++ sdt_immediate_shape w (sdt_numeral_no_callback w)
        ++ sdt_sp_comment hexpfx w := by
    rw [disass_of_single_data_transfer hexpfx vfp w a none hw h27]
    exact sdt_text_immediate_no_callback hexpfx w _ h25
  refine ⟨h1, h2, ?_⟩
  rw [h1, h2]
  constructor
  · intro heq
    by_contra h0
    obtain ⟨k, hk⟩ := sdt_immediate_shape_length w h0
    have hlen := congrArg String.length heq
    simp only [String.length_append, hk] at hlen
    exact sdt_numeral_lengths w h0 (by omega)
  · intro h0
    rw [sdt_numeral_zero w h0]

theorem declining_callback_text_vs_no_callback_witness :
    (disass "0x" none 0xE5910004 0 (some (fun _ => ""))).text =
        sdt_head 0xE5910004 ++ sdt_immediate_shape 0xE5910004 (sdt_numeral_signed 0xE5910004)
          ++ sdt_sp_comment "0x" 0xE5910004 ∧
      (disass "0x" none 0xE5910004 0 none).text =
        sdt_head 0xE5910004
          ++ sdt_immediate_shape 0xE5910004 (sdt_numeral_no_callback 0xE5910004)
          ++ sdt_sp_comment "0x" 0xE5910004 ∧
      ((disass "0x" none 0xE5910004 0 (some (fun _ => ""))).text
          = (disass "0x" none 0xE5910004 0 none).text
        ↔ BITS 0xE5910004 11 0 = 0) :=
  declining_callback_text_vs_no_callback "0x" none 0xE5910004 0 (fun _ => "") (by decide)
    (by decide) (by decide) (by decide) (fun _ => rfl)

/-! ## Generic and PC-relative transfers with a callback -/

/-- C12: for a pre-indexed single-data-transfer word with an immediate
offset, a base register other than PC and not the plain `[Rn]` case, a
callback that writes a non-empty text `t` is invoked exactly once, with the
generic load/store kind by the L bit, the offset signed by the U bit and
address 0, and the line is `Rd, [Rn, #` then `t` then `]` and `!` exactly when
W = 1; with `t = sym+4` it ends in `#sym+4]` or `#sym+4]!`. -/
theorem generic_callback_decoration (hexpfx : String) (vfp : Option vfp_decoder)
    (w a : Nat) (f : dis_cb_fn) (hw : w < 2 ^ 32) (h27 : BITS w 27 26 = 1)
    (h25 : BITS w 25 25 = 0) (hrn : BITS w 19 16 ≠ 15) (hP : BITS w 24 24 = 1)
    (hplain : ¬ (BITS w 11 0 = 0 ∧ BITS w 21 21 = 0))
    (hf : f (sdt_generic_call w) ≠ "") :
    (disass hexpfx vfp w a (some f)).calls =
        [⟨if BITS w 20 20 = 1 then dis_cb_type.D_LOAD else dis_cb_type.D_STORE,
          sdt_signed_offset w, 0, toInt32 w⟩] ∧
      (disass hexpfx vfp w a (some f)).text =
        sdt_head w ++ "[" ++ fallback_regname (BITS w 19 16) ++ ", #"
          ++ f (sdt_generic_call w) ++ "]" ++ (if BITS w 21 21 = 1 then "!" else "") ∧
      (f (sdt_generic_call w) = "sym+4" →
        ("#sym+4]" ++ (if BITS w 21 21 = 1 then "!" else "")).data
          <:+ (disass hexpfx vfp w a (some f)).text.data) := by
  have hlen : (f (sdt_generic_call w)).length ≠ 0 :=
    fun h => hf (string_eq_empty_of_length _ h)
  rw [disass_of_single_data_transfer hexpfx vfp w a (some f) hw h27,
    sdt_result_generic_advanced hexpfx w _ f h25 hrn hP hplain hlen]
  refine ⟨rfl, rfl, ?_⟩
  intro ht
  rw [ht]
  refine ⟨(sdt_head w ++ "[" ++ fallback_regname (BITS w 19 16) ++ ", ").data, ?_⟩
  simp only [String.data_append, List.append_assoc]
  rfl

theorem generic_callback_decoration_witness :
    (disass "0x" none 0xE5B10004 0 (some (fun _ => "sym+4"))).calls =
        [⟨if BITS 0xE5B10004 20 20 = 1 then dis_cb_type.D_LOAD else dis_cb_type.D_STORE,
          sdt_signed_offset 0xE5B10004, 0, toInt32 0xE5B10004⟩] ∧
      (disass "0x" none 0xE5B10004 0 (some (fun _ => "sym+4"))).text =
        sdt_head 0xE5B10004 ++ "[" ++ fallback_regname (BITS 0xE5B10004 19 16) ++ ", #"
          ++ (fun _ => "sym+4") (sdt_generic_call 0xE5B10004) ++ "]"
          ++ (if BITS 0xE5B10004 21 21 = 1 then "!" else "") ∧
      ((fun _ => "sym+4") (sdt_generic_call 0xE5B10004) = "sym+4" →
        ("#sym+4]" ++ (if BITS 0xE5B10004 21 21 = 1 then "!" else "")).data
          <:+ (disass "0x" none 0xE5B10004 0 (some (fun _ => "sym+4"))).text.data) :=
  generic_callback_decoration "0x" none 0xE5B10004 0 (fun _ => "sym+4") (by decide)
    (by decide) (by decide) (by decide) (by decide) (by decide) (by decide)

/-- C14: for a single-data-transfer word with an immediate offset and
Rn = 15 decoded at address `a` with a callback, the callback is invoked
exactly once, with the PC-relative load/store kind by the L bit, the offset
`+off12` (U = 1) or `-off12` (U = 0) and the address `(a + 8 + offset) mod 2^32`,
and the line is `Rd, ` followed by what the callback wrote and nothing else. -/
theorem pcrel_transfer_callback (hexpfx : String) (vfp : Option vfp_decoder)
    (w a : Nat) (f : dis_cb_fn) (hw : w < 2 ^ 32) (h27 : BITS w 27 26 = 1)
    (h25 : BITS w 25 25 = 0) (hrn : BITS w 19 16 = 15) :
    (disass hexpfx vfp w a (some f)).calls =
        [⟨if BITS w 20 20 = 1 then dis_cb_type.D_LOADPCREL else dis_cb_type.D_STOREPCREL,
          sdt_signed_offset w,
          (((a : Int) + 8 + sdt_signed_offset w) % 2 ^ 32).toNat,
          toInt32 w⟩] ∧
      (disass hexpfx vfp w a (some f)).text = sdt_head w ++ f (sdt_pcrel_call w a) ∧
      (BITS w 23 23 = 1 → sdt_signed_offset w = ((BITS w 11 0 : Nat) : Int)) ∧
      (BITS w 23 23 = 0 → sdt_signed_offset w = -((BITS w 11 0 : Nat) : Int)) := by
  rw [disass_of_single_data_transfer hexpfx vfp w a (some f) hw h27,
    sdt_result_pcrel_callback hexpfx w a f h25 hrn]
  refine ⟨rfl, rfl, ?_, ?_⟩
  · intro h1
    simp [sdt_signed_offset, h1]
  · intro h0
    simp [sdt_signed_offset, h0]

theorem pcrel_transfer_callback_witness :
    (disass "0x" none 0xE51F2008 0x100 (some (fun _ => "lit"))).calls =
        [⟨if BITS 0xE51F2008 20 20 = 1 then dis_cb_type.D_LOADPCREL
            else dis_cb_type.D_STOREPCREL,
          sdt_signed_offset 0xE51F2008,
          ((((0x100 : Nat) : Int) + 8 + sdt_signed_offset 0xE51F2008) % 2 ^ 32).toNat,
          toInt32 0xE51F2008⟩] ∧
      (disass "0x" none 0xE51F2008 0x100 (some (fun _ => "lit"))).text
        = sdt_head 0xE51F2008 ++ (fun _ => "lit") (sdt_pcrel_call 0xE51F2008 0x100) ∧
      (BITS 0xE51F2008 23 23 = 1 →
        sdt_signed_offset 0xE51F2008 = ((BITS 0xE51F2008 11 0 : Nat) : Int)) ∧
      (BITS 0xE51F2008 23 23 = 0 →
        sdt_signed_offset 0xE51F2008 = -((BITS 0xE51F2008 11 0 : Nat) : Int)) :=
  pcrel_transfer_callback "0x" none 0xE51F2008 0x100 (fun _ => "lit") (by decide)
    (by decide) (by decide) (by decide)

theorem sdt_sp_comment_of_pc (hexpfx : String) (w : Nat) (hrn : BITS w 19 16 = 15) :
    sdt_sp_comment hexpfx w = "" := by
  simp [sdt_sp_comment, hrn]

/-- C15, as the code has it: for a single-data-transfer word with an immediate
offset and Rn = 15 decoded with no callback, the operand after `Rd, ` is one of
the bracket shapes `[pc]`, `[pc, #N]` (with `!` when W = 1) or `[pc], #N`, `N`
being the 12-bit offset in decimal with or without `-`; no callback is invoked
and the text does not depend on the address. -/
theorem pcrel_transfer_no_callback (hexpfx : String) (vfp : Option vfp_decoder)
    (w a : Nat) (hw : w < 2 ^ 32) (h27 : BITS w 27 26 = 1)
    (h25 : BITS w 25 25 = 0) (hrn : BITS w 19 16 = 15) :
    (∃ N : String,
      (N = fmtDec (BITS w 11 0) ∨ N = "-" ++ fmtDec (BITS w 11 0)) ∧
      (disass hexpfx vfp w a none).text = sdt_head w ++ sdt_immediate_shape w N) ∧
      fallback_regname (BITS w 19 16) = "pc" ∧
      (disass hexpfx vfp w a none).calls = [] ∧
      (∀ a' : Nat, disass hexpfx vfp w a' none = disass hexpfx vfp w a none) := by
  refine ⟨⟨sdt_numeral_no_callback w, ?_, ?_⟩, ?_, ?_, ?_⟩
  · unfold sdt_numeral_no_callback
    split_ifs
    · exact Or.inr rfl
    · exact Or.inl rfl
  · rw [disass_of_single_data_transfer hexpfx vfp w a none hw h27,
      sdt_text_immediate_no_callback hexpfx w _ h25, sdt_sp_comment_of_pc hexpfx w hrn,
      String.append_empty]
  · rw [hrn]
    rfl
  · rw [disass_of_single_data_transfer hexpfx vfp w a none hw h27]
    simp only [disass_single_data_transfer, h25, ne_eq, not_true_eq_false, if_false,
      Option.isSome_none, Bool.false_eq_true, and_false]
    split_ifs <;> rfl
  · intro a'
    rw [disass_of_single_data_transfer hexpfx vfp w a none hw h27,
      disass_of_single_data_transfer hexpfx vfp w a' none hw h27]
    simp only [disass_single_data_transfer, h25, ne_eq, not_true_eq_false, if_false,
      Option.isSome_none, Bool.false_eq_true, and_false]

theorem pcrel_transfer_no_callback_witness :
    (∃ N : String,
      (N = fmtDec (BITS 0xE51F2000 11 0) ∨ N = "-" ++ fmtDec (BITS 0xE51F2000 11 0)) ∧
      (disass "0x" none 0xE51F2000 0x100 none).text
        = sdt_head 0xE51F2000 ++ sdt_immediate_shape 0xE51F2000 N) ∧
      fallback_regname (BITS 0xE51F2000 19 16) = "pc" ∧
      (disass "0x" none 0xE51F2000 0x100 none).calls = [] ∧
      (∀ a' : Nat, disass "0x" none 0xE51F2000 a' none
        = disass "0x" none 0xE51F2000 0x100 none) :=
  pcrel_transfer_no_callback "0x" none 0xE51F2000 0x100 (by decide) (by decide) (by decide)
    (by decide)

/-- C15 fails as stated: 0xE51F2000 at address 0x100 with no callback is
rendered as `LDR r2, [pc]` (padded); the hex prefix occurs nowhere in the
line, so no hexadecimal address 0x108 is written. -/
theorem pcrel_transfer_no_callback_counterexample :
    BITS 0xE51F2000 27 26 = 1 ∧ BITS 0xE51F2000 25 25 = 0 ∧ BITS 0xE51F2000 19 16 = 15 ∧
      (disass "0x" none 0xE51F2000 0x100 none).text = "LDR             r2, [pc]" ∧
      ¬ (("0x" : String).data <:+: (disass "0x" none 0xE51F2000 0x100 none).text.data) := by
  decide

/-- C16, as the code has it: for a single-data-transfer word with an immediate
offset and Rn = 15 decoded with a callback that writes nothing, the callback
is still invoked exactly once and the decoder adds nothing: the line ends
after `Rd, `. -/
theorem pcrel_transfer_declined (hexpfx : String) (vfp : Option vfp_decoder)
    (w a : Nat) (f : dis_cb_fn) (hw : w < 2 ^ 32) (h27 : BITS w 27 26 = 1)
    (h25 : BITS w 25 25 = 0) (hrn : BITS w 19 16 = 15)
    (hf : f (sdt_pcrel_call w a) = "") :
    (disass hexpfx vfp w a (some f)).text = sdt_head w ∧
      (disass hexpfx vfp w a (some f)).calls = [sdt_pcrel_call w a] := by
  rw [disass_of_single_data_transfer hexpfx vfp w a (some f) hw h27,
    sdt_result_pcrel_callback hexpfx w a f h25 hrn, hf]
  exact ⟨String.append_empty _, rfl⟩

theorem pcrel_transfer_declined_witness :
    (disass "0x" none 0xE51F2000 0x100 (some (fun _ => ""))).text = sdt_head 0xE51F2000 ∧
      (disass "0x" none 0xE51F2000 0x100 (some (fun _ => ""))).calls
        = [sdt_pcrel_call 0xE51F2000 0x100] :=
  pcrel_transfer_declined "0x" none 0xE51F2000 0x100 (fun _ => "") (by decide) (by decide)
    (by decide) (by decide) rfl

/-- C16 fails as stated: 0xE51F2000 at address 0x100 with a callback that
writes nothing is rendered as the mnemonic field and `r2, ` only; the hex
prefix occurs nowhere in the line, so no fallback address is written. -/
theorem pcrel_transfer_declined_counterexample :
    BITS 0xE51F2000 27 26 = 1 ∧ BITS 0xE51F2000 25 25 = 0 ∧ BITS 0xE51F2000 19 16 = 15 ∧
      (disass "0x" none 0xE51F2000 0x100 (some (fun _ => ""))).text
        = "LDR             r2, " ∧
      ¬ (("0x" : String).data
          <:+: (disass "0x" none 0xE51F2000 0x100 (some (fun _ => ""))).text.data) := by
  decide

/-! ## The stack-relative comment -/

theorem not_mem_data_append (c : Char) (a b : String) :
    c ∉ (a ++ b).data ↔ c ∉ a.data ∧ c ∉ b.data := by
  rw [String.data_append, List.mem_append, not_or]

theorem digitChar_ne_at (d : Nat) (h : d < 16) : digitChar d ≠ '@' := by
  interval_cases d <;> decide

theorem digitsFuel_digits (b : Nat) (hb : 0 < b) :
    ∀ fuel n : Nat, ∀ c ∈ digitsFuel b fuel n, ∃ d, d < b ∧ c = digitChar d := by
  intro fuel
  induction fuel with
  | zero =>
    intro n c hc
    simp [digitsFuel] at hc
  | succ fuel ih =>
    intro n c hc
    unfold digitsFuel at hc
    by_cases hlt : n < b
    · rw [if_pos hlt, List.mem_singleton] at hc
      exact ⟨n, hlt, hc⟩
    · rw [if_neg hlt, List.mem_append, List.mem_singleton] at hc
      rcases hc with hc | hc
      · exact ih _ c hc
      · exact ⟨n % b, Nat.mod_lt _ hb, hc⟩

theorem no_at_fmtDec (n : Nat) : '@' ∉ (fmtDec n).data := by
  intro h
  obtain ⟨d, hd, hc⟩ := digitsFuel_digits 10 (by decide) (n + 1) n '@' h
  exact digitChar_ne_at d (by omega) hc.symm

theorem no_at_regname (r : Nat) : '@' ∉ (fallback_regname r).data := by
  unfold fallback_regname
  by_cases h : r ≥ 16
  · rw [if_pos h]
    decide
  · rw [if_neg h]
    have hr : r < 16 := by omega
    interval_cases r <;> decide

theorem no_at_emit_mnemonic (base : String) (cond : Nat) (hb : '@' ∉ base.data) :
    '@' ∉ (emit_mnemonic "" base cond).data := by
  have hcc : '@' ∉ (if cond ≠ 14 then cond_codes.getD cond "" else "").data := by
    split_ifs
    · by_cases h : cond < 16
      · interval_cases cond <;> decide
      · have : cond_codes.getD cond "" = "" := by
          rw [List.getD_eq_default]
          simpa [cond_codes] using h
        rw [this]
        decide
    · decide
  simp only [emit_mnemonic, emit_mnemonic_with_suffix, Option.getD_none, String.data_append,
    List.mem_append, List.mem_replicate, not_or]
  refine ⟨⟨?_, ⟨⟨⟨hb, hcc⟩, ?_⟩, ?_⟩⟩, ?_⟩
  · decide
  · decide
  · decide
  · intro h
    exact absurd h.2 (by decide)

theorem no_at_sdt_head (w : Nat) : '@' ∉ (sdt_head w).data := by
  unfold sdt_head
  rw [not_mem_data_append, not_mem_data_append]
  refine ⟨⟨no_at_emit_mnemonic _ _ ?_, no_at_regname _⟩, by decide⟩
  split_ifs <;> decide

theorem no_at_sdt_immediate_shape (w : Nat) (N : String) (hN : '@' ∉ N.data) :
    '@' ∉ (sdt_immediate_shape w N).data := by
  have hr := no_at_regname (BITS w 19 16)
  have h1 : '@' ∉ ("[" : String).data := by decide
  have h2 : '@' ∉ ("]" : String).data := by decide
  have h3 : '@' ∉ (", #" : String).data := by decide
  have h4 : '@' ∉ ("], #" : String).data := by decide
  have h5 : '@' ∉ ("!" : String).data := by decide
  have h6 : '@' ∉ ("" : String).data := by decide
  unfold sdt_immediate_shape
  split_ifs <;> simp only [not_mem_data_append] <;> simp [hr, h1, h2, h3, h4, h5, h6, hN]

theorem no_at_sdt_numeral_no_callback (w : Nat) : '@' ∉ (sdt_numeral_no_callback w).data := by
  unfold sdt_numeral_no_callback
  split_ifs
  · rw [not_mem_data_append]
    exact ⟨by decide, no_at_fmtDec _⟩
  · exact no_at_fmtDec _

/-- C13: for a single-data-transfer word with an immediate offset decoded
with no callback, the line ends with the comment `   @ `, the hex prefix and
the 12-bit offset in uppercase hexadecimal if and only if the base register is
13 and the offset is greater than 9; otherwise the line contains no `@`. -/
theorem stack_relative_hex_comment (hexpfx : String) (vfp : Option vfp_decoder)
    (w a : Nat) (hw : w < 2 ^ 32) (h27 : BITS w 27 26 = 1) (h25 : BITS w 25 25 = 0) :
    ((("   @ " ++ hexpfx ++ fmtHex (BITS w 11 0)).data
          <:+ (disass hexpfx vfp w a none).text.data)
        ↔ (BITS w 19 16 = 13 ∧ BITS w 11 0 > 9)) ∧
      (¬ (BITS w 19 16 = 13 ∧ BITS w 11 0 > 9) →
        '@' ∉ (disass hexpfx vfp w a none).text.data) ∧
      numeral_value 16 (fmtHex (BITS w 11 0)).data = BITS w 11 0 := by
  have htext : (disass hexpfx vfp w a none).text =
      sdt_head w ++ sdt_immediate_shape w (sdt_numeral_no_callback w)
        ++ sdt_sp_comment hexpfx w := by
    rw [disass_of_single_data_transfer hexpfx vfp w a none hw h27]
    exact sdt_text_immediate_no_callback hexpfx w _ h25
  have hno : ¬ (BITS w 19 16 = 13 ∧ BITS w 11 0 > 9) →
      '@' ∉ (disass hexpfx vfp w a none).text.data := by
    intro hc
    rw [htext, not_mem_data_append, not_mem_data_append]
    refine ⟨⟨no_at_sdt_head w,
      no_at_sdt_immediate_shape w _ (no_at_sdt_numeral_no_callback w)⟩, ?_⟩
    simp only [sdt_sp_comment, hc, if_false]
    decide
  refine ⟨⟨?_, ?_⟩, hno, numeral_value_fmtHex _⟩
  · intro hsuf
    by_contra hc
    apply hno hc
    apply hsuf.subset
    simp [String.data_append]
  · intro hc
    rw [htext]
    simp only [sdt_sp_comment, hc, and_self, if_true]
    rw [String.data_append]
    exact List.suffix_append _ _

theorem stack_relative_hex_comment_witness :
    ((("   @ " ++ "0x" ++ fmtHex (BITS 0xE58D1010 11 0)).data
          <:+ (disass "0x" none 0xE58D1010 0 none).text.data)
        ↔ (BITS 0xE58D1010 19 16 = 13 ∧ BITS 0xE58D1010 11 0 > 9)) ∧
      (¬ (BITS 0xE58D1010 19 16 = 13 ∧ BITS 0xE58D1010 11 0 > 9) →
        '@' ∉ (disass "0x" none 0xE58D1010 0 none).text.data) ∧
      numeral_value 16 (fmtHex (BITS 0xE58D1010 11 0)).data = BITS 0xE58D1010 11 0 :=
  stack_relative_hex_comment "0x" none 0xE58D1010 0 (by decide) (by decide) (by decide)

/-! ## PC-relative ADD and SUB -/

theorem dp_calls_pcrel (w pc : Nat) (f : dis_cb_fn) (h25 : BITS w 25 25 = 1)
    (hop : BITS w 24 21 = 4 ∨ BITS w 24 21 = 2) (hrn : BITS w 19 16 = 15) :
    (disass_data_processing w pc (some f)).calls =
      [⟨if BITS w 24 21 = 4 then dis_cb_type.D_ADDPCREL else dis_cb_type.D_SUBPCREL,
        toInt32 (rotate_imm (BITS w 7 0) ((BITS w 11 8 * 2) % 2 ^ 32)),
        (pc + 8) % 2 ^ 32, toInt32 w⟩] := by
  simp only [disass_data_processing, h25, hrn, hop, ne_eq, one_ne_zero, not_false_eq_true,
    if_true, Option.isSome_some, and_self]

theorem dp_text_pcrel (w pc : Nat) (f : dis_cb_fn) (h25 : BITS w 25 25 = 1)
    (hop : BITS w 24 21 = 4 ∨ BITS w 24 21 = 2) (hrn : BITS w 19 16 = 15) :
    (disass_data_processing w pc (some f)).text =
      emit_mnemonic "" (dp_mnemonic_spec w) (BITS w 31 28)
        ++ fallback_regname (BITS w 15 12) ++ ", pc, "
        ++ f ⟨if BITS w 24 21 = 4 then dis_cb_type.D_ADDPCREL else dis_cb_type.D_SUBPCREL,
            toInt32 (rotate_imm (BITS w 7 0) ((BITS w 11 8 * 2) % 2 ^ 32)),
            (pc + 8) % 2 ^ 32, toInt32 w⟩ := by
  have h1 : ¬ (8 ≤ BITS w 24 21 ∧ BITS w 24 21 ≤ 11) := by omega
  have h2 : ¬ (BITS w 24 21 = 13 ∨ BITS w 24 21 = 15) := by omega
  have hpc : fallback_regname 15 = "pc" := rfl
  have hsep : ", " ++ ("pc" ++ ", ") = ", pc, " := rfl
  rw [dp_text]
  simp only [dp_register_operands_spec, dp_operand2, h1, h2, h25, hrn, hop, hpc, if_false,
    ne_eq, one_ne_zero, not_false_eq_true, if_true, Option.isSome_some, and_self, call_cb,
    String.append_assoc, hsep]

/-- C17, as the code has it: for a data-processing word with the immediate bit
set, opcode ADD or SUB and Rn = 15, decoded at address `a` with a callback, the
callback is invoked exactly once, with the PC-relative add kind for ADD and the
subtract kind for SUB, the rotated immediate as offset, and `(a + 8) mod 2^32`
as address for both opcodes; the line is `Rd, pc, ` followed by exactly what
the callback wrote. -/
theorem pcrel_add_sub_callback (hexpfx : String) (vfp : Option vfp_decoder)
    (w a : Nat) (f : dis_cb_fn) (hw : w < 2 ^ 32) (h : routed_to_data_processing w)
    (h25 : BITS w 25 25 = 1) (hop : BITS w 24 21 = 4 ∨ BITS w 24 21 = 2)
    (hrn : BITS w 19 16 = 15) :
    (disass hexpfx vfp w a (some f)).calls =
        [⟨if BITS w 24 21 = 4 then dis_cb_type.D_ADDPCREL else dis_cb_type.D_SUBPCREL,
          toInt32 (ror32_spec (BITS w 7 0) (2 * BITS w 11 8)),
          (a + 8) % 2 ^ 32, toInt32 w⟩] ∧
      (disass hexpfx vfp w a (some f)).text =
        emit_mnemonic "" (dp_mnemonic_spec w) (BITS w 31 28)
          ++ fallback_regname (BITS w 15 12) ++ ", pc, "
          ++ f ⟨if BITS w 24 21 = 4 then dis_cb_type.D_ADDPCREL else dis_cb_type.D_SUBPCREL,
              toInt32 (ror32_spec (BITS w 7 0) (2 * BITS w 11 8)),
              (a + 8) % 2 ^ 32, toInt32 w⟩ ∧
      (ror32_spec (BITS w 7 0) (2 * BITS w 11 8) < 2 ^ 31 →
        toInt32 (ror32_spec (BITS w 7 0) (2 * BITS w 11 8))
          = ((ror32_spec (BITS w 7 0) (2 * BITS w 11 8) : Nat) : Int)) := by
  have h7 : BITS w 7 0 < 256 := BITS_lt w 7 0
  have h8 : BITS w 11 8 < 16 := BITS_lt w 11 8
  have hv := rotate_imm_eq_ror32_spec (BITS w 7 0) (BITS w 11 8) h7 h8
  have ha : (a % 2 ^ 32 + 8) % 2 ^ 32 = (a + 8) % 2 ^ 32 := by omega
  rw [disass_of_routed_to_data_processing hexpfx vfp w a (some f) hw h,
    dp_calls_pcrel w _ f h25 hop hrn, dp_text_pcrel w _ f h25 hop hrn, hv, ha]
  exact ⟨rfl, rfl, fun hlt => toInt32_small _ hlt⟩

theorem pcrel_add_sub_callback_witness :
    (disass "0x" none 0xE28F0004 0x100 (some (fun _ => "lab"))).calls =
        [⟨if BITS 0xE28F0004 24 21 = 4 then dis_cb_type.D_ADDPCREL
            else dis_cb_type.D_SUBPCREL,
          toInt32 (ror32_spec (BITS 0xE28F0004 7 0) (2 * BITS 0xE28F0004 11 8)),
          (0x100 + 8) % 2 ^ 32, toInt32 0xE28F0004⟩] ∧
      (disass "0x" none 0xE28F0004 0x100 (some (fun _ => "lab"))).text =
        emit_mnemonic "" (dp_mnemonic_spec 0xE28F0004) (BITS 0xE28F0004 31 28)
          ++ fallback_regname (BITS 0xE28F0004 15 12) ++ ", pc, "
          ++ (fun _ => "lab")
              (⟨if BITS 0xE28F0004 24 21 = 4 then dis_cb_type.D_ADDPCREL
                  else dis_cb_type.D_SUBPCREL,
                toInt32 (ror32_spec (BITS 0xE28F0004 7 0) (2 * BITS 0xE28F0004 11 8)),
                (0x100 + 8) % 2 ^ 32, toInt32 0xE28F0004⟩ : CbCall) ∧
      (ror32_spec (BITS 0xE28F0004 7 0) (2 * BITS 0xE28F0004 11 8) < 2 ^ 31 →
        toInt32 (ror32_spec (BITS 0xE28F0004 7 0) (2 * BITS 0xE28F0004 11 8))
          = ((ror32_spec (BITS 0xE28F0004 7 0) (2 * BITS 0xE28F0004 11 8) : Nat) : Int)) :=
  pcrel_add_sub_callback "0x" none 0xE28F0004 0x100 (fun _ => "lab") (by decide) (by decide)
    (by decide) (by decide) (by decide)

/-- C17 fails as stated: 0xE28F0004 (`ADD r0, pc, #4`) at address 0x100 invokes
the callback with address 0x108, which is `a + 8`, and not with the resolved
address `a + 8 + 4 = 0x10C` of the claim. -/
theorem pcrel_add_sub_callback_counterexample :
    routed_to_data_processing 0xE28F0004 ∧ BITS 0xE28F0004 25 25 = 1 ∧
      BITS 0xE28F0004 24 21 = 4 ∧ BITS 0xE28F0004 19 16 = 15 ∧
      ror32_spec (BITS 0xE28F0004 7 0) (2 * BITS 0xE28F0004 11 8) = 4 ∧
      (disass "0x" none 0xE28F0004 0x100 (some (fun _ => "lab"))).calls
        = [⟨dis_cb_type.D_ADDPCREL, 4, 0x108, toInt32 0xE28F0004⟩] ∧
      ¬ ((disass "0x" none 0xE28F0004 0x100 (some (fun _ => "lab"))).calls.map
          (fun c => c.address) = [(0x100 + 8 + 4) % 2 ^ 32]) := by
  decide

/-! ## Register lists -/

theorem intercalate_go (s acc : String) (l : List String) :
    String.intercalate.go acc s l = acc ++ (l.map (fun a => s ++ a)).foldr (· ++ ·) "" := by
  induction l generalizing acc with
  | nil => simp [String.intercalate.go]
  | cons a l ih =>
    simp only [String.intercalate.go, ih, List.map_cons, List.foldr_cons, String.append_assoc]

theorem comma_tail_eq (l : List String) :
    comma_tail l = (l.map (fun a => ", " ++ a)).foldr (· ++ ·) "" := by
  induction l with
  | nil => rfl
  | cons a l ih => simp only [comma_tail, ih, List.map_cons, List.foldr_cons,
      String.append_assoc]

theorem intercalate_cons (a : String) (l : List String) :
    ", ".intercalate (a :: l) = a ++ comma_tail l := by
  rw [comma_tail_eq]
  exact intercalate_go ", " a l

theorem intercalate_nil : ", ".intercalate [] = "" := rfl

theorem reglist_entry_append (p : String) (r e : Nat) :
    (if e > r then append_reg (append_reg p r ++ "-") e else append_reg p r)
      = p ++ reglist_entry_written (r, e) := by
  unfold reglist_entry_written append_reg append_str
  split_ifs <;> simp only [String.append_assoc]

/-- What the outer loop writes, in terms of the pairs it visits. -/
theorem reglist_loop_eq (list : Nat) :
    ∀ (fuel r : Nat) (first : Bool) (p : String),
      reglist_loop list fuel r first p =
        p ++ (if first then ", ".intercalate ((reglist_runs list fuel r).map reglist_entry_written)
              else comma_tail ((reglist_runs list fuel r).map reglist_entry_written)) := by
  intro fuel
  induction fuel with
  | zero =>
    intro r first p
    cases first
    · simp only [reglist_loop, reglist_runs, List.map_nil, comma_tail, Bool.false_eq_true,
        if_false, String.append_empty]
    · simp only [reglist_loop, reglist_runs, List.map_nil, intercalate_nil, if_true,
        String.append_empty]
  | succ fuel ih =>
    intro r first p
    unfold reglist_loop reglist_runs
    by_cases hr : r < 16
    · by_cases hb : list &&& (1 <<< r) ≠ 0
      · rw [if_pos hr, if_pos hr, if_pos hb, if_pos hb]
        simp only [ih, Bool.false_eq_true, if_false]
        cases first
        · simp only [Bool.false_eq_true, if_false]
          rw [reglist_entry_append, List.map_cons, comma_tail]
          simp only [String.append_assoc]
        · simp only [if_true]
          rw [reglist_entry_append, List.map_cons, intercalate_cons]
          simp only [String.append_assoc]
      · rw [if_pos hr, if_pos hr, if_neg hb, if_neg hb, ih]
    · rw [if_neg hr, if_neg hr]
      cases first
      · simp only [List.map_nil, comma_tail, Bool.false_eq_true, if_false, String.append_empty]
      · simp only [List.map_nil, intercalate_nil, if_true, String.append_empty]

/-- The test `list & (1u << r)` of the source is a test of bit `r`. -/
theorem reg_bit_iff (list r : Nat) : list &&& (1 <<< r) ≠ 0 ↔ list.testBit r = true := by
  have h := (shift_and_eq_iff list r 1 ((list >>> r) &&& 1)).mp rfl
  rw [h, Nat.shiftLeft_eq, Nat.testBit_to_div_mod, Nat.shiftRight_eq_div_pow,
    Nat.and_one_is_mod]
  have hp : 0 < 2 ^ r := Nat.two_pow_pos r
  have hm : list / 2 ^ r % 2 < 2 := Nat.mod_lt _ (by decide)
  constructor
  · intro hne
    have : list / 2 ^ r % 2 ≠ 0 := fun h0 => hne (by rw [h0, Nat.zero_mul])
    simp only [decide_eq_true_eq]
    omega
  · intro ht
    simp only [decide_eq_true_eq] at ht
    rw [ht, Nat.one_mul]
    omega

theorem reg_bit_false_iff (list r : Nat) :
    ¬ (list &&& (1 <<< r) ≠ 0) ↔ list.testBit r = false := by
  rw [reg_bit_iff]
  simp

/-- The inner loop stops at the end of the run of set bits it starts in. -/
theorem reglist_run_end_spec (list : Nat) :
    ∀ fuel e : Nat, e < 16 → 15 ≤ e + fuel →
      e ≤ reglist_run_end list fuel e ∧ reglist_run_end list fuel e < 16 ∧
      (∀ i, e < i → i ≤ reglist_run_end list fuel e → list.testBit i = true) ∧
      (reglist_run_end list fuel e = 15 ∨
        list.testBit (reglist_run_end list fuel e + 1) = false) := by
  intro fuel
  induction fuel with
  | zero =>
    intro e he hf
    simp only [reglist_run_end]
    refine ⟨Nat.le_refl _, he, ?_, Or.inl (by omega)⟩
    intro i h1 h2
    omega
  | succ fuel ih =>
    intro e he hf
    unfold reglist_run_end
    by_cases hc : e + 1 < 16 ∧ list &&& (1 <<< (e + 1)) ≠ 0
    · rw [if_pos hc]
      obtain ⟨h1, h2, h3, h4⟩ := ih (e + 1) hc.1 (by omega)
      refine ⟨by omega, h2, ?_, h4⟩
      intro i hi1 hi2
      by_cases hie : i = e + 1
      · rw [hie]
        exact (reg_bit_iff list (e + 1)).mp hc.2
      · exact h3 i (by omega) hi2
    · rw [if_neg hc]
      refine ⟨Nat.le_refl _, he, ?_, ?_⟩
      · intro i h1 h2
        omega
      · by_cases h16 : e + 1 < 16
        · right
          have : ¬ (list &&& (1 <<< (e + 1)) ≠ 0) := fun hb => hc ⟨h16, hb⟩
          exact (reg_bit_false_iff list (e + 1)).mp this
        · left
          omega

theorem no_run_from_16 (list s e : Nat) (h : 16 ≤ s) : ¬ is_maximal_run list s e := by
  intro hm
  have h1 := hm.1
  have h2 := hm.2.1
  omega

/-- The pairs the outer loop visits from position `r` on are exactly the
maximal runs that start at `r` or later, in ascending order. -/
theorem reglist_runs_spec (list : Nat) :
    ∀ fuel r : Nat, r ≤ 16 → 16 ≤ r + fuel →
      (r = 0 ∨ list.testBit (r - 1) = false ∨ list.testBit r = false ∨ r = 16) →
      (∀ s e, (s, e) ∈ reglist_runs list fuel r ↔ (r ≤ s ∧ is_maximal_run list s e)) ∧
        (reglist_runs list fuel r).Pairwise (fun a b => a.2 < b.1) := by
  intro fuel
  induction fuel with
  | zero =>
    intro r hr hf _
    simp only [reglist_runs, List.not_mem_nil, false_iff, List.Pairwise.nil, and_true]
    intro s e hse
    exact no_run_from_16 list s e (by omega) hse.2
  | succ fuel ih =>
    intro r hr hf hbd
    unfold reglist_runs
    by_cases h16 : r < 16
    · rw [if_pos h16]
      by_cases hb : list &&& (1 <<< r) ≠ 0
      · rw [if_pos hb]
        have hbit : list.testBit r = true := (reg_bit_iff list r).mp hb
        obtain ⟨h1, h2, h3, h4⟩ := reglist_run_end_spec list 16 r h16 (by omega)
        generalize reglist_run_end list 16 r = e' at h1 h2 h3 h4 ⊢
        have hstart : r = 0 ∨ list.testBit (r - 1) = false := by
          rcases hbd with h | h | h | h
          · exact Or.inl h
          · exact Or.inr h
          · rw [hbit] at h
            exact absurd h (by decide)
          · omega
        have hall : ∀ i, r ≤ i → i ≤ e' → list.testBit i = true := by
          intro i hi1 hi2
          by_cases hir : i = r
          · rw [hir]
            exact hbit
          · exact h3 i (by omega) hi2
        have hbd' : e' + 1 = 0 ∨ list.testBit (e' + 1 - 1) = false ∨
            list.testBit (e' + 1) = false ∨ e' + 1 = 16 := by
          rcases h4 with h | h
          · exact Or.inr (Or.inr (Or.inr (by omega)))
          · exact Or.inr (Or.inr (Or.inl h))
        obtain ⟨ihm, ihp⟩ := ih (e' + 1) (by omega) (by omega) hbd'
        constructor
        · intro s e
          rw [List.mem_cons, ihm]
          constructor
          · rintro (heq | ⟨hs, hm⟩)
            · have hs : s = r := congrArg Prod.fst heq
              have he : e = e' := congrArg Prod.snd heq
              subst hs
              subst he
              exact ⟨Nat.le_refl _, h1, h2, fun i _ hi1 hi2 => hall i hi1 hi2, hstart, h4⟩
            · exact ⟨by omega, hm⟩
          · rintro ⟨hs, hm⟩
            obtain ⟨m1, m2, m3, m4, m5⟩ := hm
            by_cases hsr : s = r
            · left
              subst hsr
              have hee : e = e' := by
                by_contra hne
                by_cases hlt : e < e'
                · have hset := hall (e + 1) (by omega) (by omega)
                  rcases m5 with h | h
                  · omega
                  · rw [hset] at h
                    exact absurd h (by decide)
                · have hset := m3 (e' + 1) (by omega) (by omega) (by omega)
                  rcases h4 with h | h
                  · omega
                  · rw [hset] at h
                    exact absurd h (by decide)
              rw [hee]
            · right
              refine ⟨?_, m1, m2, m3, m4, m5⟩
              by_contra hle
              have hset := hall (s - 1) (by omega) (by omega)
              rcases m4 with h | h
              · omega
              · rw [hset] at h
                exact absurd h (by decide)
        · rw [List.pairwise_cons]
          refine ⟨?_, ihp⟩
          intro b hbm
          have := (ihm b.1 b.2).mp hbm
          show e' < b.1
          omega
      · rw [if_neg hb]
        have hbit : list.testBit r = false := (reg_bit_false_iff list r).mp hb
        obtain ⟨ihm, ihp⟩ := ih (r + 1) (by omega) (by omega)
          (Or.inr (Or.inl (by simpa using hbit)))
        refine ⟨?_, ihp⟩
        intro s e
        rw [ihm]
        constructor
        · rintro ⟨hs, hm⟩
          exact ⟨by omega, hm⟩
        · rintro ⟨hs, hm⟩
          refine ⟨?_, hm⟩
          by_contra hle
          have hsr : s = r := by omega
          have hset := hm.2.2.1 s (by omega) (Nat.le_refl _) hm.1
          rw [hsr, hbit] at hset
          exact absurd hset (by decide)
    · rw [if_neg h16]
      simp only [List.not_mem_nil, false_iff, List.Pairwise.nil, and_true]
      intro s e hse
      exact no_run_from_16 list s e (by omega) hse.2

theorem reglist_entry_written_eq (se : Nat × Nat) (h : se.1 ≤ se.2) :
    reglist_entry_written se = reglist_entry se := by
  unfold reglist_entry_written reglist_entry
  by_cases he : se.1 = se.2
  · have : ¬ se.2 > se.1 := by omega
    rw [if_neg this, if_pos he]
  · have : se.2 > se.1 := by omega
    rw [if_pos this, if_neg he]

/-- C18: the register list is rendered as an opening brace, the entries
joined by `, `, and a closing brace, where the entries are exactly the maximal
runs of consecutive set bits among registers 0..15 in ascending order, a run
of one register written as its name and a longer run as `<first>-<last>`; the
empty list gives a pair of braces and 0x0127 gives `r0-r2, r5, r8` in braces. -/
theorem register_list_rendering (p : String) (L : Nat) :
    (∃ runs : List (Nat × Nat),
      append_reglist p L = p ++ "\x7b" ++ ", ".intercalate (runs.map reglist_entry) ++ "\x7d" ∧
      (∀ s e, (s, e) ∈ runs ↔ is_maximal_run L s e) ∧
      runs.Pairwise (fun a b => a.2 < b.1)) ∧
      ((∀ i, i < 16 → L.testBit i = false) → append_reglist p L = p ++ "\x7b\x7d") ∧
      append_reglist "" 0 = "\x7b\x7d" ∧
      append_reglist "" 0x0127 = "\x7br0-r2, r5, r8\x7d" ∧
      (is_maximal_run 0x0127 0 2 ∧ is_maximal_run 0x0127 5 5 ∧ is_maximal_run 0x0127 8 8) := by
  obtain ⟨hm, hp⟩ := reglist_runs_spec L 17 0 (by decide) (by decide) (Or.inl rfl)
  have hm' : ∀ s e, (s, e) ∈ reglist_runs L 17 0 ↔ is_maximal_run L s e := by
    intro s e
    rw [hm]
    simp
  have hmap : (reglist_runs L 17 0).map reglist_entry_written
      = (reglist_runs L 17 0).map reglist_entry := by
    apply List.map_congr_left
    intro se hse
    exact reglist_entry_written_eq se ((hm' se.1 se.2).mp hse).1
  have htext : append_reglist p L =
      p ++ "\x7b" ++ ", ".intercalate ((reglist_runs L 17 0).map reglist_entry) ++ "\x7d" := by
    unfold append_reglist
    rw [reglist_loop_eq, hmap]
    simp only [if_true]
  refine ⟨⟨reglist_runs L 17 0, htext, hm', hp⟩, ?_, by decide, by decide, by decide⟩
  intro hempty
  have hnil : reglist_runs L 17 0 = [] := by
    apply List.eq_nil_iff_forall_not_mem.mpr
    intro se hse
    obtain ⟨m1, m2, m3, _, _⟩ := (hm' se.1 se.2).mp hse
    have hset := m3 se.1 (by omega) (Nat.le_refl _) m1
    rw [hempty se.1 (by omega)] at hset
    exact absurd hset (by decide)
  rw [htext, hnil]
  simp only [List.map_nil, intercalate_nil, String.append_empty, String.append_assoc]
  rfl

/-! ## Block data transfer -/

theorem append_reglist_append (p : String) (L : Nat) :
    append_reglist p L = p ++ append_reglist "" L := by
  unfold append_reglist
  rw [reglist_loop_eq, reglist_loop_eq]
  have he : ∀ x : String, "" ++ x = x := fun x => String.ext (by simp [String.data_append])
  simp only [if_true, String.append_assoc, he]

/-- A word with bits 27:25 = 100 reaches the block-data-transfer decoder. -/
theorem disass_of_block_data_transfer (hexpfx : String) (vfp : Option vfp_decoder)
    (w a : Nat) (cb : Option dis_cb_fn) (hw : w < 2 ^ 32) (h27 : BITS w 27 25 = 4) :
    disass hexpfx vfp w a cb = disass_block_data_transfer w := by
  have hb : w &&& 0x0E000000 = 0x08000000 := (shift_and_eq_iff w 25 7 4).mp h27
  have h1 : ¬ (w &&& 0xfe000000 = 0xfa000000) :=
    fun h => absurd (mask_conflict hb h) (by decide)
  have h2 : ¬ (w &&& 0x0ffffff0 = 0x012fff10 ∨ w &&& 0x0ffffff0 = 0x012fff30) := by
    rintro (h | h) <;> exact absurd (mask_conflict hb h) (by decide)
  have h3 : ¬ (w &&& 0x0fb00ff0 = 0x01000090) :=
    fun h => absurd (mask_conflict hb h) (by decide)
  have h4 : ¬ (w &&& 0x0fff0ff0 = 0x016f0f10) :=
    fun h => absurd (mask_conflict hb h) (by decide)
  have h5 : ¬ (w &&& 0x0fbf0fff = 0x010f0000) :=
    fun h => absurd (mask_conflict hb h) (by decide)
  have h6 : ¬ (w &&& 0x0db0f000 = 0x0120f000) :=
    fun h => absurd (mask_conflict hb h) (by decide)
  have h7 : ¬ (w &&& 0x0FC000F0 = 0x00000090 ∨ w &&& 0x0FC000F0 = 0x00200090) := by
    rintro (h | h) <;> exact absurd (mask_conflict hb h) (by decide)
  have h8 : ¬ (w &&& 0x0F8000F0 = 0x00800090) :=
    fun h => absurd (mask_conflict hb h) (by decide)
  have h9 : ¬ (w &&& 0x0E0000F0 = 0x000000B0) :=
    fun h => absurd (mask_conflict hb h) (by decide)
  have h10 : ¬ (w &&& 0x0E000000 = 0x0A000000) :=
    fun h => absurd (mask_conflict hb h) (by decide)
  have h11 : ¬ (w &&& 0x0F000000 = 0x0F000000) :=
    fun h => absurd (mask_conflict hb h) (by decide)
  have h12 : ¬ (w &&& 0x0C000000 = 0x04000000) :=
    fun h => absurd (mask_conflict hb h) (by decide)
  simp only [disass, Nat.mod_eq_of_lt hw]
  rw [if_neg h1, if_neg h2, if_neg h3, if_neg h4, if_neg h5, if_neg h6, if_neg h7, if_neg h8,
    if_neg h9, if_neg h10, if_neg h11, if_neg h12, if_pos hb]

theorem low_half_eq_bits (w : Nat) : w &&& 0xFFFF = BITS w 15 0 := by
  unfold BITS
  rw [Nat.shiftRight_zero]
  rfl

theorem block_result (w : Nat) :
    disass_block_data_transfer w =
      ⟨emit_mnemonic ""
          ((if BITS w 20 20 = 1 then "LDM" else "STM") ++
            (if BITS w 23 23 = 1 then (if BITS w 24 24 = 1 then "IB" else "IA")
             else (if BITS w 24 24 = 1 then "DB" else "DA")))
          (BITS w 31 28)
        ++ fallback_regname (BITS w 19 16) ++ (if BITS w 21 21 = 1 then "!" else "") ++ ", "
        ++ append_reglist "" (BITS w 15 0) ++ (if BITS w 22 22 = 1 then "^" else ""), []⟩ := by
  simp only [disass_block_data_transfer, ne_eq, bit_not_zero, append_str, append_reg,
    low_half_eq_bits]
  rw [append_reglist_append]
  split_ifs <;> simp only [String.append_assoc, String.append_empty]

/-- C19: a word with bits 27:25 = 100 is rendered with the mnemonic LDM
(L = 1) or STM followed by IA, IB, DA or DB from the U and P bits and the
condition suffix, then the name of Rn, `!` exactly when W = 1, `, `, the
register list of bits 15:0 and `^` exactly when bit 22 is set. -/
theorem block_transfer_rendering (hexpfx : String) (vfp : Option vfp_decoder)
    (w a : Nat) (cb : Option dis_cb_fn) (hw : w < 2 ^ 32) (h27 : BITS w 27 25 = 4) :
    (disass hexpfx vfp w a cb).text =
        emit_mnemonic ""
          ((if BITS w 20 20 = 1 then "LDM" else "STM") ++
            (if BITS w 23 23 = 1 then (if BITS w 24 24 = 1 then "IB" else "IA")
             else (if BITS w 24 24 = 1 then "DB" else "DA")))
          (BITS w 31 28)
        ++ fallback_regname (BITS w 19 16) ++ (if BITS w 21 21 = 1 then "!" else "") ++ ", "
        ++ append_reglist "" (BITS w 15 0) ++ (if BITS w 22 22 = 1 then "^" else "") ∧
      first_token (disass hexpfx vfp w a cb).text =
        (if BITS w 20 20 = 1 then "LDM" else "STM") ++
          (if BITS w 23 23 = 1 then (if BITS w 24 24 = 1 then "IB" else "IA")
           else (if BITS w 24 24 = 1 then "DB" else "DA")) ++
          (if BITS w 31 28 = 14 then ""
           else ["EQ", "NE", "CS", "CC", "MI", "PL", "VS", "VC",
                 "HI", "LS", "GE", "LT", "GT", "LE", "AL", "NV"].getD (BITS w 31 28) "") ∧
      (disass hexpfx vfp w a cb).calls = [] := by
  rw [disass_of_block_data_transfer hexpfx vfp w a cb hw h27, block_result]
  refine ⟨rfl, ?_, rfl⟩
  simp only [String.append_assoc]
  have hns : ∀ c ∈ ((if BITS w 20 20 = 1 then "LDM" else "STM") ++
      (if BITS w 23 23 = 1 then (if BITS w 24 24 = 1 then "IB" else "IA")
       else (if BITS w 24 24 = 1 then "DB" else "DA")) : String).data, c ≠ ' ' := by
    split_ifs <;> decide
  have := first_token_emit_mnemonic _
    (fallback_regname (BITS w 19 16) ++ ((if BITS w 21 21 = 1 then "!" else "") ++ (", "
        ++ (append_reglist "" (BITS w 15 0) ++ (if BITS w 22 22 = 1 then "^" else "")))))
    (BITS w 31 28) hns (cond_codes_no_space _)
  simp only [String.append_assoc] at this
  exact this

theorem block_transfer_rendering_witness :
    (disass "0x" none 0xE8BD8127 0 none).text =
        emit_mnemonic ""
          ((if BITS 0xE8BD8127 20 20 = 1 then "LDM" else "STM") ++
            (if BITS 0xE8BD8127 23 23 = 1 then (if BITS 0xE8BD8127 24 24 = 1 then "IB" else "IA")
             else (if BITS 0xE8BD8127 24 24 = 1 then "DB" else "DA")))
          (BITS 0xE8BD8127 31 28)
        ++ fallback_regname (BITS 0xE8BD8127 19 16)
        ++ (if BITS 0xE8BD8127 21 21 = 1 then "!" else "") ++ ", "
        ++ append_reglist "" (BITS 0xE8BD8127 15 0)
        ++ (if BITS 0xE8BD8127 22 22 = 1 then "^" else "") ∧
      first_token (disass "0x" none 0xE8BD8127 0 none).text =
        (if BITS 0xE8BD8127 20 20 = 1 then "LDM" else "STM") ++
          (if BITS 0xE8BD8127 23 23 = 1 then (if BITS 0xE8BD8127 24 24 = 1 then "IB" else "IA")
           else (if BITS 0xE8BD8127 24 24 = 1 then "DB" else "DA")) ++
          (if BITS 0xE8BD8127 31 28 = 14 then ""
           else ["EQ", "NE", "CS", "CC", "MI", "PL", "VS", "VC",
                 "HI", "LS", "GE", "LT", "GT", "LE", "AL", "NV"].getD
                  (BITS 0xE8BD8127 31 28) "") ∧
      (disass "0x" none 0xE8BD8127 0 none).calls = [] :=
  block_transfer_rendering "0x" none 0xE8BD8127 0 none (by decide) (by decide)

/-! ## Halfword and signed transfer -/

/-- The dispatcher's halfword test fixes bits 7:4 to 1011, so it only lets
sub-type 1 through. -/
theorem halfword_test_subtype (w : Nat) (h : w &&& 0x0E0000F0 = 0x000000B0) :
    BITS w 6 5 = 1 := by
  have h' : w &&& 0x60 = 0x20 := and_submask h 0x60
  exact (shift_and_eq_iff w 5 3 1).mpr h'

/-- C20 against the code: 0xE1D010D0 and 0xE1D010F0 lie in the halfword/signed
transfer space (bits 27:25 = 000, bits 7 and 4 set, L = 1, sub-types 2 and 3)
and match no earlier dispatcher test, yet the dispatcher's halfword test
requires sub-type 1, so they are decoded as data processing (`BICS`), while the
halfword decoder itself would give LDRSB and LDRSH. -/
theorem halfword_signed_dispatch_evaluated :
    (∀ w : Nat, w &&& 0x0E0000F0 = 0x000000B0 → BITS w 6 5 = 1) ∧
      (BITS 0xE1D010D0 27 25 = 0 ∧ BITS 0xE1D010D0 7 7 = 1 ∧ BITS 0xE1D010D0 4 4 = 1 ∧
        BITS 0xE1D010D0 20 20 = 1 ∧ BITS 0xE1D010D0 6 5 = 2) ∧
      (BITS 0xE1D010F0 27 25 = 0 ∧ BITS 0xE1D010F0 7 7 = 1 ∧ BITS 0xE1D010F0 4 4 = 1 ∧
        BITS 0xE1D010F0 20 20 = 1 ∧ BITS 0xE1D010F0 6 5 = 3) ∧
      routed_to_data_processing 0xE1D010D0 ∧ routed_to_data_processing 0xE1D010F0 ∧
      (disass "0x" none 0xE1D010D0 0 none).text = "BICS            r1, r0, r0, ASR r0" ∧
      (disass "0x" none 0xE1D010F0 0 none).text = "BICS            r1, r0, r0, ROR r0" ∧
      (disass_halfword_signed_transfer "0x" 0xE1D010D0 "").text
        = "LDRSB           r1, [r0]" ∧
      (disass_halfword_signed_transfer "0x" 0xE1D010F0 "").text
        = "LDRSH           r1, [r0]" :=
  ⟨halfword_test_subtype, by decide, by decide, by decide, by decide, by decide, by decide,
    by decide, by decide⟩

/-! ## Fixed-width hexadecimal fields -/

theorem digitsFuel_length_le (b : Nat) :
    ∀ fuel n k : Nat, 1 ≤ k → n < b ^ k → (digitsFuel b fuel n).length ≤ k := by
  intro fuel
  induction fuel with
  | zero =>
    intro n k hk _
    simp [digitsFuel]
  | succ fuel ih =>
    intro n k hk hn
    unfold digitsFuel
    by_cases hlt : n < b
    · rw [if_pos hlt]
      simpa using hk
    · rw [if_neg hlt, List.length_append, List.length_singleton]
      have hk2 : 2 ≤ k := by
        by_contra h
        have hk1 : k = 1 := by omega
        rw [hk1, Nat.pow_one] at hn
        exact hlt hn
      have hdiv : n / b < b ^ (k - 1) := by
        apply Nat.div_lt_of_lt_mul
        have : b ^ k = b * b ^ (k - 1) := by
          rw [← Nat.pow_succ', Nat.succ_eq_add_one, Nat.sub_add_cancel hk]
        omega
      have := ih (n / b) (k - 1) (by omega) hdiv
      omega

theorem digitsFuel_length_pos (b fuel n : Nat) : 0 < (digitsFuel b (fuel + 1) n).length := by
  unfold digitsFuel
  split_ifs <;> simp

theorem fmtHexPad_length (k n : Nat) (hk : 1 ≤ k) (hn : n < 16 ^ k) :
    (fmtHexPad k n).length = k := by
  have hle : (fmtHex n).length ≤ k := digitsFuel_length_le 16 (n + 1) n k hk hn
  unfold fmtHexPad
  rw [String.length_append]
  have : (String.mk (List.replicate (k - (fmtHex n).length) '0')).length
      = k - (fmtHex n).length :=
    List.length_replicate _ _
  omega

theorem fmtHexPad_length_ge (k n : Nat) : k ≤ (fmtHexPad k n).length := by
  unfold fmtHexPad
  rw [String.length_append]
  have : (String.mk (List.replicate (k - (fmtHex n).length) '0')).length
      = k - (fmtHex n).length :=
    List.length_replicate _ _
  omega

theorem digitChar_hex (d : Nat) (h : d < 16) : digitChar d ∈ "0123456789ABCDEF".data := by
  interval_cases d <;> decide

theorem fmtHex_chars (n : Nat) : ∀ c ∈ (fmtHex n).data, c ∈ "0123456789ABCDEF".data := by
  intro c hc
  obtain ⟨d, hd, hcd⟩ := digitsFuel_digits 16 (by decide) (n + 1) n c hc
  rw [hcd]
  exact digitChar_hex d hd

theorem fmtHexPad_chars (k n : Nat) :
    ∀ c ∈ (fmtHexPad k n).data, c ∈ "0123456789ABCDEF".data := by
  intro c hc
  unfold fmtHexPad at hc
  rw [String.data_append, List.mem_append] at hc
  rcases hc with hc | hc
  · have : c = '0' := (List.mem_replicate.mp hc).2
    rw [this]
    decide
  · exact fmtHex_chars n c hc

/-! ## Software interrupt and BLX (immediate) -/

/-- A word with bits 27:24 = 1111 reaches the SWI decoder. -/
theorem disass_of_swi (hexpfx : String) (vfp : Option vfp_decoder)
    (w a : Nat) (cb : Option dis_cb_fn) (hw : w < 2 ^ 32) (h27 : BITS w 27 24 = 15) :
    disass hexpfx vfp w a cb = disass_swi hexpfx w := by
  have hb : w &&& 0x0F000000 = 0x0F000000 := (shift_and_eq_iff w 24 15 15).mp h27
  have h1 : ¬ (w &&& 0xfe000000 = 0xfa000000) :=
    fun h => absurd (mask_conflict hb h) (by decide)
  have h2 : ¬ (w &&& 0x0ffffff0 = 0x012fff10 ∨ w &&& 0x0ffffff0 = 0x012fff30) := by
    rintro (h | h) <;> exact absurd (mask_conflict hb h) (by decide)
  have h3 : ¬ (w &&& 0x0fb00ff0 = 0x01000090) :=
    fun h => absurd (mask_conflict hb h) (by decide)
  have h4 : ¬ (w &&& 0x0fff0ff0 = 0x016f0f10) :=
    fun h => absurd (mask_conflict hb h) (by decide)
  have h5 : ¬ (w &&& 0x0fbf0fff = 0x010f0000) :=
    fun h => absurd (mask_conflict hb h) (by decide)
  have h6 : ¬ (w &&& 0x0db0f000 = 0x0120f000) :=
    fun h => absurd (mask_conflict hb h) (by decide)
  have h7 : ¬ (w &&& 0x0FC000F0 = 0x00000090 ∨ w &&& 0x0FC000F0 = 0x00200090) := by
    rintro (h | h) <;> exact absurd (mask_conflict hb h) (by decide)
  have h8 : ¬ (w &&& 0x0F8000F0 = 0x00800090) :=
    fun h => absurd (mask_conflict hb h) (by decide)
  have h9 : ¬ (w &&& 0x0E0000F0 = 0x000000B0) :=
    fun h => absurd (mask_conflict hb h) (by decide)
  have h10 : ¬ (w &&& 0x0E000000 = 0x0A000000) :=
    fun h => absurd (mask_conflict hb h) (by decide)
  simp only [disass, Nat.mod_eq_of_lt hw]
  rw [if_neg h1, if_neg h2, if_neg h3, if_neg h4, if_neg h5, if_neg h6, if_neg h7, if_neg h8,
    if_neg h9, if_neg h10, if_pos hb]

theorem low24_lt (w : Nat) : w &&& 0x00FFFFFF < 16 ^ 6 := by
  have h : w &&& 0x00FFFFFF = w % 2 ^ 24 := Nat.and_pow_two_sub_one_eq_mod w 24
  rw [h]
  omega

/-- C24: a word with bits 27:24 = 1111 is rendered as the mnemonic SWI with
its condition suffix, padded to the mnemonic field, followed by the hex prefix
and the 24-bit comment field as exactly six uppercase hexadecimal digits. -/
theorem swi_rendering (hexpfx : String) (vfp : Option vfp_decoder)
    (w a : Nat) (cb : Option dis_cb_fn) (hw : w < 2 ^ 32) (h27 : BITS w 27 24 = 15) :
    (disass hexpfx vfp w a cb).text =
        emit_mnemonic "" "SWI" (BITS w 31 28) ++ hexpfx ++ fmtHexPad 6 (w &&& 0xFFFFFF) ∧
      (fmtHexPad 6 (w &&& 0xFFFFFF)).length = 6 ∧
      (∀ c ∈ (fmtHexPad 6 (w &&& 0xFFFFFF)).data, c ∈ "0123456789ABCDEF".data) ∧
      numeral_value 16 (fmtHexPad 6 (w &&& 0xFFFFFF)).data = w &&& 0xFFFFFF ∧
      first_token (disass hexpfx vfp w a cb).text =
        "SWI" ++ (if BITS w 31 28 = 14 then ""
           else ["EQ", "NE", "CS", "CC", "MI", "PL", "VS", "VC",
                 "HI", "LS", "GE", "LT", "GT", "LE", "AL", "NV"].getD (BITS w 31 28) "") ∧
      (disass hexpfx vfp w a cb).calls = [] := by
  rw [disass_of_swi hexpfx vfp w a cb hw h27]
  refine ⟨rfl, fmtHexPad_length 6 _ (by decide) (low24_lt w), fmtHexPad_chars 6 _,
    numeral_value_fmtHexPad 6 _, ?_, rfl⟩
  have := first_token_emit_mnemonic "SWI" (hexpfx ++ fmtHexPad 6 (w &&& 0xFFFFFF))
    (BITS w 31 28) (by decide) (cond_codes_no_space _)
  simp only [disass_swi, String.append_assoc]
  exact this

theorem swi_rendering_witness :
    (disass "0x" none 0xEF000011 0 none).text =
        emit_mnemonic "" "SWI" (BITS 0xEF000011 31 28) ++ "0x"
          ++ fmtHexPad 6 (0xEF000011 &&& 0xFFFFFF) ∧
      (fmtHexPad 6 (0xEF000011 &&& 0xFFFFFF)).length = 6 ∧
      (∀ c ∈ (fmtHexPad 6 (0xEF000011 &&& 0xFFFFFF)).data, c ∈ "0123456789ABCDEF".data) ∧
      numeral_value 16 (fmtHexPad 6 (0xEF000011 &&& 0xFFFFFF)).data
        = 0xEF000011 &&& 0xFFFFFF ∧
      first_token (disass "0x" none 0xEF000011 0 none).text =
        "SWI" ++ (if BITS 0xEF000011 31 28 = 14 then ""
           else ["EQ", "NE", "CS", "CC", "MI", "PL", "VS", "VC",
                 "HI", "LS", "GE", "LT", "GT", "LE", "AL", "NV"].getD
                  (BITS 0xEF000011 31 28) "") ∧
      (disass "0x" none 0xEF000011 0 none).calls = [] :=
  swi_rendering "0x" none 0xEF000011 0 none (by decide) (by decide)

/-- C26: a BLX (immediate) word, `(w & 0xFE000000) = 0xFA000000`, is left as
the default dump for every address and callback: `DCD`, six spaces, the hex
prefix and the word as exactly eight uppercase hexadecimal digits; the
callback is not invoked and the first token is `DCD`, not a branch mnemonic. -/
theorem blx_immediate_default_dump (hexpfx : String) (vfp : Option vfp_decoder)
    (w a : Nat) (cb : Option dis_cb_fn) (hw : w < 2 ^ 32)
    (h : w &&& 0xFE000000 = 0xFA000000) :
    disass hexpfx vfp w a cb = ⟨"DCD      " ++ hexpfx ++ fmtHexPad 8 w, []⟩ ∧
      (fmtHexPad 8 w).length = 8 ∧
      (∀ c ∈ (fmtHexPad 8 w).data, c ∈ "0123456789ABCDEF".data) ∧
      numeral_value 16 (fmtHexPad 8 w).data = w ∧
      first_token (disass hexpfx vfp w a cb).text = "DCD" := by
  have hd : disass hexpfx vfp w a cb = ⟨"DCD      " ++ hexpfx ++ fmtHexPad 8 w, []⟩ := by
    simp only [disass, Nat.mod_eq_of_lt hw]
    rw [if_pos h]
    rfl
  refine ⟨hd, fmtHexPad_length 8 w (by decide) (by omega), fmtHexPad_chars 8 w,
    numeral_value_fmtHexPad 8 w, ?_⟩
  rw [hd]
  apply String.ext
  simp only [first_token, String.data_append]
  exact takeWhile_ne_space ['D', 'C', 'D'] _ (by decide)

theorem blx_immediate_default_dump_witness :
    disass "0x" none 0xFA000011 0x100 (some (fun _ => "x"))
        = ⟨"DCD      " ++ "0x" ++ fmtHexPad 8 0xFA000011, []⟩ ∧
      (fmtHexPad 8 0xFA000011).length = 8 ∧
      (∀ c ∈ (fmtHexPad 8 0xFA000011).data, c ∈ "0123456789ABCDEF".data) ∧
      numeral_value 16 (fmtHexPad 8 0xFA000011).data = 0xFA000011 ∧
      first_token (disass "0x" none 0xFA000011 0x100 (some (fun _ => "x"))).text = "DCD" :=
  blx_immediate_default_dump "0x" none 0xFA000011 0x100 (some (fun _ => "x")) (by decide)
    (by decide)

/-! ## The mnemonic field -/

theorem spaces_append (k : Nat) :
    " " ++ String.mk (List.replicate k ' ') = String.mk (List.replicate (k + 1) ' ') := by
  apply String.ext
  rw [String.data_append, List.replicate_succ]
  rfl

/-- The mnemonic emitter writes the text and then `max 1 (16 - length)`
spaces. -/
theorem emit_mnemonic_with_suffix_eq (p base : String) (suffix : Option String) (cond : Nat) :
    emit_mnemonic_with_suffix p base suffix cond =
      p ++ (base ++ (if cond ≠ 14 then cond_codes.getD cond "" else "") ++ suffix.getD "")
        ++ String.mk (List.replicate
            (max 1 (16 - (base ++ (if cond ≠ 14 then cond_codes.getD cond "" else "")
              ++ suffix.getD "").length)) ' ') := by
  unfold emit_mnemonic_with_suffix mnemonic_field_width
  generalize base ++ (if cond ≠ 14 then cond_codes.getD cond "" else "") ++ suffix.getD ""
    = text
  have hl : (text ++ " ").length = text.length + 1 := by
    rw [String.length_append]
    rfl
  have hk : max 1 (16 - text.length) = (16 - (text.length + 1)) + 1 := by omega
  simp only [hl, hk, ← spaces_append, String.append_assoc]

theorem spaces_length (k : Nat) : (String.mk (List.replicate k ' ')).length = k :=
  List.length_replicate _ _

/-- C25, as the code has it: for a base mnemonic, a condition 0..15 and an
optional suffix whose combined text has at most 16 characters, the emitter
writes that text followed by spaces up to a total width of 16 characters when
the text has at most 15 characters (the single separating space is part of
the 16), and followed by exactly one space when the text has 16 characters;
the cursor is then 16, respectively 17, characters after the start. -/
theorem mnemonic_field_width_rendering (p base : String) (suffix : Option String) (cond : Nat)
    (hc : cond < 16)
    (hlen : (base ++ (if cond = 14 then "" else cond_codes.getD cond "")
      ++ suffix.getD "").length ≤ 16) :
    emit_mnemonic_with_suffix p base suffix cond =
        p ++ (base ++ (if cond = 14 then "" else cond_codes.getD cond "") ++ suffix.getD "")
          ++ String.mk (List.replicate
              (if (base ++ (if cond = 14 then "" else cond_codes.getD cond "")
                    ++ suffix.getD "").length ≤ 15
               then 16 - (base ++ (if cond = 14 then "" else cond_codes.getD cond "")
                    ++ suffix.getD "").length
               else 1) ' ') ∧
      (emit_mnemonic_with_suffix p base suffix cond).length =
        p.length + (if (base ++ (if cond = 14 then "" else cond_codes.getD cond "")
                    ++ suffix.getD "").length ≤ 15 then 16 else 17) ∧
      (cond_codes.getD cond "").length = 2 := by
  have hcc : (if cond ≠ 14 then cond_codes.getD cond "" else "")
      = (if cond = 14 then "" else cond_codes.getD cond "") := by
    split_ifs <;> simp_all
  have h2 : (cond_codes.getD cond "").length = 2 := by
    interval_cases cond <;> rfl
  rw [emit_mnemonic_with_suffix_eq, hcc]
  generalize base ++ (if cond = 14 then "" else cond_codes.getD cond "") ++ suffix.getD ""
    = text at hlen ⊢
  have hk : max 1 (16 - text.length) = if text.length ≤ 15 then 16 - text.length else 1 := by
    split_ifs <;> omega
  rw [hk]
  refine ⟨rfl, ?_, h2⟩
  rw [String.length_append, String.length_append, spaces_length]
  split_ifs <;> omega

theorem mnemonic_field_width_rendering_witness :
    emit_mnemonic_with_suffix "" "MOV" none 14 =
        "" ++ ("MOV" ++ (if 14 = 14 then "" else cond_codes.getD 14 "") ++ (none : Option String).getD "")
          ++ String.mk (List.replicate
              (if ("MOV" ++ (if 14 = 14 then "" else cond_codes.getD 14 "")
                    ++ (none : Option String).getD "").length ≤ 15
               then 16 - ("MOV" ++ (if 14 = 14 then "" else cond_codes.getD 14 "")
                    ++ (none : Option String).getD "").length
               else 1) ' ') ∧
      (emit_mnemonic_with_suffix "" "MOV" none 14).length =
        ("" : String).length + (if ("MOV" ++ (if 14 = 14 then "" else cond_codes.getD 14 "")
                    ++ (none : Option String).getD "").length ≤ 15 then 16 else 17) ∧
      (cond_codes.getD 14 "").length = 2 :=
  mnemonic_field_width_rendering "" "MOV" none 14 (by decide) (by decide)

/-- C25 fails as stated: for `MOV` with condition 14 and no suffix the
combined text has three characters and the emitter writes `MOV` and thirteen
spaces, so the cursor is 16 characters after the start of the field, not 17. -/
theorem mnemonic_field_width_counterexample :
    ("MOV" ++ (if 14 = 14 then "" else cond_codes.getD 14 "")
        ++ (none : Option String).getD "").length ≤ 16 ∧
      emit_mnemonic_with_suffix "" "MOV" none 14
        = "MOV" ++ String.mk (List.replicate 13 ' ') ∧
      (emit_mnemonic_with_suffix "" "MOV" none 14).length = 16 ∧
      ¬ ((emit_mnemonic_with_suffix "" "MOV" none 14).length = 17) := by
  decide

/-! ## Halfword transfer offsets -/

/-- A word that passes the dispatcher's halfword test and not its MSR test
reaches the halfword decoder. -/
theorem disass_of_halfword (hexpfx : String) (vfp : Option vfp_decoder)
    (w a : Nat) (cb : Option dis_cb_fn) (hw : w < 2 ^ 32)
    (hb : w &&& 0x0E0000F0 = 0x000000B0) (hmsr : ¬ (w &&& 0x0db0f000 = 0x0120f000)) :
    disass hexpfx vfp w a cb =
      disass_halfword_signed_transfer hexpfx w (default_dump hexpfx w) := by
  have h1 : ¬ (w &&& 0xfe000000 = 0xfa000000) :=
    fun h => absurd (mask_conflict hb h) (by decide)
  have h2 : ¬ (w &&& 0x0ffffff0 = 0x012fff10 ∨ w &&& 0x0ffffff0 = 0x012fff30) := by
    rintro (h | h) <;> exact absurd (mask_conflict hb h) (by decide)
  have h3 : ¬ (w &&& 0x0fb00ff0 = 0x01000090) :=
    fun h => absurd (mask_conflict hb h) (by decide)
  have h4 : ¬ (w &&& 0x0fff0ff0 = 0x016f0f10) :=
    fun h => absurd (mask_conflict hb h) (by decide)
  have h5 : ¬ (w &&& 0x0fbf0fff = 0x010f0000) :=
    fun h => absurd (mask_conflict hb h) (by decide)
  have h7 : ¬ (w &&& 0x0FC000F0 = 0x00000090 ∨ w &&& 0x0FC000F0 = 0x00200090) := by
    rintro (h | h) <;> exact absurd (mask_conflict hb h) (by decide)
  have h8 : ¬ (w &&& 0x0F8000F0 = 0x00800090) :=
    fun h => absurd (mask_conflict hb h) (by decide)
  simp only [disass, Nat.mod_eq_of_lt hw]
  rw [if_neg h1, if_neg h2, if_neg h3, if_neg h4, if_neg h5, if_neg hmsr, if_neg h7, if_neg h8,
    if_pos hb]

theorem string_empty_append (x : String) : "" ++ x = x :=
  String.ext (by simp [String.data_append])

theorem halfword_offset_value (w : Nat) :
    (BITS w 11 8 <<< 4) ||| BITS w 3 0 = 16 * BITS w 11 8 + BITS w 3 0 := by
  have hlow : BITS w 3 0 < 2 ^ 4 := BITS_lt w 3 0
  rw [Nat.shiftLeft_eq, Nat.mul_comm, ← Nat.mul_add_lt_is_or hlow]

theorem halfword_text_immediate (hexpfx : String) (w : Nat) (out : String)
    (hsh : BITS w 6 5 = 1) (h22 : BITS w 22 22 = 1)
    (hplain : ¬ (16 * BITS w 11 8 + BITS w 3 0 = 0 ∧ BITS w 24 24 = 1 ∧ BITS w 21 21 = 0)) :
    disass_halfword_signed_transfer hexpfx w out =
      ⟨halfword_head w ++
        (if BITS w 24 24 = 1 then
          "[" ++ fallback_regname (BITS w 19 16) ++ ", " ++ halfword_offset_text hexpfx w ++ "]"
            ++ (if BITS w 21 21 = 1 then "!" else "")
         else
          "[" ++ fallback_regname (BITS w 19 16) ++ "], " ++ halfword_offset_text hexpfx w),
        []⟩ := by
  have hl := bit_ne_zero_iff w 20
  by_cases hL : BITS w 20 20 = 1
  · have hL0 : ¬ BITS w 20 20 = 0 := by omega
    simp only [disass_halfword_signed_transfer, hsh, h22, hL, hL0, halfword_offset_value,
      hplain, ne_eq, one_ne_zero, not_false_eq_true, and_self, false_and, if_true, if_false,
      halfword_head, halfword_offset_text, append_str, append_reg, append_immediate,
      bit_not_zero]
    split_ifs <;> simp only [String.append_assoc, String.append_empty, string_empty_append]
  · have hL0 : BITS w 20 20 = 0 := by omega
    simp only [disass_halfword_signed_transfer, hsh, h22, hL0, halfword_offset_value,
      hplain, ne_eq, one_ne_zero, zero_ne_one, not_false_eq_true, not_true_eq_false, and_self,
      and_true, false_and, if_true, if_false,
      halfword_head, halfword_offset_text, append_str, append_reg, append_immediate,
      bit_not_zero]
    split_ifs <;> simp only [String.append_assoc, String.append_empty, string_empty_append]

/-- C21, as the code has it: for a halfword-transfer word (STRH/LDRH) with an
immediate offset that is not in the plain `[Rn]` form, the 8-bit offset (bits
11:8 and 3:0) is written through the hexadecimal immediate form: `-` exactly
when U = 0, then `#`, the hex prefix and the offset in uppercase hexadecimal, in
the forms `[Rn, <offset>]` (with `!` exactly when W = 1) and `[Rn], <offset>`. -/
theorem halfword_immediate_offset (hexpfx : String) (vfp : Option vfp_decoder)
    (w a : Nat) (cb : Option dis_cb_fn) (hw : w < 2 ^ 32)
    (hb : w &&& 0x0E0000F0 = 0x000000B0) (hmsr : ¬ (w &&& 0x0db0f000 = 0x0120f000))
    (h22 : BITS w 22 22 = 1)
    (hplain : ¬ (16 * BITS w 11 8 + BITS w 3 0 = 0 ∧ BITS w 24 24 = 1 ∧ BITS w 21 21 = 0)) :
    (disass hexpfx vfp w a cb).text =
        halfword_head w ++
          (if BITS w 24 24 = 1 then
            "[" ++ fallback_regname (BITS w 19 16) ++ ", "
              ++ ((if BITS w 23 23 = 0 then "-" else "") ++ "#" ++ hexpfx
                    ++ fmtHex (16 * BITS w 11 8 + BITS w 3 0)) ++ "]"
              ++ (if BITS w 21 21 = 1 then "!" else "")
           else
            "[" ++ fallback_regname (BITS w 19 16) ++ "], "
              ++ ((if BITS w 23 23 = 0 then "-" else "") ++ "#" ++ hexpfx
                    ++ fmtHex (16 * BITS w 11 8 + BITS w 3 0))) ∧
      numeral_value 16 (fmtHex (16 * BITS w 11 8 + BITS w 3 0)).data
        = 16 * BITS w 11 8 + BITS w 3 0 ∧
      16 * BITS w 11 8 + BITS w 3 0 < 256 := by
  have h8 : BITS w 11 8 < 16 := BITS_lt w 11 8
  have h3 : BITS w 3 0 < 16 := BITS_lt w 3 0
  rw [disass_of_halfword hexpfx vfp w a cb hw hb hmsr,
    halfword_text_immediate hexpfx w _ (halfword_test_subtype w hb) h22 hplain]
  exact ⟨rfl, numeral_value_fmtHex _, by omega⟩

theorem halfword_immediate_offset_witness :
    (disass "0x" none 0xE15100B4 0 none).text =
        halfword_head 0xE15100B4 ++
          (if BITS 0xE15100B4 24 24 = 1 then
            "[" ++ fallback_regname (BITS 0xE15100B4 19 16) ++ ", "
              ++ ((if BITS 0xE15100B4 23 23 = 0 then "-" else "") ++ "#" ++ "0x"
                    ++ fmtHex (16 * BITS 0xE15100B4 11 8 + BITS 0xE15100B4 3 0)) ++ "]"
              ++ (if BITS 0xE15100B4 21 21 = 1 then "!" else "")
           else
            "[" ++ fallback_regname (BITS 0xE15100B4 19 16) ++ "], "
              ++ ((if BITS 0xE15100B4 23 23 = 0 then "-" else "") ++ "#" ++ "0x"
                    ++ fmtHex (16 * BITS 0xE15100B4 11 8 + BITS 0xE15100B4 3 0))) ∧
      numeral_value 16 (fmtHex (16 * BITS 0xE15100B4 11 8 + BITS 0xE15100B4 3 0)).data
        = 16 * BITS 0xE15100B4 11 8 + BITS 0xE15100B4 3 0 ∧
      16 * BITS 0xE15100B4 11 8 + BITS 0xE15100B4 3 0 < 256 :=
  halfword_immediate_offset "0x" none 0xE15100B4 0 none (by decide) (by decide) (by decide)
    (by decide) (by decide)

/-- C21 fails as stated: 0xE15100B4 (`LDRH r0, [r1, #-4]`) is rendered with the
operand `r0, [r1, -#0x4]`, not `r0, [r1, #-4]`. -/
theorem halfword_immediate_offset_counterexample :
    (0xE15100B4 &&& 0x0E0000F0 = 0x000000B0 ∧ BITS 0xE15100B4 22 22 = 1 ∧
        BITS 0xE15100B4 23 23 = 0) ∧
      (disass "0x" none 0xE15100B4 0 none).text = "LDRH            r0, [r1, -#0x4]" ∧
      ¬ ((disass "0x" none 0xE15100B4 0 none).text
          = emit_mnemonic "" "LDRH" 14 ++ "r0, [r1, #-4]") := by
  decide

/-- C22 against the code: 0xE1C010D0 lies in the halfword/signed-transfer
space with the undefined combination L = 0, sub-type 2, and matches no earlier
dispatcher test, yet the dispatcher's halfword test requires sub-type 1, so
the word is decoded as data processing (`BIC`) instead of being left as the
default dump; the halfword decoder itself leaves the buffer untouched. -/
theorem halfword_undefined_dispatch_evaluated :
    (BITS 0xE1C010D0 27 25 = 0 ∧ BITS 0xE1C010D0 7 7 = 1 ∧ BITS 0xE1C010D0 4 4 = 1 ∧
        BITS 0xE1C010D0 20 20 = 0 ∧ BITS 0xE1C010D0 6 5 = 2) ∧
      routed_to_data_processing 0xE1C010D0 ∧
      (disass "0x" none 0xE1C010D0 0 none).text = "BIC             r1, r0, r0, ASR r0" ∧
      default_dump "0x" 0xE1C010D0 = "DCD      0xE1C010D0" ∧
      ¬ ((disass "0x" none 0xE1C010D0 0 none).text = default_dump "0x" 0xE1C010D0) ∧
      (disass_halfword_signed_transfer "0x" 0xE1C010D0 (default_dump "0x" 0xE1C010D0)).text
        = default_dump "0x" 0xE1C010D0 := by
  decide

/-! ## Multiply -/

/-- A word that passes the dispatcher's MUL/MLA test reaches the multiply
decoder. -/
theorem disass_of_multiply (hexpfx : String) (vfp : Option vfp_decoder)
    (w a : Nat) (cb : Option dis_cb_fn) (hw : w < 2 ^ 32)
    (hb : w &&& 0x0FC000F0 = 0x00000090) :
    disass hexpfx vfp w a cb = disass_multiply w := by
  have h1 : ¬ (w &&& 0xfe000000 = 0xfa000000) :=
    fun h => absurd (mask_conflict hb h) (by decide)
  have h2 : ¬ (w &&& 0x0ffffff0 = 0x012fff10 ∨ w &&& 0x0ffffff0 = 0x012fff30) := by
    rintro (h | h) <;> exact absurd (mask_conflict hb h) (by decide)
  have h3 : ¬ (w &&& 0x0fb00ff0 = 0x01000090) :=
    fun h => absurd (mask_conflict hb h) (by decide)
  have h4 : ¬ (w &&& 0x0fff0ff0 = 0x016f0f10) :=
    fun h => absurd (mask_conflict hb h) (by decide)
  have h5 : ¬ (w &&& 0x0fbf0fff = 0x010f0000) :=
    fun h => absurd (mask_conflict hb h) (by decide)
  have h6 : ¬ (w &&& 0x0db0f000 = 0x0120f000) :=
    fun h => absurd (mask_conflict hb h) (by decide)
  simp only [disass, Nat.mod_eq_of_lt hw]
  rw [if_neg h1, if_neg h2, if_neg h3, if_neg h4, if_neg h5, if_neg h6, if_pos (Or.inl hb)]

theorem multiply_result (w : Nat) :
    disass_multiply w =
      ⟨emit_mnemonic ""
          ((if BITS w 21 21 = 1 then "MLA" else "MUL") ++ (if BITS w 20 20 = 1 then "S" else ""))
          (BITS w 31 28)
        ++ fallback_regname (BITS w 15 12) ++ ", " ++ fallback_regname (BITS w 3 0) ++ ", "
        ++ fallback_regname (BITS w 11 8)
        ++ (if BITS w 21 21 = 1 then ", " ++ fallback_regname (BITS w 19 16) else ""), []⟩ := by
  simp only [disass_multiply, ne_eq, bit_not_zero, append_str, append_reg]
  split_ifs <;> simp only [String.append_assoc, String.append_empty]

/-- C23 against the code: every MUL/MLA word is rendered with the mnemonic
MLA or MUL (bit 21) and `S` (bit 20) as claimed, but the first operand is
taken from bits 15:12 and the accumulate operand from bits 19:16, the reverse
of the ARM multiply encoding.  0xE0030291 (`MUL r3, r1, r2`) is rendered with
the operands `r0, r1, r2`. -/
theorem multiply_operands_evaluated :
    (∀ (hexpfx : String) (vfp : Option vfp_decoder) (w a : Nat) (cb : Option dis_cb_fn),
      w < 2 ^ 32 → w &&& 0x0FC000F0 = 0x00000090 →
      (disass hexpfx vfp w a cb).text =
        emit_mnemonic ""
          ((if BITS w 21 21 = 1 then "MLA" else "MUL") ++ (if BITS w 20 20 = 1 then "S" else ""))
          (BITS w 31 28)
        ++ fallback_regname (BITS w 15 12) ++ ", " ++ fallback_regname (BITS w 3 0) ++ ", "
        ++ fallback_regname (BITS w 11 8)
        ++ (if BITS w 21 21 = 1 then ", " ++ fallback_regname (BITS w 19 16) else "")) ∧
      (0xE0030291 &&& 0x0FC000F0 = 0x00000090 ∧ BITS 0xE0030291 19 16 = 3 ∧
        BITS 0xE0030291 15 12 = 0 ∧ BITS 0xE0030291 3 0 = 1 ∧ BITS 0xE0030291 11 8 = 2) ∧
      (disass "0x" none 0xE0030291 0 none).text = "MUL             r0, r1, r2" ∧
      ¬ ((disass "0x" none 0xE0030291 0 none).text = emit_mnemonic "" "MUL" 14 ++ "r3, r1, r2") := by
  refine ⟨?_, by decide, by decide, by decide⟩
  intro hexpfx vfp w a cb hw hb
  rw [disass_of_multiply hexpfx vfp w a cb hw hb, multiply_result]

/-! ## The configured hex prefix -/

theorem ti_const (t : String) : text_by_insertion (fun _ => t) :=
  ⟨t, "", false, fun _ => rfl⟩

theorem ti_id : text_by_insertion (fun h => h) :=
  ⟨"", "", true, fun h => by
    apply String.ext
    simp [String.data_append]⟩

theorem ti_append_left (A : String) (T : String → String) (hT : text_by_insertion T) :
    text_by_insertion (fun h => A ++ T h) := by
  obtain ⟨pre, post, uses, hh⟩ := hT
  refine ⟨A ++ pre, post, uses, fun h => ?_⟩
  show A ++ T h = _
  rw [hh h]
  cases uses <;> simp [String.append_assoc]

theorem ti_append_right (B : String) (T : String → String) (hT : text_by_insertion T) :
    text_by_insertion (fun h => T h ++ B) := by
  obtain ⟨pre, post, uses, hh⟩ := hT
  cases uses
  · exact ⟨pre ++ B, "", false, fun h => by
      show T h ++ B = _
      rw [hh h]
      simp⟩
  · exact ⟨pre, post ++ B, true, fun h => by
      show T h ++ B = _
      rw [hh h]
      simp [String.append_assoc]⟩

theorem ti_ite (c : Prop) [Decidable c] (A B : String → String)
    (hA : text_by_insertion A) (hB : text_by_insertion B) :
    text_by_insertion (fun h => if c then A h else B h) := by
  by_cases hc : c
  · simpa only [hc, if_true] using hA
  · simpa only [hc, if_false] using hB

theorem insertion_mk (T : String → String) (calls : List CbCall) (hT : text_by_insertion T) :
    depends_on_hexpfx_by_insertion (fun h => ⟨T h, calls⟩) := by
  obtain ⟨pre, post, uses, hh⟩ := hT
  exact ⟨pre, post, uses, calls, fun h => by
    show (⟨T h, calls⟩ : Result) = _
    rw [hh h]⟩

theorem insertion_const (r : Result) : depends_on_hexpfx_by_insertion (fun _ => r) :=
  ⟨r.text, "", false, r.calls, fun _ => rfl⟩

theorem insertion_ite (c : Prop) [Decidable c] (A B : String → Result)
    (hA : depends_on_hexpfx_by_insertion A) (hB : depends_on_hexpfx_by_insertion B) :
    depends_on_hexpfx_by_insertion (fun h => if c then A h else B h) := by
  by_cases hc : c
  · simpa only [hc, if_true] using hA
  · simpa only [hc, if_false] using hB

theorem insertion_text (pre post : String) (calls : List CbCall) :
    depends_on_hexpfx_by_insertion (fun h => ⟨pre ++ h ++ post, calls⟩) :=
  ⟨pre, post, true, calls, fun _ => rfl⟩

theorem insertion_dump (w : Nat) :
    depends_on_hexpfx_by_insertion (fun h => ⟨default_dump h w, []⟩) :=
  insertion_text "DCD      " (fmtHexPad 8 w) []

theorem insertion_swi (w : Nat) :
    depends_on_hexpfx_by_insertion (fun h => disass_swi h w) := by
  simp only [disass_swi]
  exact insertion_text _ _ _

theorem insertion_branch (w pc : Nat) (cb : Option dis_cb_fn) :
    depends_on_hexpfx_by_insertion (fun h => disass_branch h w pc cb) := by
  simp only [disass_branch]
  apply insertion_ite
  · exact insertion_const _
  · exact insertion_text _ _ _

theorem insertion_msr (w : Nat) :
    depends_on_hexpfx_by_insertion (fun h => disass_msr h w) := by
  simp only [disass_msr, append_immediate]
  apply insertion_ite
  · simp only [String.append_assoc]
    simp only [← String.append_assoc]
    exact insertion_text _ _ _
  · exact insertion_const _

theorem insertion_sdt (w pc : Nat) (cb : Option dis_cb_fn) :
    depends_on_hexpfx_by_insertion (fun h => disass_single_data_transfer h w pc cb) := by
  simp only [disass_single_data_transfer, append_sp_hex_comment, append_hex_comment_for_offset,
    append_str, append_reg]
  repeat' first
    | exact insertion_const _
    | apply insertion_ite
    | apply insertion_mk
    | exact ti_const _
    | exact ti_id
    | apply ti_ite
    | apply ti_append_right
    | apply ti_append_left

theorem insertion_halfword (w : Nat) :
    depends_on_hexpfx_by_insertion
      (fun h => disass_halfword_signed_transfer h w (default_dump h w)) := by
  simp only [disass_halfword_signed_transfer, append_immediate, append_str, append_reg]
  generalize (if BITS w 20 20 = 0 ∧ BITS w 6 5 = 1 then some "STRH"
    else if BITS w 20 20 ≠ 0 ∧ BITS w 6 5 = 1 then some "LDRH"
    else if BITS w 20 20 ≠ 0 ∧ BITS w 6 5 = 2 then some "LDRSB"
    else if BITS w 20 20 ≠ 0 ∧ BITS w 6 5 = 3 then some "LDRSH"
    else none : Option String) = ob
  cases ob with
  | none => exact insertion_dump w
  | some base =>
    simp only []
    with_reducible repeat' first
      | exact insertion_const _
      | apply insertion_ite
      | apply insertion_mk
      | exact ti_const _
      | exact ti_id
      | apply ti_ite
      | apply ti_append_right
      | apply ti_append_left

theorem insertion_disass (vfp : Option vfp_decoder) (w a : Nat) (cb : Option dis_cb_fn) :
    depends_on_hexpfx_by_insertion (fun h => disass h vfp w a cb) := by
  simp only [disass]
  apply insertion_ite _ _ _ (insertion_dump _)
  apply insertion_ite _ _ _ (insertion_const _)
  apply insertion_ite _ _ _ (insertion_const _)
  apply insertion_ite _ _ _ (insertion_const _)
  apply insertion_ite _ _ _ (insertion_const _)
  apply insertion_ite _ _ _ (insertion_msr _)
  apply insertion_ite _ _ _ (insertion_const _)
  apply insertion_ite _ _ _ (insertion_const _)
  apply insertion_ite _ _ _ (insertion_halfword _)
  apply insertion_ite _ _ _ (insertion_branch _ _ _)
  apply insertion_ite _ _ _ (insertion_swi _)
  apply insertion_ite _ _ _ (insertion_sdt _ _ _)
  apply insertion_ite _ _ _ (insertion_const _)
  apply insertion_ite _ _ _ (insertion_const _)
  cases vfp with
  | none => exact insertion_dump _
  | some f =>
    simp only []
    generalize f (w % 2 ^ 32) (a % 2 ^ 32) cb = r
    cases r with
    | none => exact insertion_dump _
    | some r => exact insertion_const _

/-- C28: after `disass_sethexprefix(p)` the configured prefix is `p` when `p`
is a non-null, non-empty string and `"0x"` when `p` is null or empty, whatever
was configured before; the prefix is part of the default dump, of a numeric
branch target, of the SWI number, of an MSR immediate and of the
stack-relative hex comment; and the result of `disass` depends on the prefix
only by the insertion of the prefix at one place of an otherwise fixed text,
with the same callback invocations. -/
theorem hex_prefix_configuration (old p : String) (vfp : Option vfp_decoder)
    (w a wm off : Nat) (cb : Option dis_cb_fn)
    (hp : p ≠ "") (hm : BITS wm 25 25 ≠ 0) (hoff : 9 < off) :
    disass_sethexprefix old (some p) = p ∧
    disass_sethexprefix old none = "0x" ∧
    disass_sethexprefix old (some "") = "0x" ∧
    (∀ h, default_dump h w = "DCD      " ++ h ++ fmtHexPad 8 w) ∧
    (∃ pre post, ∀ h, (disass_branch h w a none).text = pre ++ h ++ post) ∧
    (∃ pre post, ∀ h, (disass_swi h w).text = pre ++ h ++ post) ∧
    (∃ pre post, ∀ h, (disass_msr h wm).text = pre ++ h ++ post) ∧
    (∀ h q, append_sp_hex_comment h q 13 off = q ++ "   @ " ++ h ++ fmtHex off) ∧
    depends_on_hexpfx_by_insertion (fun h => disass h vfp w a cb) := by
  refine ⟨?_, rfl, rfl, fun _ => rfl, ⟨_, _, fun _ => rfl⟩, ⟨_, _, fun _ => rfl⟩, ?_, ?_,
    insertion_disass vfp w a cb⟩
  · simp only [ disass_sethexprefix, hp, ne_eq, not_false_eq_true, if_true]
  · refine ⟨emit_mnemonic "" "MSR" (BITS wm 31 28)
        ++ (if BITS wm 22 22 ≠ 0 then "SPSR" else "CPSR") ++ ", " ++ "#",
      fmtHex (rotate_imm (BITS wm 7 0) ((BITS wm 11 8 * 2) % 2 ^ 32)), fun h => ?_⟩
    simp only [disass_msr, hm, ne_eq, not_false_eq_true, if_true, append_immediate, append_str]
  · intro h q
    simp only [append_sp_hex_comment, hoff, gt_iff_lt, and_self, if_true]

theorem hex_prefix_configuration_witness :
    disass_sethexprefix "0x" (some "&") = "&" ∧
    (disass "&" none 0xEF000011 0 none).text = "SWI             &000011" ∧
    depends_on_hexpfx_by_insertion (fun h => disass h none 0xEF000011 0 none) :=
  have h := hex_prefix_configuration "0x" "&" none 0xEF000011 0 0xE328F00F 16 none
    (by decide) (by decide) (by decide)
  ⟨h.1, by decide, h.2.2.2.2.2.2.2.2⟩

/-! ## Line shape -/

theorem cond_codes_upper (cond : Nat) :
    ∀ c ∈ (if cond ≠ 14 then cond_codes.getD cond "" else "").data, c.isUpper = true := by
  by_cases h : cond < 16
  · interval_cases cond <;> decide
  · have : cond_codes.getD cond "" = "" := by
      rw [List.getD_eq_default]
      simpa [cond_codes] using h
    rw [this]
    split_ifs <;> decide

theorem append_ne_empty_left (a b : String) (ha : a ≠ "") : a ++ b ≠ "" := by
  intro h
  apply ha
  apply string_eq_empty_of_length
  have := congrArg String.length h
  rw [String.length_append] at this
  have h0 : ("" : String).length = 0 := rfl
  omega

theorem append_ne_empty_right (a b : String) (hb : b ≠ "") : a ++ b ≠ "" := by
  intro h
  apply hb
  apply string_eq_empty_of_length
  have := congrArg String.length h
  rw [String.length_append] at this
  have h0 : ("" : String).length = 0 := rfl
  omega

theorem regname_ne_empty (r : Nat) : fallback_regname r ≠ "" := by
  unfold fallback_regname
  by_cases h : r ≥ 16
  · rw [if_pos h]
    decide
  · rw [if_neg h]
    have hr : r < 16 := by omega
    interval_cases r <;> decide

theorem line_start (base s : String) (cond : Nat) (hb : upper_word base) (hs : s ≠ "") :
    is_instruction_line (emit_mnemonic "" base cond ++ s) := by
  refine ⟨base ++ (if cond ≠ 14 then cond_codes.getD cond "" else ""), s,
    max 1 (16 - (base ++ (if cond ≠ 14 then cond_codes.getD cond "" else "")
      ++ (none : Option String).getD "").length), ⟨?_, ?_⟩, le_max_left _ _, ?_, hs, ?_⟩
  · exact append_ne_empty_left _ _ hb.1
  · intro c hc
    rw [String.data_append, List.mem_append] at hc
    rcases hc with hc | hc
    · exact hb.2 c hc
    · exact cond_codes_upper cond c hc
  · simp only [Option.getD_none, String.append_empty]
    omega
  · rw [emit_mnemonic, emit_mnemonic_with_suffix_eq]
    simp only [Option.getD_none, String.append_empty, string_empty_append]

theorem line_append (t s : String) (h : is_instruction_line t) :
    is_instruction_line (t ++ s) := by
  obtain ⟨mnem, ops, k, hm, hk, hl, ho, ht⟩ := h
  exact ⟨mnem, ops ++ s, k, hm, hk, hl, append_ne_empty_left _ _ ho, by
    rw [ht, String.append_assoc]⟩

theorem line_ite (c : Prop) [Decidable c] (A B : String)
    (hA : is_instruction_line A) (hB : is_instruction_line B) :
    is_instruction_line (if c then A else B) := by
  split_ifs
  · exact hA
  · exact hB

theorem dol_line (dump t : String) (calls : List CbCall) (h : is_instruction_line t) :
    dump_or_line dump ⟨t, calls⟩ :=
  Or.inr h

theorem dol_dump (dump : String) (calls : List CbCall) : dump_or_line dump ⟨dump, calls⟩ :=
  Or.inl rfl

theorem dol_ite (dump : String) (c : Prop) [Decidable c] (A B : Result)
    (hA : dump_or_line dump A) (hB : dump_or_line dump B) :
    dump_or_line dump (if c then A else B) := by
  split_ifs
  · exact hA
  · exact hB

theorem dp_mnemonic_upper (w : Nat) :
    upper_word (if BITS w 24 21 ≥ 8 ∧ BITS w 24 21 ≤ 11 then dp_opnames.getD (BITS w 24 21) ""
      else if BITS w 20 20 ≠ 0 then dp_opnames.getD (BITS w 24 21) "" ++ "S"
      else dp_opnames.getD (BITS w 24 21) "") := by
  have h := BITS_lt w 24 21
  have h1 : BITS w 24 21 < 16 := h
  generalize BITS w 24 21 = op at h1 ⊢
  interval_cases op <;> split_ifs <;> decide

theorem line_data_processing (dump : String) (w pc : Nat) :
    dump_or_line dump (disass_data_processing w pc none) := by
  have hm := dp_mnemonic_upper w
  simp only [disass_data_processing, decode_shifted_reg, append_str, append_reg]
  with_reducible repeat' first
    | exact line_start _ _ _ hm (regname_ne_empty _)
    | apply dol_ite
    | apply dol_line
    | apply line_ite
    | apply line_append

theorem line_single_data_transfer (hexpfx dump : String) (w pc : Nat) (cb : Option dis_cb_fn) :
    dump_or_line dump (disass_single_data_transfer hexpfx w pc cb) := by
  simp only [disass_single_data_transfer, append_sp_hex_comment, append_hex_comment_for_offset,
    append_signed_decimal, append_offset_decimal_naked, append_str, append_reg]
  with_reducible repeat' first
    | exact line_start _ _ _ (by split_ifs <;> decide) (regname_ne_empty _)
    | apply dol_ite
    | apply dol_line
    | apply line_ite
    | apply line_append

theorem line_branch (hexpfx dump : String) (w pc : Nat) :
    dump_or_line dump (disass_branch hexpfx w pc none) := by
  simp only [disass_branch, Option.isSome_none, Bool.false_eq_true, if_false,
    String.append_assoc]
  apply dol_line
  refine line_start _ _ _ (by split_ifs <;> decide) (append_ne_empty_right _ _ ?_)
  intro h
  have h8 := fmtHexPad_length_ge 8
    ((pc + 8 + ((if w &&& 0x00FFFFFF &&& 0x00800000 ≠ 0 then w &&& 0x00FFFFFF ||| 0xFF000000
      else w &&& 0x00FFFFFF) <<< 2) % 2 ^ 32) % 2 ^ 32)
  rw [h] at h8
  exact absurd h8 (by decide)

theorem line_swi (hexpfx dump : String) (w : Nat) :
    dump_or_line dump (disass_swi hexpfx w) := by
  simp only [disass_swi, String.append_assoc]
  apply dol_line
  refine line_start _ _ _ (by decide) (append_ne_empty_right _ _ ?_)
  intro h
  have h6 := fmtHexPad_length_ge 6 (w &&& 0x00FFFFFF)
  rw [h] at h6
  exact absurd h6 (by decide)

theorem line_block_data_transfer (dump : String) (w : Nat) :
    dump_or_line dump (disass_block_data_transfer w) := by
  simp only [disass_block_data_transfer, append_str, append_reg]
  rw [append_reglist_append]
  with_reducible repeat' first
    | exact line_start _ _ _ (by split_ifs <;> decide) (regname_ne_empty _)
    | apply dol_ite
    | apply dol_line
    | apply line_ite
    | apply line_append

theorem line_multiply (dump : String) (w : Nat) : dump_or_line dump (disass_multiply w) := by
  simp only [disass_multiply, append_str, append_reg]
  with_reducible repeat' first
    | exact line_start _ _ _ (by split_ifs <;> decide) (regname_ne_empty _)
    | apply dol_ite
    | apply dol_line
    | apply line_ite
    | apply line_append

theorem line_long_multiply (dump : String) (w : Nat) :
    dump_or_line dump (disass_long_multiply w) := by
  simp only [disass_long_multiply, append_str, append_reg]
  with_reducible repeat' first
    | exact line_start _ _ _ (by split_ifs <;> decide) (regname_ne_empty _)
    | apply dol_ite
    | apply dol_line
    | apply line_ite
    | apply line_append

theorem line_swp (dump : String) (w : Nat) : dump_or_line dump (disass_swp w) := by
  simp only [disass_swp, append_str, append_reg]
  with_reducible repeat' first
    | exact line_start _ _ _ (by split_ifs <;> decide) (regname_ne_empty _)
    | apply dol_ite
    | apply dol_line
    | apply line_ite
    | apply line_append

theorem line_bx_blx_reg (dump : String) (w : Nat) :
    dump_or_line dump (disass_bx_blx_reg w) := by
  simp only [disass_bx_blx_reg, append_str, append_reg]
  apply dol_line
  exact line_start _ _ _ (by split_ifs <;> decide) (regname_ne_empty _)

theorem line_clz (dump : String) (w : Nat) : dump_or_line dump (disass_clz w) := by
  simp only [disass_clz, append_str, append_reg]
  with_reducible repeat' first
    | exact line_start _ _ _ (by decide) (regname_ne_empty _)
    | apply dol_ite
    | apply dol_line
    | apply line_ite
    | apply line_append

theorem line_mrs (dump : String) (w : Nat) : dump_or_line dump (disass_mrs w) := by
  simp only [disass_mrs, append_str, append_reg]
  with_reducible repeat' first
    | exact line_start _ _ _ (by decide) (regname_ne_empty _)
    | apply dol_ite
    | apply dol_line
    | apply line_ite
    | apply line_append

theorem line_msr (hexpfx dump : String) (w : Nat) : dump_or_line dump (disass_msr hexpfx w) := by
  simp only [disass_msr, append_immediate, append_str, append_reg]
  with_reducible repeat' first
    | exact line_start _ _ _ (by decide) (by split_ifs <;> decide)
    | apply dol_ite
    | apply dol_line
    | apply line_ite
    | apply line_append

theorem line_halfword (hexpfx : String) (w : Nat) (dump : String) :
    dump_or_line dump (disass_halfword_signed_transfer hexpfx w dump) := by
  simp only [disass_halfword_signed_transfer, append_immediate, append_str, append_reg]
  generalize hob : (if BITS w 20 20 = 0 ∧ BITS w 6 5 = 1 then some "STRH"
    else if BITS w 20 20 ≠ 0 ∧ BITS w 6 5 = 1 then some "LDRH"
    else if BITS w 20 20 ≠ 0 ∧ BITS w 6 5 = 2 then some "LDRSB"
    else if BITS w 20 20 ≠ 0 ∧ BITS w 6 5 = 3 then some "LDRSH"
    else none : Option String) = ob
  cases ob with
  | none => exact dol_dump _ _
  | some base =>
    have hu : upper_word base := by
      split_ifs at hob <;> (rw [← Option.some.inj hob]; decide)
    simp only []
    with_reducible repeat' first
      | exact line_start _ _ _ hu (regname_ne_empty _)
      | apply dol_ite
      | apply dol_line
      | apply line_ite
      | apply line_append

theorem line_disass (hexpfx : String) (w a : Nat) :
    dump_or_line (default_dump hexpfx (w % 2 ^ 32)) (disass hexpfx none w a none) := by
  simp only [disass]
  apply dol_ite _ _ _ _ (dol_dump _ _)
  apply dol_ite _ _ _ _ (line_bx_blx_reg _ _)
  apply dol_ite _ _ _ _ (line_swp _ _)
  apply dol_ite _ _ _ _ (line_clz _ _)
  apply dol_ite _ _ _ _ (line_mrs _ _)
  apply dol_ite _ _ _ _ (line_msr _ _ _)
  apply dol_ite _ _ _ _ (line_multiply _ _)
  apply dol_ite _ _ _ _ (line_long_multiply _ _)
  apply dol_ite _ _ _ _ (line_halfword _ _ _)
  apply dol_ite _ _ _ _ (line_branch _ _ _ _)
  apply dol_ite _ _ _ _ (line_swi _ _ _)
  apply dol_ite _ _ _ _ (line_single_data_transfer _ _ _ _ _)
  apply dol_ite _ _ _ _ (line_block_data_transfer _ _)
  apply dol_ite _ _ _ _ (line_data_processing _ _ _)
  exact dol_dump _ _

/-! ## No terminator inside the text -/

theorem nf_append (a b : String) (ha : nul_free a) (hb : nul_free b) : nul_free (a ++ b) :=
  (not_mem_data_append _ a b).mpr ⟨ha, hb⟩

theorem nf_ite (c : Prop) [Decidable c] (A B : String) (hA : nul_free A) (hB : nul_free B) :
    nul_free (if c then A else B) := by
  split_ifs
  · exact hA
  · exact hB

theorem digitChar_ne_nul (d : Nat) (h : d < 16) : digitChar d ≠ Char.ofNat 0 := by
  interval_cases d <;> decide

theorem nf_fmtDec (n : Nat) : nul_free (fmtDec n) := by
  intro h
  obtain ⟨d, hd, hc⟩ := digitsFuel_digits 10 (by decide) (n + 1) n _ h
  exact digitChar_ne_nul d (by omega) hc.symm

theorem nf_fmtHex (n : Nat) : nul_free (fmtHex n) := by
  intro h
  obtain ⟨d, hd, hc⟩ := digitsFuel_digits 16 (by decide) (n + 1) n _ h
  exact digitChar_ne_nul d hd hc.symm

theorem nf_fmtHexPad (k n : Nat) : nul_free (fmtHexPad k n) := by
  intro h
  have := fmtHexPad_chars k n _ h
  revert this
  decide

theorem nf_regname (r : Nat) : nul_free (fallback_regname r) := by
  unfold fallback_regname
  by_cases h : r ≥ 16
  · rw [if_pos h]
    decide
  · rw [if_neg h]
    have hr : r < 16 := by omega
    interval_cases r <;> decide

theorem nf_of_upper (s : String) (h : upper_word s) : nul_free s := by
  intro hc
  have := h.2 _ hc
  revert this
  decide

theorem nf_emit (base : String) (cond : Nat) (hb : upper_word base) :
    nul_free (emit_mnemonic "" base cond) := by
  rw [emit_mnemonic, emit_mnemonic_with_suffix_eq]
  refine nf_append _ _ (nf_append _ _ (by decide) (nf_append _ _ (nf_append _ _
    (nf_of_upper _ hb) ?_) (by decide))) ?_
  · intro hc
    have := cond_codes_upper cond _ hc
    revert this
    decide
  · intro hc
    have := (List.mem_replicate.mp hc).2
    revert this
    decide

theorem nf_shift_name (t : Nat) : nul_free (shift_name t) := by
  unfold shift_name
  split_ifs <;> decide

theorem nf_reglist_loop (list : Nat) :
    ∀ (fuel r : Nat) (first : Bool) (p : String), nul_free p →
      nul_free (reglist_loop list fuel r first p) := by
  intro fuel
  induction fuel with
  | zero =>
    intro r first p hp
    exact hp
  | succ fuel ih =>
    intro r first p hp
    simp only [reglist_loop, append_reg, append_str]
    split_ifs
    all_goals first
      | exact hp
      | (apply ih
         repeat' first
           | exact hp
           | exact nf_regname _
           | apply nf_append
           | decide)

theorem nf_reglist (p : String) (list : Nat) (hp : nul_free p) :
    nul_free (append_reglist p list) := by
  unfold append_reglist
  exact nf_append _ _ (nf_reglist_loop _ _ _ _ _ (nf_append _ _ hp (by decide))) (by decide)

theorem c_string_buffer_write (buf : List Char) (s : String) (h : nul_free s) :
    c_string (buffer_write buf s) = s := by
  unfold c_string buffer_write
  apply String.ext
  show List.takeWhile _ _ = s.data
  have key : ∀ (l₁ l₂ : List Char), Char.ofNat 0 ∉ l₁ →
      (l₁ ++ Char.ofNat 0 :: l₂).takeWhile (fun c => c != Char.ofNat 0) = l₁ := by
    intro l₁ l₂
    induction l₁ with
    | nil =>
      intro _
      rfl
    | cons c l ih =>
      intro hn
      have hc : (c != Char.ofNat 0) = true := by
        have : c ≠ Char.ofNat 0 := fun hh => hn (hh ▸ List.mem_cons_self c l)
        simpa using this
      have hl : Char.ofNat 0 ∉ l := fun hd => hn (List.mem_cons_of_mem c hd)
      rw [List.cons_append, List.takeWhile_cons, hc, ih hl]
      rfl
  exact key _ _ h

/-! ## Every decoded line is well formed -/

theorem nft_ite (c : Prop) [Decidable c] (A B : Result)
    (hA : nul_free A.text) (hB : nul_free B.text) : nul_free (if c then A else B).text := by
  split_ifs
  · exact hA
  · exact hB

theorem nf_default_dump (hexpfx : String) (w : Nat) (hnul : nul_free hexpfx) :
    nul_free (default_dump hexpfx w) :=
  nf_append _ _ (nf_append _ _ (by decide) hnul) (nf_fmtHexPad _ _)

theorem nf_data_processing (w pc : Nat) :
    nul_free (disass_data_processing w pc none).text := by
  have hm := dp_mnemonic_upper w
  have hnul : nul_free "" := by decide
  simp only [disass_data_processing, decode_shifted_reg, append_str, append_reg, call_cb]
  with_reducible repeat' first
    | exact hnul
    | exact nf_emit _ _ hm
    | exact nf_regname _
    | exact nf_fmtDec _
    | exact nf_fmtHex _
    | exact nf_fmtHexPad _ _
    | exact nf_shift_name _
    | apply nft_ite
    | apply nf_ite
    | apply nf_reglist
    | apply nf_append
    | decide

theorem nf_single_data_transfer (hexpfx : String) (w pc : Nat) (hnul : nul_free hexpfx) :
    nul_free (disass_single_data_transfer hexpfx w pc none).text := by
  simp only [disass_single_data_transfer, append_sp_hex_comment, append_hex_comment_for_offset,
    append_signed_decimal, append_offset_decimal_naked, append_str, append_reg, call_cb]
  with_reducible repeat' first
    | exact hnul
    | exact nf_emit _ _ (by split_ifs <;> decide)
    | exact nf_regname _
    | exact nf_fmtDec _
    | exact nf_fmtHex _
    | exact nf_fmtHexPad _ _
    | exact nf_shift_name _
    | apply nft_ite
    | apply nf_ite
    | apply nf_reglist
    | apply nf_append
    | decide

theorem nf_branch (hexpfx : String) (w pc : Nat) (hnul : nul_free hexpfx) :
    nul_free (disass_branch hexpfx w pc none).text := by
  simp only [disass_branch, call_cb]
  with_reducible repeat' first
    | exact hnul
    | exact nf_emit _ _ (by split_ifs <;> decide)
    | exact nf_regname _
    | exact nf_fmtDec _
    | exact nf_fmtHex _
    | exact nf_fmtHexPad _ _
    | exact nf_shift_name _
    | apply nft_ite
    | apply nf_ite
    | apply nf_reglist
    | apply nf_append
    | decide

theorem nf_swi (hexpfx : String) (w : Nat) (hnul : nul_free hexpfx) :
    nul_free (disass_swi hexpfx w).text := by
  simp only [disass_swi]
  with_reducible repeat' first
    | exact hnul
    | exact nf_emit _ _ (by decide)
    | exact nf_regname _
    | exact nf_fmtDec _
    | exact nf_fmtHex _
    | exact nf_fmtHexPad _ _
    | exact nf_shift_name _
    | apply nft_ite
    | apply nf_ite
    | apply nf_reglist
    | apply nf_append

theorem nf_block_data_transfer (w : Nat) : nul_free (disass_block_data_transfer w).text := by
  have hnul : nul_free "" := by decide
  simp only [disass_block_data_transfer, append_str, append_reg]
  with_reducible repeat' first
    | exact hnul
    | exact nf_emit _ _ (by split_ifs <;> decide)
    | exact nf_regname _
    | exact nf_fmtDec _
    | exact nf_fmtHex _
    | exact nf_fmtHexPad _ _
    | exact nf_shift_name _
    | apply nft_ite
    | apply nf_ite
    | apply nf_reglist
    | apply nf_append
    | decide

theorem nf_multiply (w : Nat) : nul_free (disass_multiply w).text := by
  have hnul : nul_free "" := by decide
  simp only [disass_multiply, append_str, append_reg]
  with_reducible repeat' first
    | exact hnul
    | exact nf_emit _ _ (by split_ifs <;> decide)
    | exact nf_regname _
    | exact nf_fmtDec _
    | exact nf_fmtHex _
    | exact nf_fmtHexPad _ _
    | exact nf_shift_name _
    | apply nft_ite
    | apply nf_ite
    | apply nf_reglist
    | apply nf_append
    | decide

theorem nf_long_multiply (w : Nat) : nul_free (disass_long_multiply w).text := by
  have hnul : nul_free "" := by decide
  simp only [disass_long_multiply, append_str, append_reg]
  with_reducible repeat' first
    | exact hnul
    | exact nf_emit _ _ (by split_ifs <;> decide)
    | exact nf_regname _
    | exact nf_fmtDec _
    | exact nf_fmtHex _
    | exact nf_fmtHexPad _ _
    | exact nf_shift_name _
    | apply nft_ite
    | apply nf_ite
    | apply nf_reglist
    | apply nf_append
    | decide

theorem nf_swp (w : Nat) : nul_free (disass_swp w).text := by
  have hnul : nul_free "" := by decide
  simp only [disass_swp, append_str, append_reg]
  with_reducible repeat' first
    | exact hnul
    | exact nf_emit _ _ (by split_ifs <;> decide)
    | exact nf_regname _
    | exact nf_fmtDec _
    | exact nf_fmtHex _
    | exact nf_fmtHexPad _ _
    | exact nf_shift_name _
    | apply nft_ite
    | apply nf_ite
    | apply nf_reglist
    | apply nf_append
    | decide

theorem nf_bx_blx_reg (w : Nat) : nul_free (disass_bx_blx_reg w).text := by
  have hnul : nul_free "" := by decide
  simp only [disass_bx_blx_reg, append_str, append_reg]
  with_reducible repeat' first
    | exact hnul
    | exact nf_emit _ _ (by split_ifs <;> decide)
    | exact nf_regname _
    | exact nf_fmtDec _
    | exact nf_fmtHex _
    | exact nf_fmtHexPad _ _
    | exact nf_shift_name _
    | apply nft_ite
    | apply nf_ite
    | apply nf_reglist
    | apply nf_append

theorem nf_clz (w : Nat) : nul_free (disass_clz w).text := by
  have hnul : nul_free "" := by decide
  simp only [disass_clz, append_str, append_reg]
  with_reducible repeat' first
    | exact hnul
    | exact nf_emit _ _ (by decide)
    | exact nf_regname _
    | exact nf_fmtDec _
    | exact nf_fmtHex _
    | exact nf_fmtHexPad _ _
    | exact nf_shift_name _
    | apply nft_ite
    | apply nf_ite
    | apply nf_reglist
    | apply nf_append
    | decide

theorem nf_mrs (w : Nat) : nul_free (disass_mrs w).text := by
  have hnul : nul_free "" := by decide
  simp only [disass_mrs, append_str, append_reg]
  with_reducible repeat' first
    | exact hnul
    | exact nf_emit _ _ (by decide)
    | exact nf_regname _
    | exact nf_fmtDec _
    | exact nf_fmtHex _
    | exact nf_fmtHexPad _ _
    | exact nf_shift_name _
    | apply nft_ite
    | apply nf_ite
    | apply nf_reglist
    | apply nf_append
    | decide

theorem nf_msr (hexpfx : String) (w : Nat) (hnul : nul_free hexpfx) :
    nul_free (disass_msr hexpfx w).text := by
  simp only [disass_msr, append_immediate, append_str, append_reg]
  with_reducible repeat' first
    | exact hnul
    | exact nf_emit _ _ (by decide)
    | exact nf_regname _
    | exact nf_fmtDec _
    | exact nf_fmtHex _
    | exact nf_fmtHexPad _ _
    | exact nf_shift_name _
    | apply nft_ite
    | apply nf_ite
    | apply nf_reglist
    | apply nf_append
    | decide

theorem nf_halfword (hexpfx : String) (w : Nat) (dump : String) (hnul : nul_free hexpfx)
    (hd : nul_free dump) :
    nul_free (disass_halfword_signed_transfer hexpfx w dump).text := by
  simp only [disass_halfword_signed_transfer, append_immediate, append_str, append_reg]
  generalize hob : (if BITS w 20 20 = 0 ∧ BITS w 6 5 = 1 then some "STRH"
    else if BITS w 20 20 ≠ 0 ∧ BITS w 6 5 = 1 then some "LDRH"
    else if BITS w 20 20 ≠ 0 ∧ BITS w 6 5 = 2 then some "LDRSB"
    else if BITS w 20 20 ≠ 0 ∧ BITS w 6 5 = 3 then some "LDRSH"
    else none : Option String) = ob
  cases ob with
  | none => exact hd
  | some base =>
    have hu : upper_word base := by
      split_ifs at hob <;> (rw [← Option.some.inj hob]; decide)
    simp only []
    with_reducible repeat' first
      | exact hnul
      | exact nf_emit _ _ hu
      | exact nf_regname _
      | exact nf_fmtDec _
      | exact nf_fmtHex _
      | exact nf_fmtHexPad _ _
      | exact nf_shift_name _
      | apply nft_ite
        | apply nf_ite
      | apply nf_reglist
      | apply nf_append
      | decide

theorem nf_disass (hexpfx : String) (w a : Nat) (hnul : nul_free hexpfx) :
    nul_free (disass hexpfx none w a none).text := by
  have hd := nf_default_dump hexpfx (w % 2 ^ 32) hnul
  simp only [disass]
  apply nft_ite _ _ _ hd
  apply nft_ite _ _ _ (nf_bx_blx_reg _)
  apply nft_ite _ _ _ (nf_swp _)
  apply nft_ite _ _ _ (nf_clz _)
  apply nft_ite _ _ _ (nf_mrs _)
  apply nft_ite _ _ _ (nf_msr _ _ hnul)
  apply nft_ite _ _ _ (nf_multiply _)
  apply nft_ite _ _ _ (nf_long_multiply _)
  apply nft_ite _ _ _ (nf_halfword _ _ _ hnul hd)
  apply nft_ite _ _ _ (nf_branch _ _ _ hnul)
  apply nft_ite _ _ _ (nf_swi _ _ hnul)
  apply nft_ite _ _ _ (nf_single_data_transfer _ _ _ hnul)
  apply nft_ite _ _ _ (nf_block_data_transfer _)
  apply nft_ite _ _ _ (nf_data_processing _ _)
  exact hd

theorem line_ne_empty (t : String) (h : is_instruction_line t) : t ≠ "" := by
  obtain ⟨mnem, ops, k, hm, -, -, -, ht⟩ := h
  rw [ht, String.append_assoc]
  exact append_ne_empty_left _ _ hm.1

theorem default_dump_ne_empty (hexpfx : String) (w : Nat) : default_dump hexpfx w ≠ "" := by
  unfold default_dump
  rw [String.append_assoc]
  exact append_ne_empty_left _ _ (by decide)

/-- C27: for every 32-bit word and every address, decoding with no callback
(in a build without the VFP decoder) leaves a non-empty line that is either
exactly the default dump of the word, or an uppercase mnemonic followed only by
spaces up to a field of at least 16 characters and then a non-empty operand
text; the line contains no terminator, so the C string read from the buffer
that was pre-filled with the default dump is exactly the decoded text, with
nothing of the dump after it. -/
theorem decoded_line_well_formed (hexpfx : String) (w a : Nat) (buf : List Char)
    (hw : w < 2 ^ 32) (hnul : nul_free hexpfx) :
    (disass hexpfx none w a none).text ≠ "" ∧
    ((disass hexpfx none w a none).text = default_dump hexpfx w ∨
      is_instruction_line (disass hexpfx none w a none).text) ∧
    c_string (buffer_write (buffer_write buf (default_dump hexpfx w))
      (disass hexpfx none w a none).text) = (disass hexpfx none w a none).text := by
  have hl := line_disass hexpfx w a
  rw [Nat.mod_eq_of_lt hw] at hl
  refine ⟨?_, hl, c_string_buffer_write _ _ (nf_disass hexpfx w a hnul)⟩
  rcases hl with hl | hl
  · rw [hl]
    exact default_dump_ne_empty _ _
  · exact line_ne_empty _ hl

theorem decoded_line_well_formed_witness :
    (disass "0x" none 0xE3A01005 0 none).text ≠ "" ∧
    ((disass "0x" none 0xE3A01005 0 none).text = default_dump "0x" 0xE3A01005 ∨
      is_instruction_line (disass "0x" none 0xE3A01005 0 none).text) ∧
    c_string (buffer_write (buffer_write [] (default_dump "0x" 0xE3A01005))
      (disass "0x" none 0xE3A01005 0 none).text) = (disass "0x" none 0xE3A01005 0 none).text :=
  decoded_line_well_formed "0x" 0xE3A01005 0 [] (by decide) (by decide)

/-! ## First match in the dispatcher: BX and BLX (register) -/

/-- A BX / BLX (register) word reaches the BX/BLX decoder. -/
theorem disass_of_bx_blx_reg (hexpfx : String) (vfp : Option vfp_decoder)
    (w a : Nat) (cb : Option dis_cb_fn) (hw : w < 2 ^ 32)
    (hb : w &&& 0x0ffffff0 = 0x012fff10 ∨ w &&& 0x0ffffff0 = 0x012fff30) :
    disass hexpfx vfp w a cb = disass_bx_blx_reg w := by
  have h1 : ¬ (w &&& 0xfe000000 = 0xfa000000) := by
    rcases hb with hb | hb <;> exact fun h => absurd (mask_conflict hb h) (by decide)
  simp only [disass, Nat.mod_eq_of_lt hw]
  rw [if_neg h1, if_pos hb]

theorem fcn_append (d : Char) (t s : String) (h : first_char_ne d t) :
    first_char_ne d (t ++ s) := by
  unfold first_char_ne at h ⊢
  rw [String.data_append]
  cases ht : t.data with
  | nil => simp [ht] at h
  | cons c l =>
    rw [ht] at h
    simpa using h

theorem fcn_ite (d : Char) (c : Prop) [Decidable c] (A B : String)
    (hA : first_char_ne d A) (hB : first_char_ne d B) :
    first_char_ne d (if c then A else B) := by
  split_ifs
  · exact hA
  · exact hB

theorem fcn_emit (d : Char) (base : String) (cond : Nat) (h : first_char_ne d base) :
    first_char_ne d (emit_mnemonic "" base cond) := by
  rw [emit_mnemonic, emit_mnemonic_with_suffix_eq, string_empty_append]
  exact fcn_append _ _ _ (fcn_append _ _ _ (fcn_append _ _ _ h))

theorem fcr_ite (d : Char) (c : Prop) [Decidable c] (A B : Result)
    (hA : first_char_ne d A.text) (hB : first_char_ne d B.text) :
    first_char_ne d (if c then A else B).text := by
  split_ifs
  · exact hA
  · exact hB

theorem text_ne_of_first_char (d : Char) (t u : String) (ht : first_char_ne d t)
    (hu : u.data.head? = some d) : t ≠ u := by
  intro h
  rw [h] at ht
  exact ht.2 hu

theorem fcn_bx_blx_reg (d : Char) (w : Nat) (hd : first_char_ne d "B") :
    first_char_ne d (disass_bx_blx_reg w).text := by
  have h1 : first_char_ne d "BX" := hd
  have h2 : first_char_ne d "BLX" := hd
  simp only [disass_bx_blx_reg, append_str, append_reg]
  exact fcn_append _ _ _ (fcn_emit _ _ _ (by split_ifs <;> assumption))

theorem fcn_msr (d : Char) (hexpfx : String) (w : Nat) (hd : first_char_ne d "MSR") :
    first_char_ne d (disass_msr hexpfx w).text := by
  simp only [disass_msr, append_immediate, append_str, append_reg]
  with_reducible repeat' first
    | exact fcn_emit _ _ _ hd
    | apply fcr_ite
    | apply fcn_ite
    | apply fcn_append

theorem fcn_data_processing (d : Char) (w pc : Nat) (cb : Option dis_cb_fn)
    (hm : first_char_ne d
      (if BITS w 24 21 ≥ 8 ∧ BITS w 24 21 ≤ 11 then dp_opnames.getD (BITS w 24 21) ""
       else if BITS w 20 20 ≠ 0 then dp_opnames.getD (BITS w 24 21) "" ++ "S"
       else dp_opnames.getD (BITS w 24 21) "")) :
    first_char_ne d (disass_data_processing w pc cb).text := by
  simp only [disass_data_processing, decode_shifted_reg, append_str, append_reg]
  with_reducible repeat' first
    | exact fcn_emit _ _ _ hm
    | apply fcr_ite
    | apply fcn_ite
    | apply fcn_append

theorem dp_mnemonic_first_char (w : Nat) :
    first_char_ne 'D'
      (if BITS w 24 21 ≥ 8 ∧ BITS w 24 21 ≤ 11 then dp_opnames.getD (BITS w 24 21) ""
       else if BITS w 20 20 ≠ 0 then dp_opnames.getD (BITS w 24 21) "" ++ "S"
       else dp_opnames.getD (BITS w 24 21) "") := by
  have h1 : BITS w 24 21 < 16 := BITS_lt w 24 21
  generalize BITS w 24 21 = op at h1 ⊢
  interval_cases op <;> split_ifs <;> decide

theorem fcn_single_data_transfer (hexpfx : String) (w pc : Nat) (cb : Option dis_cb_fn) :
    first_char_ne 'D' (disass_single_data_transfer hexpfx w pc cb).text := by
  simp only [disass_single_data_transfer, append_sp_hex_comment, append_hex_comment_for_offset,
    append_signed_decimal, append_offset_decimal_naked, append_str, append_reg]
  with_reducible repeat' first
    | exact fcn_emit _ _ _ (by split_ifs <;> decide)
    | apply fcr_ite
    | apply fcn_ite
    | apply fcn_append

theorem fcn_branch (hexpfx : String) (w pc : Nat) (cb : Option dis_cb_fn) :
    first_char_ne 'D' (disass_branch hexpfx w pc cb).text := by
  simp only [disass_branch]
  with_reducible repeat' first
    | exact fcn_emit _ _ _ (by split_ifs <;> decide)
    | apply fcr_ite
    | apply fcn_ite
    | apply fcn_append

theorem fcn_swi (hexpfx : String) (w : Nat) :
    first_char_ne 'D' (disass_swi hexpfx w).text := by
  simp only [disass_swi]
  with_reducible repeat' first
    | exact fcn_emit _ _ _ (by decide)
    | apply fcr_ite
    | apply fcn_ite
    | apply fcn_append

theorem fcn_swp (w : Nat) : first_char_ne 'D' (disass_swp w).text := by
  simp only [disass_swp, append_str, append_reg]
  with_reducible repeat' first
    | exact fcn_emit _ _ _ (by split_ifs <;> decide)
    | apply fcr_ite
    | apply fcn_ite
    | apply fcn_append

theorem fcn_clz (w : Nat) : first_char_ne 'D' (disass_clz w).text := by
  simp only [disass_clz, append_str, append_reg]
  with_reducible repeat' first
    | exact fcn_emit _ _ _ (by decide)
    | apply fcr_ite
    | apply fcn_ite
    | apply fcn_append

theorem fcn_mrs (w : Nat) : first_char_ne 'D' (disass_mrs w).text := by
  simp only [disass_mrs, append_str, append_reg]
  with_reducible repeat' first
    | exact fcn_emit _ _ _ (by decide)
    | apply fcr_ite
    | apply fcn_ite
    | apply fcn_append

theorem fcn_multiply (w : Nat) : first_char_ne 'D' (disass_multiply w).text := by
  simp only [disass_multiply, append_str, append_reg]
  with_reducible repeat' first
    | exact fcn_emit _ _ _ (by split_ifs <;> decide)
    | apply fcr_ite
    | apply fcn_ite
    | apply fcn_append

theorem fcn_long_multiply (w : Nat) : first_char_ne 'D' (disass_long_multiply w).text := by
  simp only [disass_long_multiply, append_str, append_reg]
  with_reducible repeat' first
    | exact fcn_emit _ _ _ (by split_ifs <;> decide)
    | apply fcr_ite
    | apply fcn_ite
    | apply fcn_append

theorem fcn_block_data_transfer (w : Nat) : first_char_ne 'D' (disass_block_data_transfer w).text := by
  simp only [disass_block_data_transfer, append_str, append_reg]
  rw [append_reglist_append]
  with_reducible repeat' first
    | exact fcn_emit _ _ _ (by split_ifs <;> decide)
    | apply fcr_ite
    | apply fcn_ite
    | apply fcn_append

theorem line_text_ite (c : Prop) [Decidable c] (A B : Result)
    (hA : is_instruction_line A.text) (hB : is_instruction_line B.text) :
    is_instruction_line (if c then A else B).text := by
  split_ifs
  · exact hA
  · exact hB

/-- A word that passes the dispatcher's halfword test is never refused by the
halfword decoder: whatever the buffer held, the result is an STRH or LDRH
line. -/
theorem halfword_not_refused (hexpfx : String) (w : Nat) (out : String)
    (hb : w &&& 0x0E0000F0 = 0x000000B0) :
    is_instruction_line (disass_halfword_signed_transfer hexpfx w out).text ∧
      first_char_ne 'D' (disass_halfword_signed_transfer hexpfx w out).text := by
  have hsh := halfword_test_subtype w hb
  have hbase : (if BITS w 20 20 = 0 ∧ BITS w 6 5 = 1 then some "STRH"
      else if BITS w 20 20 ≠ 0 ∧ BITS w 6 5 = 1 then some "LDRH"
      else if BITS w 20 20 ≠ 0 ∧ BITS w 6 5 = 2 then some "LDRSB"
      else if BITS w 20 20 ≠ 0 ∧ BITS w 6 5 = 3 then some "LDRSH"
      else none : Option String)
      = some (if BITS w 20 20 = 0 then "STRH" else "LDRH") := by
    by_cases hL : BITS w 20 20 = 0
    · rw [if_pos ⟨hL, hsh⟩, if_pos hL]
    · rw [if_neg (fun h => hL h.1), if_pos ⟨hL, hsh⟩, if_neg hL]
  simp only [disass_halfword_signed_transfer, append_immediate, append_str, append_reg]
  rw [hbase]
  simp only []
  constructor
  · with_reducible repeat' first
      | exact line_start _ _ _ (by split_ifs <;> decide) (regname_ne_empty _)
      | apply line_text_ite
      | apply line_ite
      | apply line_append
  · with_reducible repeat' first
      | exact fcn_emit _ _ _ (by split_ifs <;> decide)
      | apply fcr_ite
      | apply fcn_ite
      | apply fcn_append

theorem head_emit_append (base rest : String) (cond : Nat) (c : Char)
    (hb : base.data.head? = some c) :
    (emit_mnemonic "" base cond ++ rest).data.head? = some c := by
  rw [emit_mnemonic, emit_mnemonic_with_suffix_eq, string_empty_append]
  simp only [String.data_append, List.append_assoc]
  cases hd : base.data with
  | nil => simp [hd] at hb
  | cons x l =>
    rw [hd] at hb
    simpa using hb

/-- C32: a BX / BLX (register) word, which also satisfies the later MSR and
data-processing tests of the dispatcher, is rendered by the first matching
decoder: the mnemonic BX (bit 5 clear) or BLX (bit 5 set) with its condition
suffix, padded to the mnemonic field, followed by exactly the name of Rm (bits
3:0), with no callback invocation; the text differs from what the MSR decoder
and the data-processing decoder make of the word. -/
theorem bx_blx_first_match (hexpfx : String) (vfp : Option vfp_decoder)
    (w a : Nat) (cb : Option dis_cb_fn) (hw : w < 2 ^ 32)
    (hb : w &&& 0x0FFFFFF0 = 0x012FFF10 ∨ w &&& 0x0FFFFFF0 = 0x012FFF30) :
    (w &&& 0x0db0f000 = 0x0120f000 ∧ w &&& 0x0C000000 = 0x00000000) ∧
    (BITS w 5 5 = 1 ↔ w &&& 0x0FFFFFF0 = 0x012FFF30) ∧
    disass hexpfx vfp w a cb =
      ⟨emit_mnemonic "" (if BITS w 5 5 = 1 then "BLX" else "BX") (BITS w 31 28)
        ++ fallback_regname (BITS w 3 0), []⟩ ∧
    first_token (disass hexpfx vfp w a cb).text =
      (if BITS w 5 5 = 1 then "BLX" else "BX")
        ++ (if BITS w 31 28 = 14 then "" else cond_codes.getD (BITS w 31 28) "") ∧
    (disass hexpfx vfp w a cb).text ≠ (disass_msr hexpfx w).text ∧
    (disass hexpfx vfp w a cb).text ≠ (disass_data_processing w (a % 2 ^ 32) cb).text := by
  have hmsr : w &&& 0x0db0f000 = 0x0120f000 := by
    rcases hb with hb | hb
    · exact and_submask hb 0x0db0f000
    · exact and_submask hb 0x0db0f000
  have hdp : w &&& 0x0C000000 = 0x00000000 := by
    rcases hb with hb | hb
    · exact and_submask hb 0x0C000000
    · exact and_submask hb 0x0C000000
  have hop : BITS w 24 21 = 9 := by
    refine (shift_and_eq_iff w 21 15 9).mpr ?_
    rcases hb with hb | hb
    · exact and_submask hb 0x01E00000
    · exact and_submask hb 0x01E00000
  have h5 : BITS w 5 5 = 1 ↔ w &&& 0x0FFFFFF0 = 0x012FFF30 := by
    constructor
    · intro h
      have h20 : w &&& 0x20 = 0x20 := (shift_and_eq_iff w 5 1 1).mp h
      rcases hb with hb | hb
      · exact absurd (mask_conflict hb h20) (by decide)
      · exact hb
    · intro h
      exact (shift_and_eq_iff w 5 1 1).mpr (and_submask h 0x20)
  have hlink : (w &&& 0x20 ≠ 0) ↔ BITS w 5 5 = 1 := by
    rw [← bit_ne_zero_iff]
    constructor
    · intro h h0
      exact h ((shift_and_eq_iff w 5 1 0).mp h0)
    · intro h h0
      exact h ((shift_and_eq_iff w 5 1 0).mpr h0)
  have hres : disass hexpfx vfp w a cb =
      ⟨emit_mnemonic "" (if BITS w 5 5 = 1 then "BLX" else "BX") (BITS w 31 28)
        ++ fallback_regname (BITS w 3 0), []⟩ := by
    rw [disass_of_bx_blx_reg hexpfx vfp w a cb hw hb]
    simp only [disass_bx_blx_reg, append_str, append_reg, hlink]
  have hhead : (disass hexpfx vfp w a cb).text.data.head? = some 'B' := by
    rw [hres]
    exact head_emit_append _ _ _ 'B' (by split_ifs <;> rfl)
  refine ⟨⟨hmsr, hdp⟩, h5, hres, ?_, ?_, ?_⟩
  · rw [hres]
    exact first_token_emit_mnemonic _ _ _ (by split_ifs <;> decide) (cond_codes_no_space _)
  · exact (text_ne_of_first_char 'B' _ _ (fcn_msr 'B' hexpfx w (by decide)) hhead).symm
  · refine (text_ne_of_first_char 'B' _ _ (fcn_data_processing 'B' w _ cb ?_) hhead).symm
    rw [hop, if_pos (by decide)]
    decide

theorem bx_blx_first_match_witness :
    (0xE12FFF1E &&& 0x0db0f000 = 0x0120f000 ∧ 0xE12FFF1E &&& 0x0C000000 = 0x00000000) ∧
    (disass "0x" none 0xE12FFF1E 0 none).text = "BX              lr" ∧
    (disass "0x" none 0xE12FFF1E 0 none).text ≠ (disass_msr "0x" 0xE12FFF1E).text :=
  have h := bx_blx_first_match "0x" none 0xE12FFF1E 0 none (by decide) (by decide)
  ⟨h.1, by decide, h.2.2.2.2.1⟩

/-! ## When the default dump is left -/

/-- The coprocessor space (bits 27:26 = 11, bits 27:24 not 1111) is where the
last five tests of the dispatcher all fail. -/
theorem coproc_iff_last_tests_fail (w : Nat) :
    (BITS w 27 26 = 3 ∧ BITS w 27 24 ≠ 15) ↔
      (¬ (w &&& 0x0E000000 = 0x0A000000) ∧ ¬ (w &&& 0x0F000000 = 0x0F000000) ∧
        ¬ (w &&& 0x0C000000 = 0x04000000) ∧ ¬ (w &&& 0x0E000000 = 0x08000000) ∧
        ¬ (w &&& 0x0C000000 = 0x00000000)) := by
  have hk : w &&& 0x0F000000 = BITS w 27 24 <<< 24 := (shift_and_eq_iff w 24 15 _).mp rfl
  have h26 : BITS w 27 26 = 3 ↔ w &&& 0x0C000000 = 0x0C000000 := shift_and_eq_iff w 26 3 3
  have hE : w &&& 0x0E000000 = (BITS w 27 24 <<< 24) &&& 0x0E000000 := and_submask hk 0x0E000000
  have hC : w &&& 0x0C000000 = (BITS w 27 24 <<< 24) &&& 0x0C000000 := and_submask hk 0x0C000000
  have hlt : BITS w 27 24 < 16 := BITS_lt w 27 24
  rw [h26, hE, hC, hk]
  generalize BITS w 27 24 = k at hlt ⊢
  interval_cases k <;> decide

theorem not_coproc_of_test {w m p : Nat} (hm : w &&& m = p)
    (hconf : p &&& 0x0C000000 ≠ 0x0C000000 &&& m) :
    ¬ (BITS w 27 26 = 3 ∧ BITS w 27 24 ≠ 15) := by
  intro h
  exact hconf (mask_conflict hm ((shift_and_eq_iff w 26 3 3).mp h.1))

theorem default_dump_head (hexpfx : String) (w : Nat) :
    (default_dump hexpfx w).data.head? = some 'D' := by
  unfold default_dump
  simp only [String.data_append, List.append_assoc]
  rfl

theorem calls_ite (c : Prop) [Decidable c] (A B : Result)
    (hA : A.calls = []) (hB : B.calls = []) : (if c then A else B).calls = [] := by
  split_ifs
  · exact hA
  · exact hB

theorem no_callback_no_calls (hexpfx : String) (w a : Nat) :
    (disass hexpfx none w a none).calls = [] := by
  simp only [disass, disass_bx_blx_reg, disass_swp, disass_clz, disass_mrs, disass_msr,
    disass_multiply, disass_long_multiply, disass_halfword_signed_transfer, disass_branch,
    disass_swi, disass_single_data_transfer, disass_block_data_transfer,
    disass_data_processing, Option.isSome_none, Bool.false_eq_true, and_false, false_and,
    if_false]
  repeat' first
    | rfl
    | apply calls_ite
    | split

theorem default_dump_iff (hexpfx : String) (w a : Nat) (cb : Option dis_cb_fn)
    (hw : w < 2 ^ 32) :
    (disass hexpfx none w a cb).text = default_dump hexpfx w ↔
      (w &&& 0xFE000000 = 0xFA000000 ∨ (BITS w 27 26 = 3 ∧ BITS w 27 24 ≠ 15)) := by
  have hd := default_dump_head hexpfx w
  have hco := coproc_iff_last_tests_fail w
  simp only [disass, Nat.mod_eq_of_lt hw]
  by_cases h1 : w &&& 0xfe000000 = 0xfa000000
  · rw [if_pos h1]
    exact iff_of_true rfl (Or.inl h1)
  rw [if_neg h1]
  by_cases h2 : w &&& 0x0ffffff0 = 0x012fff10 ∨ w &&& 0x0ffffff0 = 0x012fff30
  · rw [if_pos h2]
    refine iff_of_false
      (text_ne_of_first_char 'D' _ _ (fcn_bx_blx_reg 'D' w (by decide)) hd) ?_
    rintro (h | h)
    · exact h1 h
    · rcases h2 with h2 | h2 <;> exact not_coproc_of_test h2 (by decide) h
  rw [if_neg h2]
  by_cases h3 : w &&& 0x0fb00ff0 = 0x01000090
  · rw [if_pos h3]
    exact iff_of_false (text_ne_of_first_char 'D' _ _ (fcn_swp w) hd)
      (fun h => h.elim h1 (not_coproc_of_test h3 (by decide)))
  rw [if_neg h3]
  by_cases h4 : w &&& 0x0fff0ff0 = 0x016f0f10
  · rw [if_pos h4]
    exact iff_of_false (text_ne_of_first_char 'D' _ _ (fcn_clz w) hd)
      (fun h => h.elim h1 (not_coproc_of_test h4 (by decide)))
  rw [if_neg h4]
  by_cases h5 : w &&& 0x0fbf0fff = 0x010f0000
  · rw [if_pos h5]
    exact iff_of_false (text_ne_of_first_char 'D' _ _ (fcn_mrs w) hd)
      (fun h => h.elim h1 (not_coproc_of_test h5 (by decide)))
  rw [if_neg h5]
  by_cases h6 : w &&& 0x0db0f000 = 0x0120f000
  · rw [if_pos h6]
    exact iff_of_false (text_ne_of_first_char 'D' _ _ (fcn_msr 'D' hexpfx w (by decide)) hd)
      (fun h => h.elim h1 (not_coproc_of_test h6 (by decide)))
  rw [if_neg h6]
  by_cases h7 : w &&& 0x0FC000F0 = 0x00000090 ∨ w &&& 0x0FC000F0 = 0x00200090
  · rw [if_pos h7]
    refine iff_of_false (text_ne_of_first_char 'D' _ _ (fcn_multiply w) hd) ?_
    rintro (h | h)
    · exact h1 h
    · rcases h7 with h7 | h7 <;> exact not_coproc_of_test h7 (by decide) h
  rw [if_neg h7]
  by_cases h8 : w &&& 0x0F8000F0 = 0x00800090
  · rw [if_pos h8]
    exact iff_of_false (text_ne_of_first_char 'D' _ _ (fcn_long_multiply w) hd)
      (fun h => h.elim h1 (not_coproc_of_test h8 (by decide)))
  rw [if_neg h8]
  by_cases h9 : w &&& 0x0E0000F0 = 0x000000B0
  · rw [if_pos h9]
    exact iff_of_false
      (text_ne_of_first_char 'D' _ _ (halfword_not_refused hexpfx w _ h9).2 hd)
      (fun h => h.elim h1 (not_coproc_of_test h9 (by decide)))
  rw [if_neg h9]
  by_cases h10 : w &&& 0x0E000000 = 0x0A000000
  · rw [if_pos h10]
    exact iff_of_false (text_ne_of_first_char 'D' _ _ (fcn_branch hexpfx w _ cb) hd)
      (fun h => h.elim h1 (fun hc => (hco.mp hc).1 h10))
  rw [if_neg h10]
  by_cases h11 : w &&& 0x0F000000 = 0x0F000000
  · rw [if_pos h11]
    exact iff_of_false (text_ne_of_first_char 'D' _ _ (fcn_swi hexpfx w) hd)
      (fun h => h.elim h1 (fun hc => (hco.mp hc).2.1 h11))
  rw [if_neg h11]
  by_cases h12 : w &&& 0x0C000000 = 0x04000000
  · rw [if_pos h12]
    exact iff_of_false
      (text_ne_of_first_char 'D' _ _ (fcn_single_data_transfer hexpfx w _ cb) hd)
      (fun h => h.elim h1 (fun hc => (hco.mp hc).2.2.1 h12))
  rw [if_neg h12]
  by_cases h13 : w &&& 0x0E000000 = 0x08000000
  · rw [if_pos h13]
    exact iff_of_false (text_ne_of_first_char 'D' _ _ (fcn_block_data_transfer w) hd)
      (fun h => h.elim h1 (fun hc => (hco.mp hc).2.2.2.1 h13))
  rw [if_neg h13]
  by_cases h14 : w &&& 0x0C000000 = 0x00000000
  · rw [if_pos h14]
    exact iff_of_false
      (text_ne_of_first_char 'D' _ _
        (fcn_data_processing 'D' w _ cb (dp_mnemonic_first_char w)) hd)
      (fun h => h.elim h1 (fun hc => (hco.mp hc).2.2.2.2 h14))
  rw [if_neg h14]
  exact iff_of_true rfl (Or.inr (hco.mpr ⟨h10, h11, h12, h13, h14⟩))

/-- C33: without the VFP decoder and with no callback, the output of `disass`
is exactly the default dump if and only if the word is a BLX-immediate word or
lies in the coprocessor space (bits 27:26 = 11, bits 27:24 not 1111); every
other word is rendered as an instruction line of a family decoder; and a word
that passes the dispatcher's halfword test is never refused by the halfword
decoder, whatever the buffer held, so its refusal is not reached through
`disass`. -/
theorem default_dump_exactly_when_unclaimed (hexpfx : String) (w a : Nat)
    (hw : w < 2 ^ 32) :
    ((disass hexpfx none w a none).text = default_dump hexpfx w ↔
      (w &&& 0xFE000000 = 0xFA000000 ∨ (BITS w 27 26 = 3 ∧ BITS w 27 24 ≠ 15))) ∧
    (default_dump hexpfx w = "DCD      " ++ hexpfx ++ fmtHexPad 8 w ∧
      (fmtHexPad 8 w).length = 8 ∧
      ∀ c ∈ (fmtHexPad 8 w).data, c ∈ "0123456789ABCDEF".data) ∧
    (¬ (w &&& 0xFE000000 = 0xFA000000 ∨ (BITS w 27 26 = 3 ∧ BITS w 27 24 ≠ 15)) →
      is_instruction_line (disass hexpfx none w a none).text ∧
        (disass hexpfx none w a none).calls = []) ∧
    (w &&& 0x0E0000F0 = 0x000000B0 →
      ∀ out : String, is_instruction_line (disass_halfword_signed_transfer hexpfx w out).text)
    := by
  have hiff := default_dump_iff hexpfx w a none hw
  refine ⟨hiff, ⟨rfl, fmtHexPad_length 8 w (by decide) (by omega), fmtHexPad_chars 8 w⟩, ?_,
    fun hb out => (halfword_not_refused hexpfx w out hb).1⟩
  intro hn
  have hne : (disass hexpfx none w a none).text ≠ default_dump hexpfx w := fun h => hn (hiff.mp h)
  have hl := line_disass hexpfx w a
  rw [Nat.mod_eq_of_lt hw] at hl
  refine ⟨?_, ?_⟩
  · rcases hl with hl | hl
    · exact absurd hl hne
    · exact hl
  · exact no_callback_no_calls hexpfx w a

theorem default_dump_exactly_when_unclaimed_witness :
    ((disass "0x" none 0xEE000000 0 none).text = default_dump "0x" 0xEE000000 ↔
      (0xEE000000 &&& 0xFE000000 = 0xFA000000 ∨
        (BITS 0xEE000000 27 26 = 3 ∧ BITS 0xEE000000 27 24 ≠ 15))) ∧
    (disass "0x" none 0xEE000000 0 none).text = "DCD      0xEE000000" :=
  ⟨(default_dump_exactly_when_unclaimed "0x" 0xEE000000 0 (by decide)).1, by decide⟩

/-! ## Register lists can be read back -/

theorem expand_reglist_example : expand_reglist (append_reglist "" 0x0127) = some 0x0127 := by
  decide

theorem split_on_none (d : Char) (x : List Char) (h : d ∉ x) : split_on d x = [x] := by
  induction x with
  | nil => rfl
  | cons c cs ih =>
    have hc : c ≠ d := fun hh => h (hh ▸ List.mem_cons_self c cs)
    have hcs : d ∉ cs := fun hh => h (List.mem_cons_of_mem c hh)
    simp only [split_on, hc, if_false, ih hcs]

theorem split_on_append (d : Char) (x rest : List Char) (h : d ∉ x) :
    split_on d (x ++ d :: rest) = x :: split_on d rest := by
  induction x with
  | nil => simp only [List.nil_append, split_on, if_true]
  | cons c cs ih =>
    have hc : c ≠ d := fun hh => h (hh ▸ List.mem_cons_self c cs)
    have hcs : d ∉ cs := fun hh => h (List.mem_cons_of_mem c hh)
    rw [List.cons_append]
    simp only [split_on, hc, if_false, ih hcs]

theorem comma_tail_data (b : String) (l : List String) :
    (comma_tail (b :: l)).data = ',' :: ' ' :: (b.data ++ (comma_tail l).data) := by
  simp only [comma_tail, String.data_append]
  rfl

theorem split_on_comma_tail :
    ∀ (l : List String) (x : List Char), ',' ∉ x → (∀ a ∈ l, ',' ∉ a.data) →
      split_on ',' (x ++ (comma_tail l).data) = x :: l.map (fun a => ' ' :: a.data) := by
  intro l
  induction l with
  | nil =>
    intro x hx _
    have : (comma_tail []).data = [] := rfl
    rw [this, List.append_nil, split_on_none _ _ hx]
    rfl
  | cons b l ih =>
    intro x hx hl
    have hb : ',' ∉ b.data := hl b (List.mem_cons_self b l)
    have hb' : ',' ∉ (' ' :: b.data) := by
      intro h
      rcases List.mem_cons.mp h with h | h
      · exact absurd h (by decide)
      · exact hb h
    rw [comma_tail_data, split_on_append _ _ _ hx,
      show ' ' :: (b.data ++ (comma_tail l).data) = (' ' :: b.data) ++ (comma_tail l).data
        from rfl,
      ih (' ' :: b.data) hb' (fun a ha => hl a (List.mem_cons_of_mem b ha))]
    rfl

set_option maxRecDepth 100000 in
/-- Every entry the loop can write is read back as its pair of registers,
with or without the space that follows a comma; it holds no comma and is not
empty. -/
theorem parse_entry_written :
    ∀ s < 16, ∀ e < 16, s ≤ e →
      parse_entry (reglist_entry_written (s, e)).data = some (s, e) ∧
      parse_entry (' ' :: (reglist_entry_written (s, e)).data) = some (s, e) ∧
      ',' ∉ (reglist_entry_written (s, e)).data ∧
      (reglist_entry_written (s, e)).data ≠ [] := by
  intro s hs e he hse
  interval_cases s <;> interval_cases e <;> first
    | exact absurd hse (by decide)
    | decide

theorem parse_entries_spaced :
    ∀ runs : List (Nat × Nat), (∀ se ∈ runs, se.1 ≤ se.2 ∧ se.2 < 16) →
      parse_entries ((runs.map reglist_entry_written).map (fun a => ' ' :: a.data))
        = some runs := by
  intro runs
  induction runs with
  | nil =>
    intro _
    rfl
  | cons se l ih =>
    intro h
    obtain ⟨h1, h2⟩ := h se (List.mem_cons_self se l)
    have hp := (parse_entry_written se.1 (by omega) se.2 h2 h1).2.1
    have hl := ih (fun x hx => h x (List.mem_cons_of_mem se hx))
    simp only [List.map_cons, parse_entries, hl]
    rw [show se = (se.1, se.2) from rfl, hp]

theorem runs_in_range (L : Nat) :
    ∀ se ∈ reglist_runs L 17 0, se.1 ≤ se.2 ∧ se.2 < 16 := by
  intro se hse
  have h := ((reglist_runs_spec L 17 0 (by omega) (by omega) (Or.inl rfl)).1 se.1 se.2).mp hse
  exact ⟨h.2.1, h.2.2.1⟩

/-- The entries of a rendered register list are read back as the pairs the
loop visited. -/
theorem parse_reglist_rendered (L : Nat) :
    parse_reglist (append_reglist "" L).data = some (reglist_runs L 17 0) := by
  have hr := runs_in_range L
  have htext : (append_reglist "" L).data
      = Char.ofNat 123 :: ((", ".intercalate ((reglist_runs L 17 0).map reglist_entry_written)).data
          ++ [Char.ofNat 125]) := by
    unfold append_reglist
    rw [reglist_loop_eq]
    simp only [if_true, String.data_append]
    rfl
  generalize reglist_runs L 17 0 = runs at hr htext
  have hhead : (append_reglist "" L).data.head? = some (Char.ofNat 123) := by
    rw [htext]
    rfl
  have htail : (append_reglist "" L).data.tail
      = (", ".intercalate (runs.map reglist_entry_written)).data ++ [Char.ofNat 125] := by
    rw [htext]
    rfl
  unfold parse_reglist
  rw [if_pos ⟨hhead, by rw [htail, List.getLast?_append]; rfl⟩, htail, List.dropLast_concat]
  cases runs with
  | nil =>
    exact if_pos rfl
  | cons se l =>
    obtain ⟨h1, h2⟩ := hr se (List.mem_cons_self se l)
    obtain ⟨hp0, -, hc0, hne⟩ := parse_entry_written se.1 (by omega) se.2 h2 h1
    have hse : (se.1, se.2) = se := rfl
    rw [hse] at hp0 hc0 hne
    have hl : ∀ a ∈ l.map reglist_entry_written, ',' ∉ a.data := by
      intro a ha
      obtain ⟨x, hx, hxa⟩ := List.mem_map.mp ha
      obtain ⟨hx1, hx2⟩ := hr x (List.mem_cons_of_mem se hx)
      have := (parse_entry_written x.1 (by omega) x.2 hx2 hx1).2.2.1
      rw [← hxa]
      exact this
    rw [List.map_cons, intercalate_cons, String.data_append]
    rw [if_neg (by
      intro h
      exact hne (List.append_eq_nil.mp h).1)]
    rw [split_on_comma_tail _ _ hc0 hl]
    simp only [parse_entries, hp0,
      parse_entries_spaced l (fun x hx => hr x (List.mem_cons_of_mem se hx))]

theorem range_mask_testBit (s e i : Nat) :
    ((((1 <<< (e + 1 - s)) - 1) <<< s).testBit i) = decide (s ≤ i ∧ i ≤ e) := by
  rw [Nat.testBit_shiftLeft, Nat.one_shiftLeft, Nat.testBit_two_pow_sub_one]
  by_cases h1 : s ≤ i
  · by_cases h2 : i ≤ e
    · have h3 : i - s < e + 1 - s := by omega
      simp [h1, h2, h3]
    · have h3 : ¬ (i - s < e + 1 - s) := by omega
      simp [h1, h2, h3]
  · simp [h1]

theorem bits_foldl_testBit (i : Nat) :
    ∀ (runs : List (Nat × Nat)) (acc : Nat),
      (runs.foldl (fun acc se => acc ||| (((1 <<< (se.2 + 1 - se.1)) - 1) <<< se.1)) acc).testBit i
        = (acc.testBit i || runs.any (fun se => decide (se.1 ≤ i ∧ i ≤ se.2))) := by
  intro runs
  induction runs with
  | nil =>
    intro acc
    simp
  | cons se l ih =>
    intro acc
    rw [List.foldl_cons, ih, Nat.testBit_or, range_mask_testBit, List.any_cons, Bool.or_assoc]

theorem left_extent (L : Nat) :
    ∀ i, L.testBit i = true →
      ∃ s, s ≤ i ∧ (∀ j, s ≤ j → j ≤ i → L.testBit j = true) ∧
        (s = 0 ∨ L.testBit (s - 1) = false) := by
  intro i
  induction i with
  | zero =>
    intro h
    exact ⟨0, le_refl _, fun j h1 h2 => by
      have : j = 0 := by omega
      rw [this]
      exact h, Or.inl rfl⟩
  | succ i ih =>
    intro h
    by_cases hi : L.testBit i = true
    · obtain ⟨s, hs, hall, hstart⟩ := ih hi
      refine ⟨s, by omega, fun j h1 h2 => ?_, hstart⟩
      rcases Nat.lt_or_ge j (i + 1) with hj | hj
      · exact hall j h1 (by omega)
      · have : j = i + 1 := by omega
        rw [this]
        exact h
    · refine ⟨i + 1, le_refl _, fun j h1 h2 => ?_, Or.inr ?_⟩
      · have : j = i + 1 := by omega
        rw [this]
        exact h
      · simpa using hi

theorem right_extent (L : Nat) :
    ∀ m i, i + m = 15 → L.testBit i = true →
      ∃ e, i ≤ e ∧ e < 16 ∧ (∀ j, i ≤ j → j ≤ e → L.testBit j = true) ∧
        (e = 15 ∨ L.testBit (e + 1) = false) := by
  intro m
  induction m with
  | zero =>
    intro i hi h
    have h15 : i = 15 := by omega
    refine ⟨15, by omega, by omega, fun j h1 h2 => ?_, Or.inl rfl⟩
    have : j = i := by omega
    rw [this]
    exact h
  | succ m ih =>
    intro i hi h
    by_cases hn : L.testBit (i + 1) = true
    · obtain ⟨e, he, he16, hall, hend⟩ := ih (i + 1) (by omega) hn
      refine ⟨e, by omega, he16, fun j h1 h2 => ?_, hend⟩
      rcases Nat.eq_or_lt_of_le h1 with hj | hj
      · rw [← hj]
        exact h
      · exact hall j (by omega) h2
    · refine ⟨i, le_refl _, by omega, fun j h1 h2 => ?_, Or.inr (by simpa using hn)⟩
      have : j = i := by omega
      rw [this]
      exact h

/-- A register below 16 is in the list exactly when a maximal run covers it. -/
theorem bit_iff_covered (L i : Nat) (hi : i < 16) :
    L.testBit i = true ↔ ∃ s e, is_maximal_run L s e ∧ s ≤ i ∧ i ≤ e := by
  constructor
  · intro h
    obtain ⟨s, hs, hsall, hstart⟩ := left_extent L i h
    obtain ⟨e, he, he16, heall, hend⟩ := right_extent L (15 - i) i (by omega) h
    refine ⟨s, e, ⟨by omega, he16, fun j _ h1 h2 => ?_, hstart, hend⟩, hs, he⟩
    rcases Nat.lt_or_ge j i with hj | hj
    · exact hsall j h1 (by omega)
    · exact heall j hj h2
  · rintro ⟨s, e, ⟨-, he16, hall, -, -⟩, hs, he⟩
    exact hall i hi hs he

/-- The pairs the loop visits cover exactly the bits of a 16-bit list. -/
theorem bits_of_runs_rendered (L : Nat) (hL : L < 2 ^ 16) :
    bits_of_runs (reglist_runs L 17 0) = L := by
  have hspec := (reglist_runs_spec L 17 0 (by omega) (by omega) (Or.inl rfl)).1
  apply Nat.eq_of_testBit_eq
  intro i
  unfold bits_of_runs
  rw [bits_foldl_testBit, Nat.zero_testBit, Bool.false_or]
  rcases Nat.lt_or_ge i 16 with hi | hi
  · by_cases hb : L.testBit i = true
    · rw [hb, List.any_eq_true]
      obtain ⟨s, e, hm, hs, he⟩ := (bit_iff_covered L i hi).mp hb
      exact ⟨(s, e), (hspec s e).mpr ⟨Nat.zero_le _, hm⟩, by simp [hs, he]⟩
    · have hb' : L.testBit i = false := by simpa using hb
      rw [hb']
      apply Bool.eq_false_iff.mpr
      intro hany
      obtain ⟨se, hse, hcov⟩ := List.any_eq_true.mp hany
      have hm := ((hspec se.1 se.2).mp hse).2
      have hc : se.1 ≤ i ∧ i ≤ se.2 := by simpa using hcov
      exact hb ((bit_iff_covered L i hi).mpr ⟨se.1, se.2, hm, hc.1, hc.2⟩)
  · have hb : L.testBit i = false :=
      Nat.testBit_eq_false_of_lt (lt_of_lt_of_le hL (Nat.pow_le_pow_right (by norm_num) hi))
    rw [hb]
    apply Bool.eq_false_iff.mpr
    intro hany
    obtain ⟨se, hse, hcov⟩ := List.any_eq_true.mp hany
    have hm := ((hspec se.1 se.2).mp hse).2
    have hc : se.1 ≤ i ∧ i ≤ se.2 := by simpa using hcov
    have := hm.2.1
    omega

theorem expand_reglist_rendered (L : Nat) (hL : L < 2 ^ 16) :
    expand_reglist (append_reglist "" L) = some L := by
  unfold expand_reglist
  rw [parse_reglist_rendered, Option.map_some', bits_of_runs_rendered L hL]

theorem string_append_left_cancel (p a b : String) (h : p ++ a = p ++ b) : a = b := by
  have := congrArg String.data h
  rw [String.data_append, String.data_append] at this
  exact String.ext (List.append_cancel_left this)

/-- C34: register-list rendering is injective on 16-bit lists: expanding
every `a-b` range and name of the rendered text recovers exactly the set bits
of the list, so two lists that render to the same text (after any text already
in the buffer) are equal. -/
theorem register_list_injective (p : String) (L1 L2 : Nat) (h1 : L1 < 2 ^ 16)
    (h2 : L2 < 2 ^ 16) :
    expand_reglist (append_reglist "" L1) = some L1 ∧
    (append_reglist p L1 = append_reglist p L2 → L1 = L2) := by
  refine ⟨expand_reglist_rendered L1 h1, fun h => ?_⟩
  rw [append_reglist_append p L1, append_reglist_append p L2] at h
  have h' := string_append_left_cancel _ _ _ h
  have e1 := expand_reglist_rendered L1 h1
  have e2 := expand_reglist_rendered L2 h2
  rw [h', e2] at e1
  exact (Option.some.inj e1).symm

theorem register_list_injective_witness :
    expand_reglist (append_reglist "" 0x0127) = some 0x0127 ∧
    (append_reglist "" 0x0127 = append_reglist "" 0x0126 → 0x0127 = 0x0126) :=
  register_list_injective "" 0x0127 0x0126 (by decide) (by decide)

end Disass

namespace Unmangle

/-! ## Unmangler -/

theorem deref_append_right (a b : List Char) (j : Nat) :
    deref (a ++ b) (a.length + j) = deref b j := by
  unfold deref
  rw [List.getD_eq_getElem?_getD, List.getD_eq_getElem?_getD,
    List.getElem?_append_right (Nat.le_add_right _ _), Nat.add_sub_cancel_left]

theorem deref_cons_succ (c : Char) (l : List Char) (j : Nat) :
    deref (c :: l) (j + 1) = deref l j := by
  unfold deref
  rfl

theorem deref_cons_zero (c : Char) (l : List Char) : deref (c :: l) 0 = c := rfl

theorem out_sn_take (s : List Char) :
    ∀ (n j rem : Nat) (t : List Char), n < rem → j + n ≤ s.length →
      out_sn ⟨t, rem⟩ s j n = ⟨t ++ (s.drop j).take n, rem - n⟩ := by
  intro n
  induction n with
  | zero =>
    intro j rem t _ _
    simp [out_sn]
  | succ n ih =>
    intro j rem t hr hl
    have hj : j < s.length := by omega
    have h1 : ¬ rem ≤ 1 := by omega
    have h2 : ¬ rem - 1 = 0 := by omega
    simp only [out_sn, out_ch, h1, if_false, h2]
    rw [ih (j + 1) (rem - 1) (t ++ [deref s j]) (by omega) (by omega)]
    have hd : s.drop j = deref s j :: s.drop (j + 1) := by
      rw [List.drop_eq_getElem_cons hj]
      congr 1
      unfold deref
      rw [List.getD_eq_getElem?_getD, List.getElem?_eq_getElem hj]
      rfl
    rw [hd, List.take_succ_cons, List.append_assoc]
    congr 1
    omega

theorem read_digits_run (s : List Char) :
    ∀ (k fuel start : Nat) (val : Int), k ≤ fuel →
      (∀ j < k, (deref s (start + j)).isDigit = true) →
      (deref s (start + k)).isDigit = false →
      (read_digits s fuel start val).2 = start + k := by
  intro k
  induction k with
  | zero =>
    intro fuel start val _ _ hn
    cases fuel with
    | zero => rfl
    | succ f =>
      rw [Nat.add_zero] at hn
      simp only [read_digits, hn, Bool.false_eq_true, if_false, Nat.add_zero]
  | succ k ih =>
    intro fuel start val hf hd hn
    cases fuel with
    | zero => omega
    | succ f =>
      have h0 : (deref s start).isDigit = true := by simpa using hd 0 (by omega)
      simp only [read_digits, h0, if_true]
      rw [ih f (start + 1) _ (by omega)
        (fun j hj => by
          have := hd (j + 1) (by omega)
          rwa [show start + (j + 1) = start + 1 + j by omega] at this)
        (by rwa [show start + (k + 1) = start + 1 + k by omega] at hn)]
      omega

theorem find_sep_bound : ∀ (s : List Char) (i : Nat), find_sep s = some i → i + 2 ≤ s.length
  | [], i, h => by simp [find_sep] at h
  | [_], i, h => by simp [find_sep] at h
  | a :: b :: rest, i, h => by
    unfold find_sep at h
    split_ifs at h with hc
    · have : i = 0 := by simpa using h.symm
      subst this
      simp
    · cases hr : find_sep (b :: rest) with
      | none => simp [hr] at h
      | some j =>
        rw [hr, Option.map_some'] at h
        have hj := find_sep_bound (b :: rest) j hr
        have : i = j + 1 := by simpa using h.symm
        subst this
        simp only [List.length_cons] at hj ⊢
        omega

theorem function_qualifiers_stop (s : List Char) (fuel p : Nat) (c v : Bool)
    (hC : deref s p ≠ 'C') (hV : deref s p ≠ 'V') :
    function_qualifiers s fuel p c v = (c, v, p) := by
  cases fuel with
  | zero => rfl
  | succ f => simp only [function_qualifiers, hC, hV, or_self, if_false]

/-- With no class qualification and no `F` after the function-level
qualifiers, `unmangle2` returns the buffer, which holds the text before the
first `__` only. -/
theorem unmangle2_base_only (fuel size sep p : Nat) (name : String)
    (hsep : find_sep name.data = some sep) (hsize : sep < size)
    (hq : decode_qualifiers name.data (sep + 2) ⟨name.data.take sep, size - sep⟩
      = (0, p, ⟨name.data.take sep, size - sep⟩))
    (hC : deref name.data p ≠ 'C') (hV : deref name.data p ≠ 'V')
    (hF : deref name.data p ≠ 'F') :
    unmangle2 fuel name size = some (String.mk (c_str (name.data.take sep))) := by
  have hb := find_sep_bound _ _ hsep
  have h0 : size ≠ 0 := by omega
  have ho : out_sn (out_init size) name.data 0 sep = ⟨name.data.take sep, size - sep⟩ := by
    have := out_sn_take name.data sep 0 size [] hsize (by omega)
    simpa only [out_init, h0, if_false, List.nil_append, List.drop_zero] using this
  simp only [unmangle2, h0, if_false, hsep, ho, hq, ne_eq, not_true_eq_false,
    function_qualifiers_stop _ _ _ _ _ hC hV, hF]

theorem read_len_not_digit (s : List Char) (p : Nat) (hn : deref s p ≠ 'n')
    (hd : (deref s p).isDigit = false) : read_len s p = (-1, p) := by
  simp only [read_len, hn, decide_False, Bool.false_eq_true, if_false, hd, not_false_eq_true,
    if_true]

theorem read_len_digits (s : List Char) (p k : Nat) (hk : 0 < k) (hlen : p + k ≤ s.length)
    (hd : ∀ j < k, (deref s (p + j)).isDigit = true)
    (hn : (deref s (p + k)).isDigit = false) : (read_len s p).2 = p + k := by
  have h0 : (deref s p).isDigit = true := by simpa using hd 0 hk
  have hnn : deref s p ≠ 'n' := by
    intro h
    rw [h] at h0
    exact absurd h0 (by decide)
  simp only [read_len, hnn, decide_False, Bool.false_eq_true, if_false, h0, not_true_eq_false]
  exact read_digits_run s k s.length p 0 (by omega) hd hn

/-- A `Q`, a run of digits and then a character that is neither a digit nor
`n`: `decode_qualifiers` writes nothing, returns 0 and leaves the cursor at
that character. -/
theorem decode_qualifiers_count_only (s : List Char) (p k : Nat) (o : Out)
    (hQ : deref s p = 'Q') (hk : 0 < k) (hlen : p + 1 + k ≤ s.length)
    (hd : ∀ j < k, (deref s (p + 1 + j)).isDigit = true)
    (hn : (deref s (p + 1 + k)).isDigit = false) (hnn : deref s (p + 1 + k) ≠ 'n') :
    decode_qualifiers s p o = (0, p + 1 + k, o) := by
  have h2 := read_len_digits s (p + 1) k hk hlen hd hn
  have h3 := read_len_not_digit s (p + 1 + k) hnn hn
  simp only [decode_qualifiers, hQ, if_true, h2]
  split_ifs with hle
  · rfl
  · obtain ⟨m, hm⟩ : ∃ m, (read_len s (p + 1)).1.toNat = m + 1 :=
      ⟨(read_len s (p + 1)).1.toNat - 1, by omega⟩
    rw [hm]
    simp only [qualifier_loop, h3, Int.reduceNeg, Left.neg_nonpos_iff, zero_le_one, if_true]

/-- The first example of the header comment: `f__1TFi` is `T::f(int)`. -/
theorem unmangle2_single_level_example : unmangle2 100 "f__1TFi" 256 = some "T::f(int)" := by
  decide

theorem deref_append_left (a b : List Char) (j : Nat) (hj : j < a.length) :
    deref (a ++ b) j ∈ a := by
  unfold deref
  rw [List.getD_eq_getElem?_getD, List.getElem?_append_left hj, List.getElem?_eq_getElem hj]
  exact List.getElem_mem _

theorem decode_qualifiers_none (s : List Char) (p : Nat) (o : Out)
    (hQ : deref s p ≠ 'Q') (hd : (deref s p).isDigit = false) :
    decode_qualifiers s p o = (0, p, o) := by
  simp only [decode_qualifiers, hQ, if_false, hd, Bool.false_eq_true]

/-- C29, as the code has it: a name without `__` is returned unchanged; but
when the text after the first `__` starts with neither a class qualification
(a digit or `Q`) nor a function signature (`C`, `V` or `F`), `unmangle2`
returns the buffer, which holds only the text before that `__`, not the
original name. -/
theorem parse_failure_returns_base_name (fuel size sep : Nat) (name : String)
    (hsep : find_sep name.data = some sep) (hsize : sep < size)
    (hd : (deref name.data (sep + 2)).isDigit = false)
    (hQ : deref name.data (sep + 2) ≠ 'Q') (hC : deref name.data (sep + 2) ≠ 'C')
    (hV : deref name.data (sep + 2) ≠ 'V') (hF : deref name.data (sep + 2) ≠ 'F') :
    unmangle2 fuel name size = some (String.mk (c_str (name.data.take sep))) ∧
    (∀ other : String, find_sep other.data = none → unmangle2 fuel other size = some other) := by
  refine ⟨unmangle2_base_only fuel size sep (sep + 2) name hsep hsize
    (decode_qualifiers_none _ _ _ hQ hd) hC hV hF, ?_⟩
  intro other ho
  simp only [unmangle2, ho]
  split_ifs <;> rfl

theorem parse_failure_returns_base_name_witness :
    unmangle2 0 "a__b" 256 = some "a" ∧ "a" ≠ "a__b" :=
  ⟨(parse_failure_returns_base_name 0 256 1 "a__b" (by decide) (by decide) (by decide)
    (by decide) (by decide) (by decide) (by decide)).1, by decide⟩

/-- C30, as the code has it: for a name of the nested-qualified form
`<name>__Q<n>_<len1><id1>...`, whose first `__` is the one before `Q`,
`unmangle2` (with a buffer longer than `<name>`) returns `<name>` alone: the
`_` after the count ends `decode_qualifiers` with nothing written, and the
signature is never decoded. -/
theorem nested_qualified_name_returns_base (fuel size : Nat) (base digits rest : String)
    (hsep : find_sep (base ++ "__Q" ++ digits ++ "_" ++ rest).data = some base.length)
    (hne : digits ≠ "") (hdig : ∀ c ∈ digits.data, c.isDigit = true)
    (hsize : base.length < size) :
    unmangle2 fuel (base ++ "__Q" ++ digits ++ "_" ++ rest) size
      = some (String.mk (c_str base.data)) := by
  have hs : (base ++ "__Q" ++ digits ++ "_" ++ rest).data
      = base.data ++ ('_' :: '_' :: 'Q' :: (digits.data ++ '_' :: rest.data)) := by
    simp only [String.data_append, List.append_assoc]
    rfl
  have hL : base.length = base.data.length := rfl
  have hk : 0 < digits.data.length := by
    rcases Nat.eq_zero_or_pos digits.data.length with h | h
    · exact absurd (String.ext (List.length_eq_zero.mp h)) hne
    · exact h
  have hat : ∀ j, deref (base ++ "__Q" ++ digits ++ "_" ++ rest).data (base.length + 2 + 1 + j)
      = deref (digits.data ++ '_' :: rest.data) j := by
    intro j
    rw [hs, hL, show base.data.length + 2 + 1 + j = base.data.length + (j + 1 + 1 + 1) by omega,
      deref_append_right, deref_cons_succ, deref_cons_succ, deref_cons_succ]
  have hund : deref (base ++ "__Q" ++ digits ++ "_" ++ rest).data
      (base.length + 2 + 1 + digits.data.length) = '_' := by
    rw [hat]
    have := deref_append_right digits.data ('_' :: rest.data) 0
    rw [Nat.add_zero] at this
    rw [this]
    rfl
  have hq := decode_qualifiers_count_only (base ++ "__Q" ++ digits ++ "_" ++ rest).data
    (base.length + 2) digits.data.length
    ⟨(base ++ "__Q" ++ digits ++ "_" ++ rest).data.take base.length, size - base.length⟩
    (by
      rw [hs, hL, deref_append_right]
      rfl)
    hk
    (by
      rw [hs, hL]
      simp only [List.length_append, List.length_cons]
      omega)
    (fun j hj => by
      rw [hat]
      exact hdig _ (deref_append_left _ _ j hj))
    (by
      rw [hund]
      decide)
    (by
      rw [hund]
      decide)
  have h := unmangle2_base_only fuel size base.length (base.length + 2 + 1 + digits.data.length)
    (base ++ "__Q" ++ digits ++ "_" ++ rest) hsep hsize hq
    (by
      rw [hund]
      decide)
    (by
      rw [hund]
      decide)
    (by
      rw [hund]
      decide)
  rw [h, hs, hL, List.take_left']
  rfl

theorem nested_qualified_name_returns_base_witness :
    unmangle2 0 "name__Q2_3Foo3BarFiPc" 256 = some "name" ∧
    "name" ≠ "Foo::Bar::name(int, char*)" :=
  ⟨nested_qualified_name_returns_base 0 256 "name" "2" "3Foo3BarFiPc" (by decide) (by decide)
    (by decide) (by decide), by decide⟩

end Unmangle

namespace Ieeeflt

/-! ## Floating-point comparison -/

/-- C31 against the code: `flt_compare` returns 42 exactly when one of its
arguments is a NaN, and -1, 0 or 1 otherwise; for the quiet NaN
`0x7FF80000_00000000` against zero it returns 42, which is none of -1, 0, 1. -/
theorem flt_compare_nan_evaluated :
    (∀ a1 a2 : DbleBin,
      (flt_compare a1 a2 = 42 ↔ (my_isnan a1 = true ∨ my_isnan a2 = true)) ∧
      (flt_compare a1 a2 = 42 ∨ flt_compare a1 a2 = -1 ∨ flt_compare a1 a2 = 0 ∨
        flt_compare a1 a2 = 1)) ∧
    my_isnan ⟨0x7FF80000, 0⟩ = true ∧
    flt_compare ⟨0x7FF80000, 0⟩ ⟨0, 0⟩ = 42 ∧
    ¬ (flt_compare ⟨0x7FF80000, 0⟩ ⟨0, 0⟩ = -1 ∨ flt_compare ⟨0x7FF80000, 0⟩ ⟨0, 0⟩ = 0 ∨
        flt_compare ⟨0x7FF80000, 0⟩ ⟨0, 0⟩ = 1) := by
  refine ⟨?_, by decide, by decide, by decide⟩
  intro a1 a2
  unfold flt_compare
  by_cases hn : (my_isnan a1 || my_isnan a2) = true
  · rw [if_pos hn]
    exact ⟨iff_of_true rfl (by simpa using hn), Or.inl rfl⟩
  · rw [if_neg hn]
    have hn' : ¬ (my_isnan a1 = true ∨ my_isnan a2 = true) := by simpa using hn
    constructor
    · refine iff_of_false ?_ hn'
      split_ifs <;> decide
    · split_ifs
      · exact Or.inr (Or.inl rfl)
      · exact Or.inr (Or.inr (Or.inr rfl))
      · exact Or.inr (Or.inr (Or.inl rfl))

end Ieeeflt

namespace Fname

/-! ## File names -/

theorem memcpy_from_length (src : Option (List Char)) (m : Nat) :
    (memcpy_from src m).length = m := by
  simp [memcpy_from]

theorem memcpy_from_take (s : List Char) (m : Nat) (h : m ≤ s.length) :
    memcpy_from (some s) m = s.take m := by
  apply List.ext_getElem
  · simp [memcpy_from, h]
  · intro i h1 h2
    have hi : i < m := by simpa [memcpy_from] using h1
    have hs : i < s.length := by omega
    simp [memcpy_from, List.getD_eq_getElem?_getD, List.getElem?_eq_getElem hs,
      List.getElem_take]

/-- What `last_index` returns: the accumulator when no character passes the
test, otherwise the offset of the last character that passes it. -/
theorem last_index_spec (test : Char → Bool) :
    ∀ (l : List Char) (i : Nat) (acc : Option Nat),
      (last_index test l i acc = acc ∧ ∀ c ∈ l, test c = false) ∨
      (∃ j, last_index test l i acc = some (i + j) ∧ j < l.length ∧
        test (l.getD j (Char.ofNat 0)) = true ∧ ∀ c ∈ l.drop (j + 1), test c = false) := by
  intro l
  induction l with
  | nil =>
    intro i acc
    exact Or.inl ⟨rfl, by simp⟩
  | cons c cs ih =>
    intro i acc
    rcases ih (i + 1) (if test c = true then some i else acc) with ⟨h, hall⟩ | ⟨j, h, hj, ht, hall⟩
    · by_cases hc : test c = true
      · refine Or.inr ⟨0, ?_, by simp, by simpa using hc, by simpa using hall⟩
        simp only [hc, if_true] at h
        simp only [last_index, hc, if_true, h, Nat.add_zero]
      · refine Or.inl ⟨?_, ?_⟩
        · simp only [hc, Bool.false_eq_true, if_false] at h
          simp only [last_index, hc, Bool.false_eq_true, if_false, h]
        · intro x hx
          rcases List.mem_cons.mp hx with hx | hx
          · rw [hx]
            simpa using hc
          · exact hall x hx
    · refine Or.inr ⟨j + 1, ?_, by simpa using hj, by simpa using ht, by simpa using hall⟩
      simp only [last_index, h]
      congr 1
      omega

theorem take_dot_drop (l : List Char) (d : Nat) (hd : d < l.length)
    (hdot : l.getD d (Char.ofNat 0) = '.') : l.take d ++ '.' :: l.drop (d + 1) = l := by
  have h1 : l.drop d = l[d] :: l.drop (d + 1) := List.drop_eq_getElem_cons hd
  have h2 : l[d] = '.' := by
    rw [List.getD_eq_getElem?_getD, List.getElem?_eq_getElem hd] at hdot
    exact hdot
  rw [← h2, ← h1, List.take_append_drop]

theorem last_index_some (test : Char → Bool) (l : List Char) (j : Nat)
    (h : last_index test l 0 none = some j) :
    j < l.length ∧ test (l.getD j (Char.ofNat 0)) = true ∧
      ∀ c ∈ l.drop (j + 1), test c = false := by
  rcases last_index_spec test l 0 none with ⟨h', -⟩ | ⟨k, h', hk, ht, hall⟩
  · rw [h'] at h
    exact absurd h (by simp)
  · rw [h', Nat.zero_add] at h
    have : k = j := Option.some.inj h
    subst this
    exact ⟨hk, ht, hall⟩

theorem last_index_none (test : Char → Bool) (l : List Char)
    (h : last_index test l 0 none = none) : ∀ c ∈ l, test c = false := by
  rcases last_index_spec test l 0 none with ⟨-, hall⟩ | ⟨k, h', -⟩
  · exact hall
  · rw [h'] at h
    exact absurd h (by simp)

/-- The fields a leaf is split into: the root is the leaf, and either there is
no extension and the root length is the whole leaf, or the root length is the
offset of a dot that is neither first nor last in the leaf and the extension
is what follows it. -/
theorem split_shape (leaf : List Char) (t : Option (List Char) × Nat × Option (List Char) × Nat)
    (ht : t = split_root_ext leaf ∨ ∃ sl, t = recognised_suffix_only sl leaf (split_root_ext leaf)) :
    t.1 = some leaf ∧
      ((t.2.2.1 = none ∧ t.2.2.2 = 0 ∧ t.2.1 = leaf.length) ∨
       (t.2.1 ≠ 0 ∧ t.2.1 + 1 < leaf.length ∧ leaf.getD t.2.1 (Char.ofNat 0) = '.' ∧
        t.2.2.1 = some (leaf.drop (t.2.1 + 1)) ∧ t.2.2.2 = (leaf.drop (t.2.1 + 1)).length)) := by
  have hnone : ∀ u : Option (List Char) × Nat × Option (List Char) × Nat,
      u = (some leaf, leaf.length, none, 0) →
      u.1 = some leaf ∧
      ((u.2.2.1 = none ∧ u.2.2.2 = 0 ∧ u.2.1 = leaf.length) ∨
       (u.2.1 ≠ 0 ∧ u.2.1 + 1 < leaf.length ∧ leaf.getD u.2.1 (Char.ofNat 0) = '.' ∧
        u.2.2.1 = some (leaf.drop (u.2.1 + 1)) ∧ u.2.2.2 = (leaf.drop (u.2.1 + 1)).length)) := by
    intro u hu
    rw [hu]
    exact ⟨rfl, Or.inl ⟨rfl, rfl, rfl⟩⟩
  have hsplit : ∀ u, u = split_root_ext leaf →
      u.1 = some leaf ∧
      ((u.2.2.1 = none ∧ u.2.2.2 = 0 ∧ u.2.1 = leaf.length) ∨
       (u.2.1 ≠ 0 ∧ u.2.1 + 1 < leaf.length ∧ leaf.getD u.2.1 (Char.ofNat 0) = '.' ∧
        u.2.2.1 = some (leaf.drop (u.2.1 + 1)) ∧ u.2.2.2 = (leaf.drop (u.2.1 + 1)).length)) := by
    intro u hu
    unfold split_root_ext at hu
    cases hd : last_index (fun c => decide (c = '.')) leaf 0 none with
    | none =>
      rw [hd] at hu
      exact hnone u hu
    | some d =>
      rw [hd] at hu
      simp only [] at hu
      obtain ⟨hlt, hdot, -⟩ := last_index_some _ leaf d hd
      by_cases hc : d ≠ 0 ∧ leaf.getD (d + 1) (Char.ofNat 0) ≠ Char.ofNat 0
      · rw [if_pos hc] at hu
        rw [hu]
        have h1 : d + 1 < leaf.length := by
          by_contra hge
          apply hc.2
          rw [List.getD_eq_getElem?_getD, List.getElem?_eq_none (by omega)]
          rfl
        exact ⟨rfl, Or.inr ⟨hc.1, h1, by simpa using hdot, rfl, rfl⟩⟩
      · rw [if_neg hc] at hu
        exact hnone u hu
  rcases ht with ht | ⟨sl, ht⟩
  · exact hsplit t ht
  · unfold recognised_suffix_only at ht
    cases sl with
    | none => exact hsplit t ht
    | some l =>
      simp only [] at ht
      split_ifs at ht
      · exact hnone t ht
      · exact hsplit t ht

theorem leaf_offset_spec (f : List Char) :
    leaf_offset f ≤ f.length ∧ (∀ c ∈ f.drop (leaf_offset f), is_sep c = false) ∧
      (leaf_offset f = 0 ∨ is_sep (f.getD (leaf_offset f - 1) (Char.ofNat 0)) = true) := by
  unfold leaf_offset
  cases h : last_index is_sep f 0 none with
  | none =>
    refine ⟨Nat.zero_le _, ?_, Or.inl rfl⟩
    simpa using last_index_none _ f h
  | some j =>
    obtain ⟨hj, ht, hall⟩ := last_index_some _ f j h
    exact ⟨hj, hall, Or.inr (by simpa using ht)⟩

theorem unparse_name_of_shape (un : UnparsedName) (f : List Char) (maxName : Nat)
    (hpath : un.path = some f) (hP : un.plen ≤ f.length)
    (hroot : un.root = some (f.drop un.plen))
    (hshape : (un.extn = none ∧ un.elen = 0 ∧ un.rlen = (f.drop un.plen).length) ∨
       (un.rlen ≠ 0 ∧ un.rlen + 1 < (f.drop un.plen).length ∧
        (f.drop un.plen).getD un.rlen (Char.ofNat 0) = '.' ∧
        un.extn = some ((f.drop un.plen).drop (un.rlen + 1)) ∧
        un.elen = ((f.drop un.plen).drop (un.rlen + 1)).length))
    (h : f.length < maxName) :
    (fname_unparse un unparsedFNameType.FNAME_AS_NAME maxName).out = f ∧
    (fname_unparse un unparsedFNameType.FNAME_AS_NAME maxName).n = f.length ∧
    (fname_unparse un unparsedFNameType.FNAME_AS_NAME maxName).un.un_pathlen = un.plen := by
  have hm0 : maxName ≠ 0 := by omega
  have hstep1 : (if un.plen ≠ 0 then
        memcpy_from un.path (if un.plen > maxName - 1 then maxName - 1 else un.plen)
      else []) = f.take un.plen := by
    by_cases h0 : un.plen = 0
    · simp [h0]
    · rw [if_pos h0, if_neg (by omega), hpath, memcpy_from_take _ _ hP]
  have hlen1 : (f.take un.plen).length = un.plen := by
    rw [List.length_take]
    omega
  have hleaf : (f.drop un.plen).length = f.length - un.plen := List.length_drop _ _
  have hne : ¬ (unparsedFNameType.FNAME_AS_NAME = unparsedFNameType.FNAME_AS_PATH) := by
    decide
  have hr : un.rlen ≤ f.length - un.plen := by
    rcases hshape with ⟨-, -, h3⟩ | ⟨-, h2, -⟩ <;> omega
  have hstep2 : (if un.rlen ≠ 0 ∧ un.plen < maxName - 1 then
        f.take un.plen ++ memcpy_from (some (f.drop un.plen))
          (if un.rlen > maxName - 1 - un.plen then maxName - 1 - un.plen else un.rlen)
      else f.take un.plen) = f.take (un.plen + un.rlen) := by
    by_cases h0 : un.rlen = 0
    · rw [if_neg (fun hh => hh.1 h0), h0, Nat.add_zero]
    · rw [if_pos ⟨h0, by omega⟩, if_neg (by omega), memcpy_from_take _ _ (by omega),
        List.take_add]
  have hlen2 : (f.take (un.plen + un.rlen)).length = un.plen + un.rlen := by
    rw [List.length_take]
    omega
  simp only [fname_unparse, hm0, if_false, hstep1, hlen1, hroot, hne, hstep2, hlen2]
  rcases hshape with ⟨-, he, hrl⟩ | ⟨hr0, hlt, hdot, hext, hel⟩
  · have hall : un.plen + un.rlen = f.length := by omega
    have htake : f.take (un.plen + un.rlen) = f := by
      rw [hall]
      exact List.take_length _
    simp only [he, ne_eq, not_true_eq_false, false_and, if_false, htake]
    refine ⟨trivial, trivial, ?_⟩
    rw [if_neg (by omega)]
  · have hel' : un.elen = f.length - un.plen - (un.rlen + 1) := by
      rw [hel, List.length_drop, List.length_drop]
    have he0 : un.elen ≠ 0 := by omega
    have hc : un.elen ≠ 0 ∧ un.plen + un.rlen + 1 < maxName - 1 := ⟨he0, by omega⟩
    have hl3 : (f.take (un.plen + un.rlen) ++ ['.']).length = un.plen + un.rlen + 1 := by
      rw [List.length_append, hlen2]
      rfl
    rw [if_pos hc]
    simp only [hl3, if_neg (show ¬ un.elen > maxName - 1 - (un.plen + un.rlen + 1) by omega)]
    rw [hext, memcpy_from_take _ _ (by omega)]
    have hfull : f.take (un.plen + un.rlen) ++ ['.']
        ++ ((f.drop un.plen).drop (un.rlen + 1)).take un.elen = f := by
      rw [hel, List.take_length, List.take_add, List.append_assoc, List.append_assoc,
        List.singleton_append, take_dot_drop _ _ (by omega) hdot, List.take_append_drop]
    rw [hfull]
    refine ⟨rfl, rfl, ?_⟩
    rw [if_neg (by omega)]

/-- C36: parsing a file name `f` with any suffix list (or none) and unparsing
it as a name into a buffer of more than `length f` bytes writes exactly `f`,
returns its length and sets `un_pathlen` to the length of the path part, which
is everything up to and including the last `/` or `\`. -/
theorem parse_unparse_round_trip (f : List Char) (suffixlist : Option (List Char))
    (maxName : Nat) (h : f.length < maxName) :
    (fname_unparse (fname_parse (some f) suffixlist)
        unparsedFNameType.FNAME_AS_NAME maxName).out = f ∧
    (fname_unparse (fname_parse (some f) suffixlist)
        unparsedFNameType.FNAME_AS_NAME maxName).n = f.length ∧
    (fname_unparse (fname_parse (some f) suffixlist)
        unparsedFNameType.FNAME_AS_NAME maxName).un.un_pathlen
      = (fname_parse (some f) suffixlist).plen ∧
    (fname_parse (some f) suffixlist).plen ≤ f.length ∧
    (∀ c ∈ f.drop (fname_parse (some f) suffixlist).plen, c ≠ '/' ∧ c ≠ Char.ofNat 92) ∧
    ((fname_parse (some f) suffixlist).plen = 0 ∨
      f.getD ((fname_parse (some f) suffixlist).plen - 1) (Char.ofNat 0) = '/' ∨
      f.getD ((fname_parse (some f) suffixlist).plen - 1) (Char.ofNat 0) = Char.ofNat 92) := by
  have hplen : (fname_parse (some f) suffixlist).plen = leaf_offset f := rfl
  have hpath : (fname_parse (some f) suffixlist).path = some f := rfl
  obtain ⟨h1, h2, h3⟩ := leaf_offset_spec f
  have hs := split_shape (f.drop (leaf_offset f))
    (recognised_suffix_only suffixlist (f.drop (leaf_offset f))
      (split_root_ext (f.drop (leaf_offset f)))) (Or.inr ⟨suffixlist, rfl⟩)
  have hu := unparse_name_of_shape (fname_parse (some f) suffixlist) f maxName hpath
    (by rw [hplen]; exact h1) (by rw [hplen]; exact hs.1) (by rw [hplen]; exact hs.2) h
  refine ⟨hu.1, hu.2.1, hu.2.2, by rw [hplen]; exact h1, ?_, ?_⟩
  · intro c hc
    rw [hplen] at hc
    have := h2 c hc
    simpa [is_sep] using this
  · rw [hplen]
    rcases h3 with h3 | h3
    · exact Or.inl h3
    · right
      simpa [is_sep] using h3

theorem parse_unparse_round_trip_witness :
    (fname_unparse (fname_parse (some "dir/a.c".data) none)
        unparsedFNameType.FNAME_AS_NAME 8).out = "dir/a.c".data ∧
    (fname_unparse (fname_parse (some "dir/a.c".data) none)
        unparsedFNameType.FNAME_AS_NAME 8).n = 7 ∧
    (fname_unparse (fname_parse (some "dir/a.c".data) none)
        unparsedFNameType.FNAME_AS_NAME 8).un.un_pathlen = 4 :=
  have h := parse_unparse_round_trip "dir/a.c".data none 8 (by decide)
  ⟨h.1, h.2.1, h.2.2.1⟩

theorem unparse_as_name_bound (un : UnparsedName) (maxName : Nat) (h : 1 ≤ maxName) :
    (fname_unparse un unparsedFNameType.FNAME_AS_NAME maxName).n ≤ maxName - 1 ∧
    (fname_unparse un unparsedFNameType.FNAME_AS_NAME maxName).out.length
      = (fname_unparse un unparsedFNameType.FNAME_AS_NAME maxName).n := by
  have hm0 : maxName ≠ 0 := by omega
  have hne : ¬ (unparsedFNameType.FNAME_AS_NAME = unparsedFNameType.FNAME_AS_PATH) := by
    decide
  simp only [fname_unparse, hm0, if_false, hne, and_true]
  split_ifs
  all_goals try simp only [List.length_append, memcpy_from_length, List.length_singleton,
    List.length_nil] at *
  all_goals omega

theorem unparse_as_path_length (un : UnparsedName) (maxName : Nat) (h : 1 ≤ maxName) :
    (fname_unparse un unparsedFNameType.FNAME_AS_PATH maxName).n ≤ maxName ∧
    (fname_unparse un unparsedFNameType.FNAME_AS_PATH maxName).out.length
      = (fname_unparse un unparsedFNameType.FNAME_AS_PATH maxName).n ∧
    (un.elen = 0 → 0 < un.rlen → maxName - 1 ≤ un.plen + un.rlen →
      (fname_unparse un unparsedFNameType.FNAME_AS_PATH maxName).n = maxName) := by
  have hm0 : maxName ≠ 0 := by omega
  simp only [fname_unparse, hm0, if_false, if_true, true_and]
  split_ifs
  all_goals try simp only [List.length_append, memcpy_from_length, List.length_singleton,
    List.length_nil] at *
  all_goals omega

/-- C37 against the code: unparsing as a name returns a length of at most
`maxName - 1` for every parsed name and every `maxName >= 1`, but unparsing as
a path appends the final `/` of a leaf without testing the room, so the
returned length is `maxName` whenever the path and the leaf fill the buffer;
for the leaf `abc` and `maxName` 4 it writes `abc/`, returns 4, and the
terminator goes to offset 4 of a 4-byte buffer. -/
theorem unparse_as_path_overrun_evaluated :
    (∀ (un : UnparsedName) (maxName : Nat), 1 ≤ maxName →
      (fname_unparse un unparsedFNameType.FNAME_AS_NAME maxName).n ≤ maxName - 1) ∧
    (∀ (un : UnparsedName) (maxName : Nat), 1 ≤ maxName →
      un.elen = 0 → 0 < un.rlen → maxName - 1 ≤ un.plen + un.rlen →
      (fname_unparse un unparsedFNameType.FNAME_AS_PATH maxName).n = maxName) ∧
    fname_parse (some "abc".data) none
      = ⟨some "abc".data, 3, none, 0, some "abc".data, 0, 0, none, 0, 0⟩ ∧
    fname_unparse (fname_parse (some "abc".data) none) unparsedFNameType.FNAME_AS_PATH 4
      = ⟨4, "abc/".data, fname_parse (some "abc".data) none⟩ ∧
    ¬ ((fname_unparse (fname_parse (some "abc".data) none)
          unparsedFNameType.FNAME_AS_PATH 4).n ≤ 4 - 1) := by
  refine ⟨fun un m h => (unparse_as_name_bound un m h).1,
    fun un m h he hr hp => (unparse_as_path_length un m h).2.2 he hr hp,
    by decide, by decide, by decide⟩

theorem parse_unparse_example :
    fname_unparse (fname_parse (some "dir/a.c".data) none) unparsedFNameType.FNAME_AS_NAME 100
      = ⟨7, "dir/a.c".data,
          ⟨some "a.c".data, 1, some "c".data, 1, some "dir/a.c".data, 4, 4, none, 0, 0⟩⟩ := by
  decide

end Fname

namespace Toolenv

/-! ## Tool environment -/

theorem insert_example :
    toolenv_insert (some ⟨[], 0, 0⟩) (some "-D__TARGET_FPU_vfp".data) (some "=1".data)
      = (0, some ⟨[⟨"-D__TARGET_FPU_VFP".data, "=1".data, false⟩], 8, 0⟩) := by
  decide

theorem te_find_from_spec (name : List Char) :
    ∀ (v : List TE_Entry) (i : Nat),
      (te_find_from v name i = -1 ∧ ∀ e ∈ v, e.name ≠ name) ∨
      (∃ pre e post, v = pre ++ e :: post ∧ e.name = name ∧ (∀ x ∈ pre, x.name ≠ name) ∧
        te_find_from v name i = ((i + pre.length : Nat) : Int)) := by
  intro v
  induction v with
  | nil =>
    intro i
    exact Or.inl ⟨rfl, by simp⟩
  | cons a as ih =>
    intro i
    by_cases ha : a.name = name
    · refine Or.inr ⟨[], a, as, rfl, ha, by simp, ?_⟩
      simp only [te_find_from, ha, if_true, List.length_nil, Nat.add_zero]
    · rcases ih (i + 1) with ⟨h, hall⟩ | ⟨pre, e, post, hv, he, hpre, h⟩
      · refine Or.inl ⟨?_, ?_⟩
        · simp only [te_find_from, ha, if_false, h]
        · intro x hx
          rcases List.mem_cons.mp hx with hx | hx
          · rw [hx]
            exact ha
          · exact hall x hx
      · refine Or.inr ⟨a :: pre, e, post, by rw [hv]; rfl, he, ?_, ?_⟩
        · intro x hx
          rcases List.mem_cons.mp hx with hx | hx
          · rw [hx]
            exact ha
          · exact hpre x hx
        · simp only [te_find_from, ha, if_false, h, List.length_cons]
          congr 1
          omega

theorem modify_at_split (f : TE_Entry → TE_Entry) (e : TE_Entry) (post : List TE_Entry) :
    ∀ pre : List TE_Entry, (pre ++ e :: post).modify f pre.length = pre ++ f e :: post := by
  intro pre
  induction pre with
  | nil => rfl
  | cons a as ih =>
    simp only [List.cons_append, List.length_cons, List.modify_succ_cons, ih]

theorem lookup_first_match (name : List Char) (e : TE_Entry) (post : List TE_Entry)
    (he : e.name = name) :
    ∀ pre : List TE_Entry, (∀ x ∈ pre, x.name ≠ name) →
      lookup_from (pre ++ e :: post) name = some e.val := by
  intro pre
  induction pre with
  | nil =>
    intro _
    simp only [List.nil_append, lookup_from, he, if_true]
  | cons a as ih =>
    intro h
    have ha : a.name ≠ name := h a (List.mem_cons_self a as)
    simp only [List.cons_append, lookup_from, ha, if_false]
    exact ih (fun x hx => h x (List.mem_cons_of_mem a hx))

theorem lookup_other_entry (other : List Char) (e e' : TE_Entry) (post : List TE_Entry)
    (hn : e'.name = e.name) (ho : e.name ≠ other) :
    ∀ pre : List TE_Entry,
      lookup_from (pre ++ e' :: post) other = lookup_from (pre ++ e :: post) other := by
  intro pre
  induction pre with
  | nil =>
    have ho' : e'.name ≠ other := by
      rw [hn]
      exact ho
    simp only [List.nil_append, lookup_from, ho, ho', if_false]
  | cons a as ih =>
    rw [List.cons_append, List.cons_append]
    simp only [lookup_from]
    rw [ih]

theorem lookup_append_new (name value : List Char) :
    ∀ v : List TE_Entry, (∀ x ∈ v, x.name ≠ name) →
      lookup_from (v ++ [⟨name, value, false⟩]) name = some value ∧
      ∀ other, other ≠ name →
        lookup_from (v ++ [⟨name, value, false⟩]) other = lookup_from v other := by
  intro v
  induction v with
  | nil =>
    intro _
    refine ⟨by simp only [List.nil_append, lookup_from, if_true], ?_⟩
    intro other ho
    simp only [List.nil_append, lookup_from, Ne.symm ho, if_false]
  | cons a as ih =>
    intro h
    have ha : a.name ≠ name := h a (List.mem_cons_self a as)
    obtain ⟨h1, h2⟩ := ih (fun x hx => h x (List.mem_cons_of_mem a hx))
    refine ⟨?_, ?_⟩
    · rw [List.cons_append]
      simp only [lookup_from, ha, if_false]
      exact h1
    · intro other ho
      rw [List.cons_append]
      simp only [lookup_from]
      rw [h2 other ho]

/-- What `toolenv_insert` does for the name it stores: it returns 0, the
stored name then looks up to the value, every other name looks up as before,
and entries with pairwise distinct names stay so. -/
theorem insert_stored_name (t : ToolEnv) (name value : List Char) :
    (toolenv_insert (some t) (some name) (some value)).1 = 0 ∧
    toolenv_lookup (toolenv_insert (some t) (some name) (some value)).2
      (some (insert_name name)) = some value ∧
    (∀ other : List Char, other ≠ insert_name name →
      toolenv_lookup (toolenv_insert (some t) (some name) (some value)).2 (some other)
        = toolenv_lookup (some t) (some other)) ∧
    (distinct_names t → ∀ t', (toolenv_insert (some t) (some name) (some value)).2 = some t' →
      distinct_names t') := by
  rcases te_find_from_spec (insert_name name) t.v 0 with ⟨hf, hall⟩ | ⟨pre, e, post, hv, he, hpre, hf⟩
  · have hi : ¬ (te_find t (insert_name name) ≥ 0) := by
      unfold te_find
      rw [hf]
      decide
    have hg : (te_grow t 1).v = t.v := by
      unfold te_grow
      split_ifs <;> rfl
    obtain ⟨h1, h2⟩ := lookup_append_new (insert_name name) value t.v hall
    simp only [toolenv_insert, hi, if_false, toolenv_lookup, hg]
    refine ⟨trivial, h1, h2, ?_⟩
    intro hd t' ht'
    rw [← Option.some.inj ht']
    unfold distinct_names at hd ⊢
    simp only [List.map_append, List.map_cons, List.map_nil]
    refine List.Nodup.append hd (List.nodup_singleton _) ?_
    intro x hx hx'
    rw [List.mem_singleton] at hx'
    obtain ⟨y, hy, hyx⟩ := List.mem_map.mp hx
    exact hall y hy (hyx.trans hx')
  · have hi : te_find t (insert_name name) ≥ 0 := by
      unfold te_find
      rw [hf]
      exact Int.natCast_nonneg _
    have hn : (te_find t (insert_name name)).toNat = pre.length := by
      unfold te_find
      rw [hf, Int.toNat_natCast, Nat.zero_add]
    simp only [toolenv_insert, hi, if_true, toolenv_lookup, hn, hv, modify_at_split]
    refine ⟨trivial, ?_, ?_, ?_⟩
    · exact lookup_first_match (insert_name name) ⟨e.name, value, e.readonly⟩ post he pre hpre
    · intro other ho
      exact lookup_other_entry other e ⟨e.name, value, e.readonly⟩ post rfl
        (by rw [he]; exact Ne.symm ho) pre
    · intro hd t' ht'
      rw [← Option.some.inj ht']
      unfold distinct_names at hd ⊢
      rw [hv] at hd
      simpa using hd

theorem capitalise_loop_c_string :
    ∀ (k : Nat) (name : List Char), Char.ofNat 0 ∉ name.map Char.toUpper →
      ((capitalise_loop (k + 1) name).set k (Char.ofNat 0)).takeWhile
        (fun c => c != Char.ofNat 0) = (name.map Char.toUpper).take k := by
  intro k
  induction k with
  | zero =>
    intro name _
    cases name with
    | nil => rfl
    | cons c cs => rfl
  | succ k ih =>
    intro name hn
    cases name with
    | nil => rfl
    | cons c cs =>
      have hc : (c.toUpper != Char.ofNat 0) = true := by
        have : c.toUpper ≠ Char.ofNat 0 := fun h => hn (by simp [h])
        simpa using this
      have hcs : Char.ofNat 0 ∉ cs.map Char.toUpper := fun h => hn (by simp [h])
      simp only [capitalise_loop, List.set_cons_succ, List.takeWhile_cons, hc, if_true,
        List.map_cons, List.take_succ_cons, ih cs hcs]

theorem insert_name_exists (t : ToolEnv) (name value : List Char) :
    ∃ t', (toolenv_insert (some t) (some name) (some value)).2 = some t' := by
  simp only [toolenv_insert]
  split_ifs
  · exact ⟨_, rfl⟩
  · exact ⟨_, rfl⟩

/-- C35, as the code has it: for an environment whose entries have pairwise
distinct names, `toolenv_insert(t, name, value)` returns 0 (allocation
succeeding) and afterwards the name it stored looks up to `value`, every other
name looks up as before, and the names are still pairwise distinct.  The
stored name is `name` itself unless `name` starts with `-D__TARGET_FPU_`; then
it is `name` in upper case, cut to 79 characters. -/
theorem insert_then_lookup (t : ToolEnv) (name value : List Char) (hd : distinct_names t) :
    ∃ t', toolenv_insert (some t) (some name) (some value) = (0, some t') ∧
      toolenv_lookup (some t') (some (insert_name name)) = some value ∧
      (∀ other : List Char, other ≠ insert_name name →
        toolenv_lookup (some t') (some other) = toolenv_lookup (some t) (some other)) ∧
      distinct_names t' ∧
      (name.take 15 ≠ "-D__TARGET_FPU_".data → insert_name name = name) ∧
      (name.take 15 = "-D__TARGET_FPU_".data → Char.ofNat 0 ∉ name.map Char.toUpper →
        insert_name name = (name.map Char.toUpper).take 79) := by
  obtain ⟨h1, h2, h3, h4⟩ := insert_stored_name t name value
  obtain ⟨t', ht'⟩ := insert_name_exists t name value
  refine ⟨t', ?_, ?_, ?_, h4 hd t' ht', ?_, ?_⟩
  · exact Prod.ext h1 ht'
  · rw [← ht']
    exact h2
  · intro other ho
    rw [← ht']
    exact h3 other ho
  · intro hn
    unfold insert_name
    exact if_neg hn
  · intro hp hz
    unfold insert_name
    exact (if_pos hp).trans (capitalise_loop_c_string 79 name hz)

theorem insert_then_lookup_witness :
    ∃ t', toolenv_insert (some ⟨[⟨"a".data, "1".data, false⟩], 8, 0⟩) (some "b".data)
        (some "2".data) = (0, some t') ∧
      toolenv_lookup (some t') (some "b".data) = some "2".data ∧
      toolenv_lookup (some t') (some "a".data) = some "1".data ∧
      distinct_names t' :=
  have h := insert_then_lookup ⟨[⟨"a".data, "1".data, false⟩], 8, 0⟩ "b".data "2".data
    (by decide)
  h.elim fun t' ht => ⟨t', ht.1, ht.2.1, ht.2.2.1 "a".data (by decide), ht.2.2.2.1⟩

/-- C35 fails as stated: inserting `-D__TARGET_FPU_vfp` into the empty
environment returns 0, but the name then looks up to nothing; the value is
stored under `-D__TARGET_FPU_VFP`, whose lookup result the call changed. -/
theorem insert_then_lookup_counterexample :
    toolenv_insert (some ⟨[], 0, 0⟩) (some "-D__TARGET_FPU_vfp".data) (some "=1".data)
      = (0, some ⟨[⟨"-D__TARGET_FPU_VFP".data, "=1".data, false⟩], 8, 0⟩) ∧
    toolenv_lookup (some ⟨[⟨"-D__TARGET_FPU_VFP".data, "=1".data, false⟩], 8, 0⟩)
      (some "-D__TARGET_FPU_vfp".data) = none ∧
    toolenv_lookup (some ⟨[], 0, 0⟩) (some "-D__TARGET_FPU_VFP".data) = none ∧
    toolenv_lookup (some ⟨[⟨"-D__TARGET_FPU_VFP".data, "=1".data, false⟩], 8, 0⟩)
      (some "-D__TARGET_FPU_VFP".data) = some "=1".data := by
  decide

end Toolenv

namespace Int64Runtime

/-! ## 64-bit multiplication from 32-bit halves -/

theorem low16_or_shifted (a mid : Nat) :
    (a &&& 0xFFFF) ||| ((mid <<< 16) % 2 ^ 32) = a % 2 ^ 16 + 2 ^ 16 * (mid % 2 ^ 16) := by
  have h1 : a &&& 0xFFFF = a % 2 ^ 16 := Nat.and_pow_two_sub_one_eq_mod a 16
  have h2 : (mid <<< 16) % 2 ^ 32 = 2 ^ 16 * (mid % 2 ^ 16) := by
    rw [Nat.shiftLeft_eq, Nat.mul_comm, show (2 : Nat) ^ 32 = 2 ^ 16 * 2 ^ 16 by norm_num,
      Nat.mul_mod_mul_left]
  rw [h1, h2, Nat.or_comm, ← Nat.mul_add_lt_is_or (Nat.mod_lt _ (by norm_num)), Nat.add_comm]

theorem mul32x32_64_exact (a b : Nat) (ha : a < 2 ^ 32) (hb : b < 2 ^ 32) :
    (mul32x32_64 a b).1 * 2 ^ 32 + (mul32x32_64 a b).2 = a * b ∧
      (mul32x32_64 a b).1 < 2 ^ 32 ∧ (mul32x32_64 a b).2 < 2 ^ 32 := by
  have hm : ∀ p : Nat, p &&& 0xFFFF = p % 2 ^ 16 := fun p => Nat.and_pow_two_sub_one_eq_mod p 16
  have b0 : a % 2 ^ 16 ≤ 65535 := by omega
  have b1 : a / 2 ^ 16 ≤ 65535 := by omega
  have c0 : b % 2 ^ 16 ≤ 65535 := by omega
  have c1 : b / 2 ^ 16 ≤ 65535 := by omega
  have q00 : a % 2 ^ 16 * (b % 2 ^ 16) ≤ 65535 * 65535 := Nat.mul_le_mul b0 c0
  have q01 : a % 2 ^ 16 * (b / 2 ^ 16) ≤ 65535 * 65535 := Nat.mul_le_mul b0 c1
  have q10 : a / 2 ^ 16 * (b % 2 ^ 16) ≤ 65535 * 65535 := Nat.mul_le_mul b1 c0
  have q11 : a / 2 ^ 16 * (b / 2 ^ 16) ≤ 65535 * 65535 := Nat.mul_le_mul b1 c1
  have hab : a * b = (a / 2 ^ 16 * (b / 2 ^ 16)) * 2 ^ 32
      + (a % 2 ^ 16 * (b / 2 ^ 16) + a / 2 ^ 16 * (b % 2 ^ 16)) * 2 ^ 16
      + a % 2 ^ 16 * (b % 2 ^ 16) := by
    have ea : a = 2 ^ 16 * (a / 2 ^ 16) + a % 2 ^ 16 := (Nat.div_add_mod a _).symm
    have eb : b = 2 ^ 16 * (b / 2 ^ 16) + b % 2 ^ 16 := (Nat.div_add_mod b _).symm
    generalize a / 2 ^ 16 = a1 at ea ⊢
    generalize a % 2 ^ 16 = a0 at ea ⊢
    generalize b / 2 ^ 16 = b1' at eb ⊢
    generalize b % 2 ^ 16 = b0' at eb ⊢
    rw [ea, eb]
    ring
  simp only [mul32x32_64, low16_or_shifted]
  simp only [hm, Nat.shiftRight_eq_div_pow]
  rw [hab]
  generalize a % 2 ^ 16 * (b % 2 ^ 16) = P00 at *
  generalize a % 2 ^ 16 * (b / 2 ^ 16) = P01 at *
  generalize a / 2 ^ 16 * (b % 2 ^ 16) = P10 at *
  generalize a / 2 ^ 16 * (b / 2 ^ 16) = P11 at *
  omega

theorem ll_mul_low64 (x y : Nat) (hx : x < 2 ^ 64) (hy : y < 2 ^ 64) :
    _ll_mul x y = (x * y) % 2 ^ 64 := by
  have hxl : lo_of x < 2 ^ 32 := Nat.mod_lt _ (by norm_num)
  have hxh : hi_of x < 2 ^ 32 := Nat.mod_lt _ (by norm_num)
  have hyl : lo_of y < 2 ^ 32 := Nat.mod_lt _ (by norm_num)
  have hyh : hi_of y < 2 ^ 32 := Nat.mod_lt _ (by norm_num)
  have hxe : x = hi_of x * 2 ^ 32 + lo_of x := by
    unfold hi_of lo_of
    omega
  have hye : y = hi_of y * 2 ^ 32 + lo_of y := by
    unfold hi_of lo_of
    omega
  obtain ⟨hac, hac1, hac2⟩ := mul32x32_64_exact (lo_of x) (lo_of y) hxl hyl
  obtain ⟨had, had1, had2⟩ := mul32x32_64_exact (lo_of x) (hi_of y) hxl hyh
  obtain ⟨hbc, hbc1, hbc2⟩ := mul32x32_64_exact (hi_of x) (lo_of y) hxh hyl
  have hprod : x * y = lo_of x * lo_of y + 2 ^ 32 * (lo_of x * hi_of y + hi_of x * lo_of y)
      + 2 ^ 64 * (hi_of x * hi_of y) := by
    generalize hi_of x = xh at hxe
    generalize lo_of x = xl at hxe
    generalize hi_of y = yh at hye
    generalize lo_of y = yl at hye
    rw [hxe, hye]
    ring
  simp only [_ll_mul, join]
  rw [hprod]
  generalize lo_of x * lo_of y = A at *
  generalize lo_of x * hi_of y = B at *
  generalize hi_of x * lo_of y = C at *
  generalize hi_of x * hi_of y = D at *
  omega

/-- C40: `_ll_mul`, built from 16-bit partial products, is the product modulo
`2 ^ 64` for all unsigned 64-bit operands, and the helper `mul32x32_64` returns
32-bit halves `hi` and `lo` with `hi * 2 ^ 32 + lo` the exact product of its
32-bit operands. -/
theorem ll_mul_correct (x y a b : Nat) (hx : x < 2 ^ 64) (hy : y < 2 ^ 64)
    (ha : a < 2 ^ 32) (hb : b < 2 ^ 32) :
    _ll_mul x y = (x * y) % 2 ^ 64 ∧
    (mul32x32_64 a b).1 * 2 ^ 32 + (mul32x32_64 a b).2 = a * b ∧
    (mul32x32_64 a b).1 < 2 ^ 32 ∧ (mul32x32_64 a b).2 < 2 ^ 32 :=
  ⟨ll_mul_low64 x y hx hy, mul32x32_64_exact a b ha hb⟩

theorem ll_mul_correct_witness :
    _ll_mul 0xFFFFFFFFFFFFFFFF 0xFFFFFFFFFFFFFFFF
      = (0xFFFFFFFFFFFFFFFF * 0xFFFFFFFFFFFFFFFF) % 2 ^ 64 ∧
    (mul32x32_64 0xFFFFFFFF 0xFFFFFFFF).1 * 2 ^ 32 + (mul32x32_64 0xFFFFFFFF 0xFFFFFFFF).2
      = 0xFFFFFFFF * 0xFFFFFFFF ∧
    (mul32x32_64 0xFFFFFFFF 0xFFFFFFFF).1 < 2 ^ 32 ∧
    (mul32x32_64 0xFFFFFFFF 0xFFFFFFFF).2 < 2 ^ 32 :=
  ll_mul_correct 0xFFFFFFFFFFFFFFFF 0xFFFFFFFFFFFFFFFF 0xFFFFFFFF 0xFFFFFFFF
    (by decide) (by decide) (by decide) (by decide)

/-! ## Signed shift right -/

theorem or_shifted_halves (lo hi s t : Nat) (hst : s + t = 32) (hlo : lo < 2 ^ 32) :
    (lo >>> s) ||| ((hi <<< t) % 2 ^ 32) = lo / 2 ^ s + 2 ^ t * (hi % 2 ^ s) := by
  have h32 : (2 : Nat) ^ 32 = 2 ^ t * 2 ^ s := by
    rw [← pow_add, Nat.add_comm, hst]
  have h2 : (hi <<< t) % 2 ^ 32 = 2 ^ t * (hi % 2 ^ s) := by
    rw [Nat.shiftLeft_eq, Nat.mul_comm, h32, Nat.mul_mod_mul_left]
  have h1 : lo / 2 ^ s < 2 ^ t := by
    apply Nat.div_lt_of_lt_mul
    rw [Nat.mul_comm, ← h32]
    exact hlo
  rw [h2, Nat.shiftRight_eq_div_pow, Nat.or_comm, ← Nat.mul_add_lt_is_or h1, Nat.add_comm]

theorem sshift_lt32 (x : Int) (s : Nat) (hs : 0 < s) (hs' : s < 32) :
    _ll_sshift_r x (s : Int) =
      to_s64 (join (to_u32 (to_s32 (hi_of (to_u64 x)) / 2 ^ s))
        (lo_of (to_u64 x) / 2 ^ s + 2 ^ (32 - s) * (hi_of (to_u64 x) % 2 ^ s))) := by
  have hlo : lo_of (to_u64 x) < 2 ^ 32 := Nat.mod_lt _ (by norm_num)
  have h1 : ¬ ((s : Int) ≤ 0) := by omega
  have h2 : ¬ ((s : Int) ≥ 64) := by omega
  have h3 : ¬ ((s : Int) ≥ 32) := by omega
  have h4 : (32 - (s : Int)).toNat = 32 - s := by omega
  simp only [_ll_sshift_r, h1, h2, h3, if_false, h4, Int.toNat_ofNat,
    or_shifted_halves _ _ s (32 - s) (by omega) hlo]

theorem sshift_ge32 (x : Int) (s : Nat) (hs : 32 ≤ s) (hs' : s < 64) :
    _ll_sshift_r x (s : Int) =
      to_s64 (join (to_u32 (if to_s32 (hi_of (to_u64 x)) < 0 then -1 else 0))
        (hi_of (to_u64 x) / 2 ^ (s - 32))) := by
  have h1 : ¬ ((s : Int) ≤ 0) := by omega
  have h2 : ¬ ((s : Int) ≥ 64) := by omega
  have h3 : (s : Int) ≥ 32 := by omega
  have h4 : ((s : Int) - 32).toNat = s - 32 := by omega
  simp only [_ll_sshift_r, h1, h2, h3, if_false, if_true, h4, Nat.shiftRight_eq_div_pow]

theorem halves_of_s64 (x : Int) (hx1 : -2 ^ 63 ≤ x) (hx2 : x < 2 ^ 63) :
    x = to_s32 (hi_of (to_u64 x)) * 2 ^ 32 + (lo_of (to_u64 x) : Int) ∧
      hi_of (to_u64 x) < 2 ^ 32 ∧ lo_of (to_u64 x) < 2 ^ 32 := by
  simp only [to_s32, hi_of, lo_of, to_u64]
  omega

set_option maxHeartbeats 8000000 in
theorem sshift_lt32_value (hi lo s : Nat) (hhi : hi < 2 ^ 32) (hlo : lo < 2 ^ 32)
    (hs : 0 < s) (hs' : s < 32) :
    to_s64 (join (to_u32 (to_s32 hi / 2 ^ s)) (lo / 2 ^ s + 2 ^ (32 - s) * (hi % 2 ^ s)))
      = (to_s32 hi * 2 ^ 32 + (lo : Int)) / 2 ^ s := by
  simp only [to_s64, to_u32, to_s32, join]
  interval_cases s <;> omega

set_option maxHeartbeats 8000000 in
theorem sshift_ge32_value (hi lo s : Nat) (hhi : hi < 2 ^ 32) (hlo : lo < 2 ^ 32)
    (hs : 32 ≤ s) (hs' : s < 64) :
    to_s64 (join (to_u32 (if to_s32 hi < 0 then -1 else 0)) (hi / 2 ^ (s - 32)))
      = (to_s32 hi * 2 ^ 32 + (lo : Int)) / 2 ^ s
        + (if to_s32 hi < 0 ∧ 32 < s then 2 ^ (64 - s) - 2 ^ 32 else 0) := by
  simp only [to_s64, to_u32, to_s32, join]
  interval_cases s <;> omega

theorem sshift_le0 (x sh : Int) (h : sh ≤ 0) : _ll_sshift_r x sh = x := by
  simp only [_ll_sshift_r, h, if_true]

theorem sshift_ge64 (x sh : Int) (hx1 : -2 ^ 63 ≤ x) (hx2 : x < 2 ^ 63) (h : 64 ≤ sh) :
    _ll_sshift_r x sh = if x < 0 then -1 else 0 := by
  have h1 : ¬ (sh ≤ 0) := by omega
  have h2 : sh ≥ 64 := h
  simp only [_ll_sshift_r, h1, h2, if_false, if_true, to_s64, to_u32, to_s32, join, hi_of,
    to_u64]
  split_ifs <;> omega

theorem sshift_mid (x : Int) (hx1 : -2 ^ 63 ≤ x) (hx2 : x < 2 ^ 63) (s : Nat)
    (hs : 0 < s) (hs' : s < 64) :
    _ll_sshift_r x (s : Int) =
      x / 2 ^ s + (if x < 0 ∧ 32 < s then 2 ^ (64 - s) - 2 ^ 32 else 0) := by
  obtain ⟨hx, hhi, hlo⟩ := halves_of_s64 x hx1 hx2
  have hneg : to_s32 (hi_of (to_u64 x)) < 0 ↔ x < 0 := by
    simp only [to_s32, hi_of, to_u64]
    split_ifs <;> omega
  rcases Nat.lt_or_ge s 32 with h | h
  · rw [sshift_lt32 x s hs h, sshift_lt32_value _ _ s hhi hlo hs h, ← hx,
      if_neg (by omega), add_zero]
  · rw [sshift_ge32 x s h hs', sshift_ge32_value _ (lo_of (to_u64 x)) s hhi hlo h hs', ← hx]
    simp only [hneg]

/-- C38 against the code: `_ll_sshift_r` returns `x` for `sh <= 0`, -1 or 0 by
sign for `sh >= 64`, and the arithmetic shift `floor(x / 2^sh)` for
`0 < sh <= 32` and for non-negative `x`; but for a negative `x` and
`32 < sh < 64` the low word is shifted logically, so the result is
`floor(x / 2^sh) + 2^(64 - sh) - 2^32`, which is not the arithmetic shift:
`_ll_sshift_r(-1, 40)` is `-4278190081`, not `-1`. -/
theorem ll_sshift_r_evaluated :
    (∀ (x : Int) (s : Nat), -2 ^ 63 ≤ x → x < 2 ^ 63 →
      (∀ sh : Int, sh ≤ 0 → _ll_sshift_r x sh = x) ∧
      (∀ sh : Int, 64 ≤ sh → _ll_sshift_r x sh = if x < 0 then -1 else 0) ∧
      (0 < s → s ≤ 32 → _ll_sshift_r x (s : Int) = x / 2 ^ s) ∧
      (32 < s → s < 64 → 0 ≤ x → _ll_sshift_r x (s : Int) = x / 2 ^ s) ∧
      (32 < s → s < 64 → x < 0 →
        _ll_sshift_r x (s : Int) = x / 2 ^ s + 2 ^ (64 - s) - 2 ^ 32 ∧
        _ll_sshift_r x (s : Int) ≠ x / 2 ^ s)) ∧
    _ll_sshift_r (-1) 40 = -4278190081 ∧
    (-1 : Int) / 2 ^ 40 = -1 := by
  refine ⟨?_, by decide, by decide⟩
  intro x s hx1 hx2
  refine ⟨fun sh h => sshift_le0 x sh h, fun sh h => sshift_ge64 x sh hx1 hx2 h, ?_, ?_, ?_⟩
  · intro h1 h2
    rw [sshift_mid x hx1 hx2 s h1 (by omega), if_neg (by omega), add_zero]
  · intro h1 h2 h3
    rw [sshift_mid x hx1 hx2 s (by omega) h2, if_neg (by omega), add_zero]
  · intro h1 h2 h3
    have hm := sshift_mid x hx1 hx2 s (by omega) h2
    rw [if_pos ⟨h3, h1⟩] at hm
    have hp : (2 : Int) ^ (64 - s) < 2 ^ 32 := by
      have : (2 : Nat) ^ (64 - s) < 2 ^ 32 := Nat.pow_lt_pow_right (by norm_num) (by omega)
      exact_mod_cast this
    constructor
    · rw [hm]
      ring
    · rw [hm]
      intro h
      have h0 : (2 : Int) ^ (64 - s) - 2 ^ 32 = 0 := by linarith
      omega

/-! ## Unsigned division -/

theorem shl1_or_bit (a b : Nat) (hb : b < 2) :
    ((a <<< 1) % 2 ^ 32) ||| b = 2 * (a % 2 ^ 31) + b := by
  have h2 : (a <<< 1) % 2 ^ 32 = 2 ^ 1 * (a % 2 ^ 31) := by
    rw [Nat.shiftLeft_eq, Nat.mul_comm, show (2 : Nat) ^ 32 = 2 ^ 1 * 2 ^ 31 by norm_num,
      Nat.mul_mod_mul_left]
  rw [h2, ← Nat.mul_add_lt_is_or (by simpa using hb)]

theorem shl1_or_carry (a c : Nat) :
    ((a <<< 1) % 2 ^ 32) ||| (c >>> 31) = 2 * (a % 2 ^ 31) + c / 2 ^ 31 ∨ 2 ^ 32 ≤ c := by
  rcases Nat.lt_or_ge c (2 ^ 32) with h | h
  · left
    rw [Nat.shiftRight_eq_div_pow]
    exact shl1_or_bit a (c / 2 ^ 31) (by omega)
  · exact Or.inr h

theorem msb_test (a : Nat) : (a &&& 0x80000000 ≠ 0) ↔ a / 2 ^ 31 % 2 = 1 := by
  have h := Disass.reg_bit_iff a 31
  have h' : (a &&& 0x80000000 ≠ 0) ↔ a.testBit 31 = true := h
  rw [h', Nat.testBit_to_div_mod]
  simp

theorem shl1_or_shr31 (a c : Nat) (hc : c < 2 ^ 32) :
    ((a <<< 1) % 2 ^ 32) ||| (c >>> 31) = 2 * (a % 2 ^ 31) + c / 2 ^ 31 := by
  rw [Nat.shiftRight_eq_div_pow]
  exact shl1_or_bit a (c / 2 ^ 31) (by omega)

set_option maxHeartbeats 4000000 in
/-- One pass of the loop on the 64-bit values: `N` is shifted left, its top
bit comes down into `R`, and `Q` takes the bit of the comparison with the
divisor, provided `R` and `Q` are below `2 ^ 63`. -/
theorem udiv_step_spec (Dhi Dlo : Nat) (s : UdivState) (hDhi : Dhi < 2 ^ 32)
    (hDlo : Dlo < 2 ^ 32)
    (hb : s.Nhi < 2 ^ 32 ∧ s.Nlo < 2 ^ 32 ∧ s.Qhi < 2 ^ 32 ∧ s.Qlo < 2 ^ 32 ∧
      s.Rhi < 2 ^ 32 ∧ s.Rlo < 2 ^ 32)
    (hR : join s.Rhi s.Rlo < 2 ^ 63) (hQ : join s.Qhi s.Qlo < 2 ^ 63) :
    ((udiv_step Dhi Dlo s).Nhi < 2 ^ 32 ∧ (udiv_step Dhi Dlo s).Nlo < 2 ^ 32 ∧
      (udiv_step Dhi Dlo s).Qhi < 2 ^ 32 ∧ (udiv_step Dhi Dlo s).Qlo < 2 ^ 32 ∧
      (udiv_step Dhi Dlo s).Rhi < 2 ^ 32 ∧ (udiv_step Dhi Dlo s).Rlo < 2 ^ 32) ∧
    join s.Nhi s.Nlo / 2 ^ 63 ≤ 1 ∧
    join (udiv_step Dhi Dlo s).Nhi (udiv_step Dhi Dlo s).Nlo + join s.Nhi s.Nlo / 2 ^ 63 * 2 ^ 64
      = 2 * join s.Nhi s.Nlo ∧
    (join Dhi Dlo ≤ 2 * join s.Rhi s.Rlo + join s.Nhi s.Nlo / 2 ^ 63 →
      join (udiv_step Dhi Dlo s).Qhi (udiv_step Dhi Dlo s).Qlo = 2 * join s.Qhi s.Qlo + 1 ∧
      join (udiv_step Dhi Dlo s).Rhi (udiv_step Dhi Dlo s).Rlo + join Dhi Dlo
        = 2 * join s.Rhi s.Rlo + join s.Nhi s.Nlo / 2 ^ 63) ∧
    (2 * join s.Rhi s.Rlo + join s.Nhi s.Nlo / 2 ^ 63 < join Dhi Dlo →
      join (udiv_step Dhi Dlo s).Qhi (udiv_step Dhi Dlo s).Qlo = 2 * join s.Qhi s.Qlo ∧
      join (udiv_step Dhi Dlo s).Rhi (udiv_step Dhi Dlo s).Rlo
        = 2 * join s.Rhi s.Rlo + join s.Nhi s.Nlo / 2 ^ 63) := by
  obtain ⟨h1, h2, h3, h4, h5, h6⟩ := hb
  have e1 := shl1_or_shr31 s.Rhi s.Rlo h6
  have e2 : ((s.Rlo <<< 1) % 2 ^ 32) ||| (if s.Nhi &&& 0x80000000 ≠ 0 then 1 else 0)
      = 2 * (s.Rlo % 2 ^ 31) + s.Nhi / 2 ^ 31 % 2 := by
    rw [shl1_or_bit _ _ (by split_ifs <;> omega)]
    simp only [msb_test]
    split_ifs <;> omega
  have e3 := shl1_or_shr31 s.Nhi s.Nlo h2
  have e4 : (s.Nlo <<< 1) % 2 ^ 32 = 2 * (s.Nlo % 2 ^ 31) := by
    rw [Nat.shiftLeft_eq, Nat.mul_comm, show (2 : Nat) ^ 32 = 2 * 2 ^ 31 by norm_num,
      Nat.mul_mod_mul_left]
  have e5 := shl1_or_shr31 s.Qhi s.Qlo h4
  have e6 : ∀ b : Nat, b < 2 → ((s.Qlo <<< 1) % 2 ^ 32) ||| b = 2 * (s.Qlo % 2 ^ 31) + b :=
    fun b hb => shl1_or_bit _ b hb
  simp only [join] at hR hQ ⊢
  simp only [udiv_step, e1, e2, e3, e4, e5]
  by_cases hge : 2 * (s.Rhi % 2 ^ 31) + s.Rlo / 2 ^ 31 > Dhi ∨
      (2 * (s.Rhi % 2 ^ 31) + s.Rlo / 2 ^ 31 = Dhi ∧
        2 * (s.Rlo % 2 ^ 31) + s.Nhi / 2 ^ 31 % 2 ≥ Dlo)
  · simp only [hge, if_true, e6 1 (by norm_num)]
    split_ifs <;> omega
  · simp only [hge, if_false, e6 0 (by norm_num)]
    omega

/-- A pass of the loop keeps the invariant, and the remainder it shifts is
below `2 ^ 63`, so the shift loses no bit. -/
theorem udiv_invariant_step (n d i Dhi Dlo : Nat) (s : UdivState)
    (hd : d = join Dhi Dlo) (hDhi : Dhi < 2 ^ 32) (hDlo : Dlo < 2 ^ 32) (hd0 : 0 < d)
    (hi : i < 64) (hinv : udiv_invariant n d i s) :
    udiv_invariant n d (i + 1) (udiv_step Dhi Dlo s) ∧ join s.Rhi s.Rlo < 2 ^ 63 := by
  obtain ⟨hb, hRd, hT, hn⟩ := hinv
  have hp : 2 ^ i ≤ 2 ^ 63 := Nat.pow_le_pow_right (by norm_num) (by omega)
  have hQd : join s.Qhi s.Qlo ≤ join s.Qhi s.Qlo * d := Nat.le_mul_of_pos_right _ hd0
  have hR63 : join s.Rhi s.Rlo < 2 ^ 63 := by omega
  have hQ63 : join s.Qhi s.Qlo < 2 ^ 63 := by omega
  obtain ⟨hb', hbit, hN', hge, hlt⟩ := udiv_step_spec Dhi Dlo s hDhi hDlo hb hR63 hQ63
  have hpow : 2 ^ (i + 1) = 2 * 2 ^ i := by ring
  have hnp : n * (2 * 2 ^ i) = 2 * (n * 2 ^ i) := by ring
  refine ⟨⟨hb', ?_⟩, hR63⟩
  rw [hpow, hnp]
  rw [← hd] at hge hlt
  rcases Nat.lt_or_ge (2 * join s.Rhi s.Rlo + join s.Nhi s.Nlo / 2 ^ 63) d with hc | hc
  · obtain ⟨hQ', hR'⟩ := hlt hc
    rw [hQ', hR']
    have hmul : 2 * join s.Qhi s.Qlo * d = 2 * (join s.Qhi s.Qlo * d) := by ring
    rw [hmul]
    refine ⟨hc, ?_, ?_⟩ <;> omega
  · obtain ⟨hQ', hR'⟩ := hge hc
    rw [hQ']
    have hmul : (2 * join s.Qhi s.Qlo + 1) * d = 2 * (join s.Qhi s.Qlo * d) + d := by ring
    rw [hmul]
    refine ⟨?_, ?_, ?_⟩ <;> omega

theorem udiv_invariant_loop (n d Dhi Dlo : Nat) (hd : d = join Dhi Dlo) (hDhi : Dhi < 2 ^ 32)
    (hDlo : Dlo < 2 ^ 32) (hd0 : 0 < d) :
    ∀ (k i : Nat) (s : UdivState), i + k ≤ 64 → udiv_invariant n d i s →
      udiv_invariant n d (i + k) (udiv_loop Dhi Dlo k s) := by
  intro k
  induction k with
  | zero =>
    intro i s _ h
    exact h
  | succ k ih =>
    intro i s hik h
    have hstep := (udiv_invariant_step n d i Dhi Dlo s hd hDhi hDlo hd0 (by omega) h).1
    have := ih (i + 1) (udiv_step Dhi Dlo s) (by omega) hstep
    rw [show i + (k + 1) = i + 1 + k by omega]
    exact this

theorem udiv_invariant_init (n d : Nat) (hn : n < 2 ^ 64) (hd0 : 0 < d) :
    udiv_invariant n d 0 ⟨hi_of n, lo_of n, 0, 0, 0, 0⟩ := by
  simp only [udiv_invariant, join, hi_of, lo_of]
  refine ⟨⟨?_, ?_, ?_, ?_, ?_, ?_⟩, ?_, ?_, ?_⟩ <;> omega

/-- The 64 passes of the loop leave the quotient in `Q`, for every dividend
and every non-zero divisor, whether or not an early exit applies. -/
theorem udiv_loop_quotient (n d : Nat) (hn : n < 2 ^ 64) (hd : d < 2 ^ 64) (hd0 : 0 < d) :
    join (udiv_loop (hi_of d) (lo_of d) 64 ⟨hi_of n, lo_of n, 0, 0, 0, 0⟩).Qhi
      (udiv_loop (hi_of d) (lo_of d) 64 ⟨hi_of n, lo_of n, 0, 0, 0, 0⟩).Qlo = n / d := by
  have hde : d = join (hi_of d) (lo_of d) := by
    simp only [join, hi_of, lo_of]
    omega
  have h := udiv_invariant_loop n d (hi_of d) (lo_of d) hde (Nat.mod_lt _ (by norm_num))
    (Nat.mod_lt _ (by norm_num)) hd0 64 0 _ (by omega) (udiv_invariant_init n d hn hd0)
  obtain ⟨hb, hR, hT, hN⟩ := h
  generalize udiv_loop (hi_of d) (lo_of d) 64 ⟨hi_of n, lo_of n, 0, 0, 0, 0⟩ = s at *
  obtain ⟨h1, h2, -⟩ := hb
  have hNb : join s.Nhi s.Nlo < 2 ^ 64 := by
    simp only [join]
    omega
  have hT0 : n = join s.Qhi s.Qlo * d + join s.Rhi s.Rlo := by
    simp only [Nat.zero_add] at hN
    omega
  rw [hT0, Nat.mul_comm, Nat.mul_add_div hd0, Nat.div_eq_of_lt hR, Nat.add_zero]

theorem u64_ucmp_lt (n d : Nat) (hn : n < 2 ^ 64) (hd : d < 2 ^ 64) :
    u64_ucmp (hi_of n) (lo_of n) (hi_of d) (lo_of d) < 0 ↔ n < d := by
  simp only [u64_ucmp, hi_of, lo_of]
  split_ifs <;> constructor <;> intro h <;> omega

/-- C39: for every unsigned 64-bit `n` and non-zero unsigned 64-bit `d`,
`_ll_udiv(n, d)` is `floor(n / d)`; the 64 passes of the restoring division
give that quotient on their own, so the early exits agree with the loop; and
before every pass the running remainder is below `2 ^ 63`, so shifting it left
loses no bit. -/
theorem ll_udiv_correct (n d : Nat) (hn : n < 2 ^ 64) (hd : d < 2 ^ 64) (hd0 : d ≠ 0) :
    _ll_udiv n d = n / d ∧
    join (udiv_loop (hi_of d) (lo_of d) 64 ⟨hi_of n, lo_of n, 0, 0, 0, 0⟩).Qhi
      (udiv_loop (hi_of d) (lo_of d) 64 ⟨hi_of n, lo_of n, 0, 0, 0, 0⟩).Qlo = n / d ∧
    (∀ i, i < 64 →
      join (udiv_loop (hi_of d) (lo_of d) i ⟨hi_of n, lo_of n, 0, 0, 0, 0⟩).Rhi
        (udiv_loop (hi_of d) (lo_of d) i ⟨hi_of n, lo_of n, 0, 0, 0, 0⟩).Rlo < 2 ^ 63) := by
  have hpos : 0 < d := Nat.pos_of_ne_zero hd0
  have hq := udiv_loop_quotient n d hn hd hpos
  have hde : d = join (hi_of d) (lo_of d) := by
    simp only [join, hi_of, lo_of]
    omega
  refine ⟨?_, hq, ?_⟩
  · have h0 : ¬ (hi_of d = 0 ∧ lo_of d = 0) := by
      simp only [hi_of, lo_of]
      omega
    simp only [_ll_udiv, h0, if_false, u64_ucmp_lt n d hn hd]
    split_ifs with h1 h2
    · exact (Nat.div_eq_of_lt h1).symm
    · have : d = 1 := by
        simp only [hi_of, lo_of] at h2
        omega
      rw [this, Nat.div_one]
    · exact hq
  · intro i hi
    have hinv := udiv_invariant_loop n d (hi_of d) (lo_of d) hde (Nat.mod_lt _ (by norm_num))
      (Nat.mod_lt _ (by norm_num)) hpos i 0 _ (by omega) (udiv_invariant_init n d hn hpos)
    rw [Nat.zero_add] at hinv
    exact (udiv_invariant_step n d i (hi_of d) (lo_of d) _ hde (Nat.mod_lt _ (by norm_num))
      (Nat.mod_lt _ (by norm_num)) hpos hi hinv).2

theorem ll_udiv_correct_witness :
    _ll_udiv 0xFFFFFFFFFFFFFFFF 0x8000000000000001
      = 0xFFFFFFFFFFFFFFFF / 0x8000000000000001 ∧
    (0xFFFFFFFFFFFFFFFF : Nat) / 0x8000000000000001 = 1 :=
  ⟨(ll_udiv_correct 0xFFFFFFFFFFFFFFFF 0x8000000000000001 (by decide) (by decide)
    (by decide)).1, by decide⟩

end Int64Runtime
